import Mathlib

/-! XafTool: the LZW decompressor and the archive walker

A shallow embedding of `src/includes/LZWDecoder.hpp` and of the archive
parsing and extraction flow of `src/XafTool.cpp`, with the properties of the
specification stated and settled against it.

Bytes are natural numbers below 256, strings are lists of bytes, machine
integers are natural numbers reduced modulo their width where the source can
wrap.  Loops of the source that have no bound of their own (`while (true)`)
take a fuel argument and answer `none` / `Outcome.outOfFuel` when it runs out;
a loop "does not terminate" when no fuel gives an answer.
-/

namespace LZW

/-- One 8-byte slot of `dictionary`: the symbol byte at offset 0 and the
32-bit back-reference at offset 4 (a byte offset, i.e. eight times the index
of the prefix entry, or `0xFFFFFFFF` for "no prefix"). -/
structure Entry where
  symbol : Nat
  next : Nat
deriving DecidableEq, Repr

/-- The members of `LZWDecoder` together with the two locals of `decode`
(`prevCode`, `first`).  `input` holds the unread bytes, that is
`input[inputPos .. inputSize)`; `dictionary` maps a slot index to its entry.
The source table has 4096 slots; the codes are at most 12 bits wide, so every
index the decoder forms stays below that, and the map is left total.  `temp`
is cleared before each use and `prevChar` is never read, so neither is kept. -/
structure LZWDecoder where
  input : List Nat
  codeSize : Nat
  initialCodeSize : Nat
  dictLimit : Nat
  dictSize : Nat
  bitBuffer : Nat
  bitCount : Nat
  dictionary : Nat → Entry
  output : List Nat
  prevCode : Nat
  first : Bool

/-- The `while (bitCount < n)` loop of `readBits`: shifts whole bytes into the
32-bit `bitBuffer` until `n` bits are buffered.  The `Bool` is `false` when the
input ran out first (the `return -1`). -/
def fillBits (n : Nat) : List Nat → Nat → Nat → Bool × List Nat × Nat × Nat
  | [], buf, cnt => (decide (¬ cnt < n), [], buf, cnt)
  | b :: rest, buf, cnt =>
    if cnt < n then fillBits n rest (((buf <<< 8) % 4294967296) ||| b) (cnt + 8)
    else (true, b :: rest, buf, cnt)

/-- `readBits(n)`: `none` stands for the end-of-stream value `-1`. -/
def readBits (n : Nat) (st : LZWDecoder) : Option Nat × LZWDecoder :=
  match fillBits n st.input st.bitBuffer st.bitCount with
  | (false, rest, buf, cnt) => (none, { st with input := rest, bitBuffer := buf, bitCount := cnt })
  | (true, rest, buf, cnt) =>
    let shift := cnt - n
    let code := (buf >>> shift) &&& ((1 <<< n) - 1)
    (some code, { st with input := rest, bitBuffer := buf &&& ((1 <<< shift) - 1), bitCount := shift })

/-- The body of the `for` loop of `resetDictionary` for one `i`. -/
def resetSlot (st : LZWDecoder) (i : Nat) : LZWDecoder :=
  { st with
    dictionary := fun j => if j = i then { symbol := i % 256, next := 0xFFFFFFFF } else st.dictionary j
    dictSize := st.dictSize + 1 }

/-- `resetDictionary()`: slots 0..255 become the singletons. -/
def resetDictionary (st : LZWDecoder) : LZWDecoder :=
  (List.range 256).foldl resetSlot { st with dictSize := 0 }

/-- `getSequence(code, out)`: walks the back-references, pushing each symbol.
The source loop is `while (true)`; `fuel` bounds the number of slots visited
and `none` means the bound was reached. -/
def getSequence : Nat → (Nat → Entry) → Nat → List Nat → Option (List Nat)
  | 0, _, _, _ => none
  | fuel + 1, dictionary, code, out =>
    let symbol := (dictionary code).symbol
    let out := out ++ [symbol]
    let next := (dictionary code).next
    if next = 0xFFFFFFFF then some out else getSequence fuel dictionary (next / 8) out

/-- `addToDictionary(prefixCode, newChar)`. -/
def addToDictionary (st : LZWDecoder) (prefixCode newChar : Nat) : LZWDecoder :=
  if st.dictSize ≥ 4096 then st
  else
    { st with
      dictionary := fun j =>
        if j = st.dictSize then { symbol := newChar, next := (prefixCode * 8) % 4294967296 }
        else st.dictionary j
      dictSize := st.dictSize + 1 }

/-- Lines 25-35 of `decode`: the byte sequence `temp` a code resolves to. -/
def resolve (fuel : Nat) (st : LZWDecoder) (code : Nat) : Option (List Nat) :=
  if code ≥ st.dictSize then
    (getSequence fuel st.dictionary st.prevCode []).map
      (fun t => t.reverse ++ [t.reverse.headD 0])
  else
    (getSequence fuel st.dictionary code []).map List.reverse

/-- Lines 47-58 of `decode`: width growth, or reset at full width. -/
def growOrReset (st : LZWDecoder) : LZWDecoder :=
  if st.dictSize = (st.dictLimit + 4294967295) % 4294967296 then
    if st.codeSize < 12 then
      { st with codeSize := st.codeSize + 1, dictLimit := 1 <<< (st.codeSize + 1) }
    else
      let st := resetDictionary st
      { st with codeSize := st.initialCodeSize, dictLimit := 1 <<< st.initialCodeSize, first := true }
  else st

/-- Lines 37-58 of `decode` once `temp` is known. -/
def update (st : LZWDecoder) (code : Nat) (temp : List Nat) : LZWDecoder :=
  let st := { st with output := st.output ++ temp }
  let st := if st.first then st else addToDictionary st st.prevCode (temp.headD 0)
  let st := { st with prevCode := code, first := false }
  growOrReset st

/-- One iteration of the `while (true)` loop of `decode` after a code was
read; `none` when `getSequence` did not come back within `fuel`. -/
def decodeBody (fuel : Nat) (st : LZWDecoder) (code : Nat) : Option LZWDecoder :=
  (resolve fuel st code).map (update st code)

/-- The `while (true)` loop of `decode`.  The second argument bounds the number
of iterations, `fuel` is handed to every `getSequence` call. -/
def decodeLoop (fuel : Nat) : Nat → LZWDecoder → Option (List Nat)
  | 0, _ => none
  | k + 1, st =>
    match readBits st.codeSize st with
    | (none, _) => some st.output
    | (some code, st1) =>
      match decodeBody fuel st1 code with
      | none => none
      | some st2 => decodeLoop fuel k st2

/-- The state in which the loop of `decode` is left: the one whose read finds
too few bits (same loop as `decodeLoop`, which returns the `output` of it). -/
def exitState (fuel : Nat) : Nat → LZWDecoder → Option LZWDecoder
  | 0, _ => none
  | k + 1, st =>
    match readBits st.codeSize st with
    | (none, _) => some st
    | (some code, st1) =>
      match decodeBody fuel st1 code with
      | none => none
      | some st2 => exitState fuel k st2

/-- The constructor `LZWDecoder(input, inputSize, decompressedSize, startCodeSize)`:
`decompressedSize` only reserves capacity and is left out. -/
def LZWDecoder.new (input : List Nat) (startCodeSize : Nat) : LZWDecoder :=
  resetDictionary
    { input := input
      codeSize := startCodeSize
      initialCodeSize := startCodeSize
      dictLimit := 1 <<< startCodeSize
      dictSize := 0
      bitBuffer := 0
      bitCount := 0
      dictionary := fun _ => { symbol := 0, next := 0 }
      output := []
      prevCode := 0
      first := true }

/-- Running `LZWDecoder(input, size).decode()` with the default start code
size 9: `some out` when it returns `out` within `fuel`. -/
def decode (fuel : Nat) (input : List Nat) : Option (List Nat) :=
  decodeLoop fuel fuel (LZWDecoder.new input 9)

/-- Value of a byte string read as one big-endian number. -/
def beVal : List Nat → Nat
  | [] => 0
  | b :: rest => b * 256 ^ rest.length + beVal rest

/-- The bits the reader has not handed out yet, as one number: the buffered
bits followed by the unread bytes. -/
def LZWDecoder.pendingVal (st : LZWDecoder) : Nat :=
  st.bitBuffer * 256 ^ st.input.length + beVal st.input

/-- How many bits are buffered or unread. -/
def LZWDecoder.pendingLen (st : LZWDecoder) : Nat :=
  st.bitCount + 8 * st.input.length

/-- The codes `decode` reads, in order, each with the value of `first` and of
`dictSize` at the moment it is read (same loop as `decodeLoop`, same fuel). -/
def codesRead (fuel : Nat) : Nat → LZWDecoder → List (Bool × Nat × Nat)
  | 0, _ => []
  | k + 1, st =>
    match readBits st.codeSize st with
    | (none, _) => []
    | (some code, st1) =>
      (st1.first, st1.dictSize, code) ::
        (match decodeBody fuel st1 code with
         | none => []
         | some st2 => codesRead fuel k st2)

/-- A code that refers to something: the first code of an epoch is a
singleton, every other code is at most `dictSize`. -/
def codeOk (p : Bool × Nat × Nat) : Bool :=
  if p.1 then decide (p.2.2 < 256) else decide (p.2.2 ≤ p.2.1)

/-- Every code of the stream refers to something when it is read. -/
def WellFormedStream (input : List Nat) : Prop :=
  ∀ fuel k, ∀ p ∈ codesRead fuel k (LZWDecoder.new input 9), codeOk p = true

/-- `Chain d j s`: the back-references from slot `j` lead, always to a smaller
slot, to a slot without prefix, and the symbols on the way are `s`, the oldest
first. -/
inductive Chain (d : Nat → Entry) : Nat → List Nat → Prop where
  | root (j : Nat) : (d j).next = 0xFFFFFFFF → Chain d j [(d j).symbol]
  | link (j p : Nat) (s : List Nat) : (d j).next = 8 * p → p < j → Chain d p s →
      Chain d j (s ++ [(d j).symbol])

/-- The state between two iterations of `decode` on a well-formed stream. -/
structure Inv (st : LZWDecoder) : Prop where
  cs_lo : 9 ≤ st.codeSize
  cs_hi : st.codeSize ≤ 12
  init : st.initialCodeSize = 9
  limit : st.dictLimit = 2 ^ st.codeSize
  ds_lo : 256 ≤ st.dictSize
  ds_hi : st.dictSize + 2 ≤ 2 ^ st.codeSize
  cnt : st.bitCount < 8
  buf : st.bitBuffer < 2 ^ st.bitCount
  bytes : ∀ b ∈ st.input, b < 256
  roots : ∀ j, j < 256 → st.dictionary j = { symbol := j, next := 0xFFFFFFFF }
  links : ∀ j, 256 ≤ j → j < st.dictSize → ∃ p, p < j ∧ (st.dictionary j).next = 8 * p
  prev : st.first = false → st.prevCode < st.dictSize

/-- Two states that differ at most in what the bit reader owns (`input`,
`bitBuffer`, `bitCount`). -/
def LZWDecoder.sameCore (a b : LZWDecoder) : Prop :=
  a.codeSize = b.codeSize ∧ a.initialCodeSize = b.initialCodeSize ∧
    a.dictLimit = b.dictLimit ∧ a.dictSize = b.dictSize ∧ a.dictionary = b.dictionary ∧
    a.output = b.output ∧ a.prevCode = b.prevCode ∧ a.first = b.first

/-- The reader part of a state is in order: fewer than eight bits buffered,
nothing above them in the buffer, the unread input made of bytes. -/
def LZWDecoder.readerOk (st : LZWDecoder) : Prop :=
  st.bitCount < 8 ∧ st.bitBuffer < 2 ^ st.bitCount ∧ ∀ b ∈ st.input, b < 256

/-! ### The reference encoder

The repository holds the decoder only.  The round-trip property of the
specification speaks of "a reference encoder implementing the same
dictionary/code-width growth rules"; it is modelled here. -/

/-- Modelled from the spec: the state of the reference encoder, which is not
part of the repository.  `table` holds the byte strings of the codes 256, 257,
... of the current epoch, `codeSize` the width of the next code, `prev` the
phrase emitted last and `first` whether the next code opens an epoch. -/
structure Encoder where
  table : List (List Nat)
  codeSize : Nat
  prev : List Nat
  first : Bool
deriving DecidableEq, Repr

/-- Modelled from the spec: the scan of the reference encoder's string table
for the longest entry that starts `input`; `code` is the code of the entry at
the head of the list, `best` the best code so far with the length of its
string. -/
def bestMatch (input : List Nat) : List (List Nat) → Nat → Nat × Nat → Nat × Nat
  | [], _, best => best
  | s :: rest, code, best =>
    bestMatch input rest (code + 1)
      (if s.isPrefixOf input && decide (best.2 < s.length) then (code, s.length) else best)

/-- Modelled from the spec: the longest string known to the reference encoder
that starts `input`, as (code, length): the singleton of the first byte, or a
longer table entry. -/
def longestMatch (table : List (List Nat)) (input : List Nat) : Nat × Nat :=
  bestMatch input table 256 (input.headD 0, 1)

/-- Modelled from the spec: the reference encoder's string table when it looks
for the next phrase: after the first code of an epoch the previous phrase
extended by the byte that follows it has become the newest entry. -/
def Encoder.tableNow (enc : Encoder) (b : Nat) : List (List Nat) :=
  if enc.first then enc.table else enc.table ++ [enc.prev ++ [b]]

/-- Modelled from the spec: the reference encoder after it emitted the code of
`phrase` with the table `table`: the width grows when the dictionary has
reached `2 ^ codeSize - 1` entries, and at that size with 12-bit codes the
table is dropped, the width returns to 9 and a new epoch opens. -/
def Encoder.advance (enc : Encoder) (table : List (List Nat)) (phrase : List Nat) : Encoder :=
  if 256 + table.length = 2 ^ enc.codeSize - 1 then
    if enc.codeSize < 12 then
      { table := table, codeSize := enc.codeSize + 1, prev := phrase, first := false }
    else { table := [], codeSize := 9, prev := phrase, first := true }
  else { table := table, codeSize := enc.codeSize, prev := phrase, first := false }

/-- Modelled from the spec: the main loop of the reference encoder.  It emits,
as (code, width) pairs, the code of the longest known string that starts the
remaining input, and goes on behind that string.  Every turn consumes a byte,
so a `fuel` of the input length is enough. -/
def encodeLoop : Nat → Encoder → List Nat → List (Nat × Nat)
  | 0, _, _ => []
  | _ + 1, _, [] => []
  | fuel + 1, enc, b :: rest =>
    let table := enc.tableNow b
    let m := longestMatch table (b :: rest)
    (m.1, enc.codeSize) ::
      encodeLoop fuel (enc.advance table ((b :: rest).take m.2)) ((b :: rest).drop m.2)

/-- Modelled from the spec: the number of bits of a list of (code, width) pairs. -/
def packLen : List (Nat × Nat) → Nat
  | [] => 0
  | (_, w) :: rest => w + packLen rest

/-- Modelled from the spec: the codes written one after the other, most
significant bit first, read as one binary number. -/
def packVal : List (Nat × Nat) → Nat
  | [] => 0
  | (c, _) :: rest => c * 2 ^ packLen rest + packVal rest

/-- Modelled from the spec: the `n` bytes of the big-endian representation of
`v`. -/
def toBytes : Nat → Nat → List Nat
  | 0, _ => []
  | n + 1, v => (v / 256 ^ n) % 256 :: toBytes n (v % 256 ^ n)

/-- Modelled from the spec: the number of zero bits that fill the last byte. -/
def padLen (codes : List (Nat × Nat)) : Nat := (8 - packLen codes % 8) % 8

/-- Modelled from the spec: the codes packed most significant bit first and
padded with zero bits to a whole byte. -/
def pack (codes : List (Nat × Nat)) : List Nat :=
  toBytes ((packLen codes + padLen codes) / 8) (packVal codes * 2 ^ padLen codes)

/-- Modelled from the spec: the reference encoder, which the repository does
not contain.  256 singleton entries, 9-bit initial codes, greedy longest
match, codes packed most significant bit first and zero-padded to a whole
byte, width growth and reset as in `Encoder.advance`. -/
def encode (s : List Nat) : List Nat :=
  pack (encodeLoop s.length { table := [], codeSize := 9, prev := [], first := true } s)

/-- The encoder state `enc` and the decoder state `st` between two codes: same
width, same epoch flag, and every string of the encoder's table is what the
decoder's slot of that code spells. -/
structure Sim (enc : Encoder) (st : LZWDecoder) : Prop where
  inv : Inv st
  codeSize : st.codeSize = enc.codeSize
  first : st.first = enc.first
  size : st.dictSize = 256 + enc.table.length
  fresh : enc.first = true → enc.table = []
  table : ∀ i s, enc.table[i]? = some s → Chain st.dictionary (256 + i) s
  prev : enc.first = false → Chain st.dictionary st.prevCode enc.prev

/-- What `longestMatch` may answer for `input` and `table`: the singleton of
the first byte, or the code of a table entry of two bytes or more that starts
`input`, each with the length of its string. -/
def IsMatch (table : List (List Nat)) (input : List Nat) (m : Nat × Nat) : Prop :=
  m = (input.headD 0, 1) ∨
    ∃ i s, table[i]? = some s ∧ s <+: input ∧ m = (256 + i, s.length) ∧ 1 < s.length

/-- The string table the reference encoder has built after `m + 1` codes of
an epoch on an input that repeats the byte `a`: the runs of 2, 3, ..., `m + 1`
bytes. -/
def constTable (a m : Nat) : List (List Nat) :=
  (List.range m).map (fun j => List.replicate (j + 2) a)

/-- The reference encoder after `m + 1` codes of an epoch on an input that
repeats the byte `a`, at code width `w`. -/
def constState (a m w : Nat) : Encoder :=
  { table := constTable a m, codeSize := w, prev := List.replicate (m + 1) a, first := false }

/-- The code widths of one full epoch followed by the first code of the next. -/
def epochWidths : List Nat :=
  List.replicate 256 9 ++ List.replicate 512 10 ++ List.replicate 1024 11 ++
    List.replicate 2048 12 ++ [9]

/-- The `n` low binary digits of `v`, the most significant first. -/
def natBits : Nat → Nat → List Bool
  | 0, _ => []
  | n + 1, v => v.testBit n :: natBits n v

/-- The number whose binary digits, the most significant first, are `bs`. -/
def bitsVal (bs : List Bool) : Nat := bs.foldl (fun acc b => 2 * acc + b.toNat) 0

/-- The input seen as one string of bits: the bytes in order, the most
significant bit of a byte first. -/
def bitString (input : List Nat) : List Bool := input.flatMap (natBits 8)

/-- The calls `readBits(n_1)`, `readBits(n_2)`, ... made one after the other:
what each returns and the decoder it leaves. -/
def readSeq : List Nat → LZWDecoder → List (Option Nat × LZWDecoder)
  | [], _ => []
  | n :: ns, st => readBits n st :: readSeq ns (readBits n st).2

/-- The codes `decode` reads, in order, each with the decoder as the read of
that code leaves it (same loop as `decodeLoop`, same fuel); the last code is
listed also when its `getSequence` does not come back. -/
def reads (fuel : Nat) : Nat → LZWDecoder → List (LZWDecoder × Nat)
  | 0, _ => []
  | k + 1, st =>
    match readBits st.codeSize st with
    | (none, _) => []
    | (some code, st1) =>
      (st1, code) ::
        (match decodeBody fuel st1 code with
         | none => []
         | some st2 => reads fuel k st2)

/-- The slots `getSequence(code, out)` looks at, in the order of the walk (same
loop as `getSequence`, the slot index collected instead of the symbol). -/
def slotsVisited : Nat → (Nat → Entry) → Nat → List Nat
  | 0, _, _ => []
  | fuel + 1, dictionary, code =>
    code ::
      (if (dictionary code).next = 0xFFFFFFFF then []
       else slotsVisited fuel dictionary ((dictionary code).next / 8))

/-- The code `getSequence` is called with in lines 25-35 of `decode`. -/
def walked (st : LZWDecoder) (code : Nat) : Nat :=
  if code ≥ st.dictSize then st.prevCode else code

/-- The width schedule of the specification: the width of the code at position
`i` of the stream, counting from 0.  In every run of 3840 codes the first 256
have 9 bits, the next 512 have 10, the next 1024 have 11 and the last 2048
have 12. -/
def widthAt (i : Nat) : Nat :=
  if i % 3840 < 256 then 9 else if i % 3840 < 768 then 10 else if i % 3840 < 1792 then 11
  else 12

/-- The dictionary size of the specification's schedule when the code at
position `i` is read: 256 for the code that opens a run of 3840, one more for
each code after the second. -/
def sizeAt (i : Nat) : Nat := if i % 3840 = 0 then 256 else 255 + i % 3840

/-- The bookkeeping of the decoder when the code at position `n` of the stream
is read, whatever the codes before it were: width, dictionary size and epoch
flag follow the schedule, the singletons are in place, and every code or
back-reference kept is an index below 4096. -/
structure AtPosition (n : Nat) (st : LZWDecoder) : Prop where
  codeSize : st.codeSize = widthAt n
  dictSize : st.dictSize = sizeAt n
  first : st.first = decide (n % 3840 = 0)
  init : st.initialCodeSize = 9
  limit : st.dictLimit = 2 ^ st.codeSize
  roots : ∀ j, j < 256 → st.dictionary j = { symbol := j, next := 0xFFFFFFFF }
  prev : st.prevCode < 4096
  refs : ∀ j, (st.dictionary j).next = 0xFFFFFFFF ∨ (st.dictionary j).next / 8 < 4096

/-- The bounds on the code width and on the dictionary size between two
iterations of `decode`. -/
def InRange (st : LZWDecoder) : Prop :=
  9 ≤ st.codeSize ∧ st.codeSize ≤ 12 ∧ 256 ≤ st.dictSize ∧ st.dictSize + 2 ≤ 2 ^ st.codeSize

/-- The dictionary of a state is in order: slots 0..255 hold the singletons,
and every live slot from 256 on refers back to a smaller slot, so that the
walk of `getSequence` from it returns, within any fuel that covers its length,
a sequence `s` (pushed last byte first) of at most `i - 254` bytes whose first
byte is a singleton's. -/
def WellFormedDictionary (st : LZWDecoder) : Prop :=
  (∀ j, j < 256 → st.dictionary j = { symbol := j, next := 0xFFFFFFFF }) ∧
  ∀ i, 256 ≤ i → i < st.dictSize →
    (∃ q, q < i ∧ (st.dictionary i).next = 8 * q) ∧
    ∃ (s : List Nat) (r : Nat), s.length ≤ i - 254 ∧ r < 256 ∧ s.head? = some r ∧
      ∀ fuel, s.length ≤ fuel → getSequence fuel st.dictionary i [] = some s.reverse

end LZW

/-! ## The archive walker (`src/XafTool.cpp`) -/

/-- How a run of source code with unbounded loops and unchecked accesses ends:
with a value, in undefined behaviour (an out-of-range `entries[parentId]`,
`back()` of an empty string, a name array without terminator read as a C
string), or still running when the fuel is used up. -/
inductive Outcome (α : Type) where
  | ok (a : α)
  | undefined
  | outOfFuel
deriving DecidableEq, Repr

namespace Xaf

/-- Value of a field stored little-endian (the x86 target of the tool). -/
def leVal : List Nat → Nat
  | [] => 0
  | b :: rest => b + 256 * leVal rest

/-- The opened archive: its bytes and the position of the file cursor. -/
structure Source where
  bytes : List Nat
  cursor : Nat
deriving DecidableEq, Repr

/-- `readFromFile(fileHandle, buffer, size)` into a zero-initialised buffer:
`ReadFile` copies the bytes that are there, at most `size`, and moves the
cursor by that many; the rest of the buffer stays zero.  The returned count is
ignored by every caller and left out. -/
def readFromFile (src : Source) (size : Nat) : List Nat × Source :=
  let got := (src.bytes.drop src.cursor).take size
  (got ++ List.replicate (size - got.length) 0, { src with cursor := src.cursor + got.length })

/-- `moveFileCursor(fileHandle, offset, FILE_BEGIN)`: `offset` is a `uint64_t`
stored into the signed `LARGE_INTEGER`; a negative position is refused by
`SetFilePointerEx` and the cursor stays (the error is ignored by the callers). -/
def moveFileCursor (src : Source) (offset : Nat) : Source :=
  if offset < 2 ^ 63 then { src with cursor := offset } else src

/-- `struct XafHeader`. -/
structure XafHeader where
  signature : List Nat
  majorVersion : Nat
  minorVersion : Nat
  sectorSize : Nat
  totalRecords : Nat
  totalDirectories : Nat
  totalFiles : Nat
  dataSectorCount : Nat
  headerSectorCount : Nat
  totalSectorCount : Nat
  title : List Nat
  comment : List Nat
  totalVolumes : Nat
  padding : Nat
deriving DecidableEq, Repr

/-- `struct XafFileFlags`. -/
structure XafFileFlags where
  isFile : Nat
  compressionType : Nat
  encryptionType : Nat
  flag4 : Nat
deriving DecidableEq, Repr

/-- `struct XafFileEntry` and `struct XafFileEntry2` as `processEntries` sees
them: the generic lambda reads the same members of both, and `name` is the
whole array, 64 bytes in the first layout and 128 in the second. -/
structure XafFileEntry where
  name : List Nat
  flags : XafFileFlags
  parentId : Nat
  nextSibling : Nat
  firstChild : Nat
  size : Nat
  compressedSize : Nat
  sectorStartIndex : Nat
deriving DecidableEq, Repr

/-- The magic tag `"xaf0"`. -/
def magic : List Nat := [120, 97, 102, 48]

/-- `kHEADER_SIZE`. -/
def kHEADER_SIZE : Nat := 0x100

/-- A scalar member read with `readFromFile(fileHandle, &member, sizeof member)`. -/
def readScalar (src : Source) (size : Nat) : Nat × Source :=
  ((readFromFile src size).1 |> leVal, (readFromFile src size).2)

/-- Lines 148-160 of `main`: the header members after the signature, read one
by one in declaration order. -/
def readFields (signature : List Nat) (src : Source) : XafHeader × Source :=
  let (majorVersion, src) := readScalar src 2
  let (minorVersion, src) := readScalar src 2
  let (sectorSize, src) := readScalar src 4
  let (totalRecords, src) := readScalar src 4
  let (totalDirectories, src) := readScalar src 4
  let (totalFiles, src) := readScalar src 4
  let (dataSectorCount, src) := readScalar src 8
  let (headerSectorCount, src) := readScalar src 8
  let (totalSectorCount, src) := readScalar src 8
  let (title, src) := readFromFile src 64
  let (comment, src) := readFromFile src 64
  let (totalVolumes, src) := readScalar src 4
  let (padding, src) := readScalar src 4
  ({ signature := signature, majorVersion := majorVersion, minorVersion := minorVersion
     sectorSize := sectorSize, totalRecords := totalRecords
     totalDirectories := totalDirectories, totalFiles := totalFiles
     dataSectorCount := dataSectorCount, headerSectorCount := headerSectorCount
     totalSectorCount := totalSectorCount, title := title, comment := comment
     totalVolumes := totalVolumes, padding := padding }, src)

/-- Lines 138-160 of `main`: the signature is read and compared first; `none`
is the `return 1` of the mismatch branch, with the source as it was left. -/
def readHeader (src : Source) : Option XafHeader × Source :=
  if (readFromFile src 4).1 ≠ magic then (none, (readFromFile src 4).2)
  else
    (some (readFields (readFromFile src 4).1 (readFromFile src 4).2).1,
      (readFields (readFromFile src 4).1 (readFromFile src 4).2).2)

/-- `readFromFile(fileHandle, &fileEntry.flags, sizeof(fileEntry.flags))`. -/
def readFlags (src : Source) : XafFileFlags × Source :=
  let (b, src) := readFromFile src 4
  ({ isFile := b.getD 0 0, compressionType := b.getD 1 0
     encryptionType := b.getD 2 0, flag4 := b.getD 3 0 }, src)

/-- Lines 209-219: one record of the first layout (`XafFileEntry`, 96 bytes). -/
def readEntry1 (src : Source) : XafFileEntry × Source :=
  let (name, src) := readFromFile src 64
  let (flags, src) := readFlags src
  let (parentId, src) := readScalar src 4
  let (nextSibling, src) := readScalar src 4
  let (firstChild, src) := readScalar src 4
  let (size, src) := readScalar src 4
  let (compressedSize, src) := readScalar src 4
  let (sectorStartIndex, src) := readScalar src 8
  ({ name := name, flags := flags, parentId := parentId, nextSibling := nextSibling
     firstChild := firstChild, size := size, compressedSize := compressedSize
     sectorStartIndex := sectorStartIndex }, src)

/-- Lines 194-206: one record of the second layout (`XafFileEntry2`, 176
bytes); the three padding members are read and not used afterwards. -/
def readEntry2 (src : Source) : XafFileEntry × Source :=
  let (name, src) := readFromFile src 128
  let (flags, src) := readFlags src
  let (parentId, src) := readScalar src 4
  let (nextSibling, src) := readScalar src 4
  let (firstChild, src) := readScalar src 4
  let (_padding1, src) := readScalar src 4
  let (size, src) := readScalar src 4
  let (compressedSize, src) := readScalar src 4
  let (_padding2, src) := readScalar src 4
  let (sectorStartIndex, src) := readScalar src 8
  let (_padding3, src) := readScalar src 8
  ({ name := name, flags := flags, parentId := parentId, nextSibling := nextSibling
     firstChild := firstChild, size := size, compressedSize := compressedSize
     sectorStartIndex := sectorStartIndex }, src)

/-- `bool isVersion2 = header.majorVersion == 2;` -/
def isVersion2 (header : XafHeader) : Bool := header.majorVersion == 2

/-- The record loop of lines 190-221, `n` records still to read. -/
def readEntries (version2 : Bool) : Nat → Source → List XafFileEntry × Source
  | 0, src => ([], src)
  | n + 1, src =>
    let (e, src) := if version2 then readEntry2 src else readEntry1 src
    let (es, src) := readEntries version2 n src
    (e :: es, src)

/-- A `char` array converted to `std::string` (`std::string s = parent.name;`):
the bytes before the first zero.  `none` when the array holds no zero, the read
then runs past the array. -/
def cString (name : List Nat) : Option (List Nat) :=
  if 0 ∈ name then some (name.takeWhile (fun c => c ≠ 0)) else none

/-- What a callee that takes `s.c_str()` sees of a `std::string`. -/
def c_str (s : List Nat) : List Nat := s.takeWhile (fun c => c ≠ 0)

/-- The backslash. -/
def sep : Nat := 92

/-- The `while (true)` parent walk of lines 240-254; `fuel` bounds the number
of times the loop head is reached. -/
def parentWalk : Nat → List XafFileEntry → Nat → List (List Nat) → Outcome (List (List Nat))
  | 0, _, _, _ => Outcome.outOfFuel
  | fuel + 1, entries, parentId, folderList =>
    if parentId = 0xFFFFFFFF then Outcome.ok folderList
    else
      match entries[parentId]? with
      | none => Outcome.undefined
      | some parent =>
        match cString parent.name with
        | none => Outcome.undefined
        | some parentPath =>
          match parentPath.getLast? with
          | none => Outcome.undefined
          | some back =>
            let parentPath := if back ≠ sep then parentPath ++ [sep] else parentPath
            parentWalk fuel entries parent.parentId (folderList ++ [parentPath])

/-- Lines 234-260: the `fullPath` string built for `fileEntry`. -/
def fullPath (fuel : Nat) (entries : List XafFileEntry) (fileEntry : XafFileEntry) :
    Outcome (List Nat) :=
  if fileEntry.parentId ≠ 0xFFFFFFFF then
    match parentWalk fuel entries fileEntry.parentId [] with
    | Outcome.ok folderList => Outcome.ok (folderList.reverse.flatten ++ fileEntry.name.take 64)
    | Outcome.undefined => Outcome.undefined
    | Outcome.outOfFuel => Outcome.outOfFuel
  else Outcome.ok []

/-- What the extractor asks of the file system. -/
inductive Event where
  | createDirectories (path : List Nat)
  | writeFile (path : List Nat) (data : List Nat)
deriving DecidableEq, Repr

/-- `outputFolder + "\\" + fullPath`. -/
def finalPath (outputFolder path : List Nat) : List Nat := outputFolder ++ [sep] ++ path

/-- Lines 281-347 for one record whose `fullPath` is `path`: the request made
to the file system, if any, and the source afterwards.  `CreateFileA` takes
`finalPath.c_str()`; a request the file system refuses changes nothing in the
tool's own state. -/
def extract (fuel : Nat) (outputFolder : List Nat) (header : XafHeader) (src : Source)
    (fileEntry : XafFileEntry) (path : List Nat) : Outcome (List Event × Source) :=
  if fileEntry.flags.isFile = 0 then
    Outcome.ok ([Event.createDirectories (finalPath outputFolder path)], src)
  else if fileEntry.flags.compressionType = 0 then
    let src := moveFileCursor src ((fileEntry.sectorStartIndex * header.sectorSize) % 2 ^ 64)
    let (fileBuffer, src) := readFromFile src fileEntry.size
    Outcome.ok ([Event.writeFile (c_str (finalPath outputFolder path)) fileBuffer], src)
  else if fileEntry.flags.compressionType = 1 then
    let src := moveFileCursor src ((fileEntry.sectorStartIndex * header.sectorSize) % 2 ^ 64)
    let actualSize := (fileEntry.compressedSize + (2 ^ 32 - 4)) % 2 ^ 32
    let (_ysMagic, src) := readFromFile src 4
    let (inputBuffer, src) := readFromFile src actualSize
    match LZW.decode fuel inputBuffer with
    | none => Outcome.outOfFuel
    | some decompressed =>
      Outcome.ok ([Event.writeFile (c_str (finalPath outputFolder path)) decompressed], src)
  else Outcome.ok ([], src)

/-- The `for` loop of `processEntries` over the records still to visit;
`entries` is the whole table. -/
def processEntries (fuel : Nat) (outputFolder : List Nat) (header : XafHeader)
    (entries : List XafFileEntry) : List XafFileEntry → Source → Outcome (List Event × Source)
  | [], src => Outcome.ok ([], src)
  | fileEntry :: rest, src =>
    match fullPath fuel entries fileEntry with
    | Outcome.undefined => Outcome.undefined
    | Outcome.outOfFuel => Outcome.outOfFuel
    | Outcome.ok path =>
      match extract fuel outputFolder header src fileEntry path with
      | Outcome.undefined => Outcome.undefined
      | Outcome.outOfFuel => Outcome.outOfFuel
      | Outcome.ok (events, src) =>
        match processEntries fuel outputFolder header entries rest src with
        | Outcome.undefined => Outcome.undefined
        | Outcome.outOfFuel => Outcome.outOfFuel
        | Outcome.ok (more, src) => Outcome.ok (events ++ more, src)

/-- What a run of `main` leaves behind. -/
structure Run where
  exitCode : Nat
  entries : List XafFileEntry
  events : List Event
  source : Source
deriving DecidableEq, Repr

/-- The function `main` from line 138 on, for an archive that could be opened:
header, record table, extraction. -/
def main (fuel : Nat) (outputFolder archive : List Nat) : Outcome Run :=
  match readHeader { bytes := archive, cursor := 0 } with
  | (none, src) => Outcome.ok { exitCode := 1, entries := [], events := [], source := src }
  | (some header, src) =>
    let src := moveFileCursor src kHEADER_SIZE
    let (entries, src) := readEntries (isVersion2 header) header.totalRecords src
    match processEntries fuel outputFolder header entries entries src with
    | Outcome.undefined => Outcome.undefined
    | Outcome.outOfFuel => Outcome.outOfFuel
    | Outcome.ok (events, src) =>
      Outcome.ok { exitCode := 0, entries := entries, events := events, source := src }

/-- A name array of `width` bytes holding `s` and zeros after it. -/
def nameField (width : Nat) (s : List Nat) : List Nat :=
  (s ++ List.replicate (width - s.length) 0).take width

/-- One turn of the parent walk seen on ids only: the id the loop looks at
after `parentId`, `none` when the loop stops there (the root sentinel) or
`parentId` is no index of the table. -/
def parentStep (entries : List XafFileEntry) (parentId : Nat) : Option Nat :=
  if parentId = 0xFFFFFFFF then none else (entries[parentId]?).map (fun p => p.parentId)

/-- The id the walk looks at after `k` turns, starting from `id`. -/
def parentIter (entries : List XafFileEntry) : Nat → Nat → Option Nat
  | 0, id => some id
  | k + 1, id => (parentStep entries id).bind (parentIter entries k)

/-- Every `parentId` is the root sentinel or an index of the table. -/
def ValidLinks (entries : List XafFileEntry) : Prop :=
  ∀ r ∈ entries, r.parentId = 0xFFFFFFFF ∨ r.parentId < entries.length

/-- No id comes back to itself along the parent links. -/
def Acyclic (entries : List XafFileEntry) : Prop :=
  ∀ j k, parentIter entries (k + 1) j ≠ some j

/-- A name array that holds a terminated, non-empty string. -/
def NameOk (e : XafFileEntry) : Prop := 0 ∈ e.name ∧ e.name.head? ≠ some 0

/-- Every record that some record names as its parent has a terminated,
non-empty name. -/
def ParentNamesOk (entries : List XafFileEntry) : Prop :=
  ∀ r ∈ entries, ∀ p, entries[r.parentId]? = some p → NameOk p

/-- The ancestors of a record whose parent is `parentId`, nearest first. -/
def ancestors : Nat → List XafFileEntry → Nat → List XafFileEntry
  | 0, _, _ => []
  | fuel + 1, entries, parentId =>
    if parentId = 0xFFFFFFFF then []
    else
      match entries[parentId]? with
      | none => []
      | some p => p :: ancestors fuel entries p.parentId

/-- The path segment an ancestor contributes: its name up to the first zero
byte, completed by one separator unless it ends with one. -/
def segment (e : XafFileEntry) : List Nat :=
  if (c_str e.name).getLast? = some sep then c_str e.name else c_str e.name ++ [sep]

/-- The record with its `encryptionType` set to zero. -/
def clearEncryption (e : XafFileEntry) : XafFileEntry :=
  { e with flags := { e.flags with encryptionType := 0 } }

/-- A record with the given name array, kind, parent and payload place;
everything else zero. -/
def mkEntry (name : List Nat) (isFile compressionType encryptionType parentId size
    sectorStartIndex : Nat) : XafFileEntry :=
  { name := name
    flags := { isFile := isFile, compressionType := compressionType
               encryptionType := encryptionType, flag4 := 0 }
    parentId := parentId, nextSibling := 0, firstChild := 0, size := size
    compressedSize := 0, sectorStartIndex := sectorStartIndex }

/-- A header with the given major version, sector size and record count. -/
def mkHeader (majorVersion sectorSize totalRecords : Nat) : XafHeader :=
  { signature := magic, majorVersion := majorVersion, minorVersion := 0
    sectorSize := sectorSize, totalRecords := totalRecords, totalDirectories := 0
    totalFiles := 0, dataSectorCount := 0, headerSectorCount := 0, totalSectorCount := 0
    title := List.replicate 64 0, comment := List.replicate 64 0
    totalVolumes := 0, padding := 0 }

/-- A root directory named `d` (first layout). -/
def dirD : XafFileEntry := mkEntry (nameField 64 [100]) 0 0 0 0xFFFFFFFF 0 0

/-- Three uncompressed files `a`, `b`, `c` in directory `d`, two bytes each in
sectors 1, 2 and 3; only `b` has an encryption type set. -/
def fileA : XafFileEntry := mkEntry (nameField 64 [97]) 1 0 0 0 2 1

/-- The file `b`, with `encryptionType` 1. -/
def fileB : XafFileEntry := mkEntry (nameField 64 [98]) 1 0 1 0 2 2

/-- The file `c`. -/
def fileC : XafFileEntry := mkEntry (nameField 64 [99]) 1 0 0 0 2 3

/-- The record table of the three files and their directory. -/
def threeFiles : List XafFileEntry := [dirD, fileA, fileB, fileC]

/-- An archive body of eight bytes, sectors of two bytes. -/
def eightBytes : Source := { bytes := [10, 11, 12, 13, 14, 15, 16, 17], cursor := 0 }

/-- An archive with one record: the tag, the given major version, sector size
2048, `totalRecords` 1, zeros up to `kHEADER_SIZE`, then 176 record bytes that
read as a root directory named `r` in the first layout (bytes 68..71 are the
sentinel). -/
def oneRecordArchive (majorVersion : Nat) : List Nat :=
  magic ++ [majorVersion % 256, majorVersion / 256, 0, 0] ++ [0, 8, 0, 0] ++ [1, 0, 0, 0] ++
    List.replicate (0x100 - 16) 0 ++
    ([114] ++ List.replicate 67 0 ++ [255, 255, 255, 255] ++ List.replicate 104 0)

/-- Three records of the second layout (128-byte names): the root directory
`d`, in it a directory whose name is 65 times the letter `a`, and in that one
the file `c`. -/
def longNameTable : List XafFileEntry :=
  [mkEntry (nameField 128 [100]) 0 0 0 0xFFFFFFFF 0 0,
   mkEntry (nameField 128 (List.replicate 65 97)) 0 0 0 0 0 0,
   mkEntry (nameField 128 [99]) 1 0 0 1 0 0]

/-- The directory `d\` (its name ends with a separator) and the file `a` in it. -/
def sepTable : List XafFileEntry :=
  [mkEntry (nameField 64 [100, 92]) 0 0 0 0xFFFFFFFF 0 0,
   mkEntry (nameField 64 [97]) 1 0 0 0 0 0]

/-- Two directories `a` and `b`, each the parent of the other. -/
def twoCycle : List XafFileEntry :=
  [mkEntry (nameField 64 [97]) 0 0 0 1 0 0, mkEntry (nameField 64 [98]) 0 0 0 0 0 0]

/-- An archive whose header announces two records of the first layout and that
ends one byte into the second: the tag, major version 1, sector size 2048,
`totalRecords` 2, zeros up to `kHEADER_SIZE`, the 96 bytes of a root directory
named `r`, and the letter `x`. -/
def truncatedArchive : List Nat :=
  magic ++ [1, 0, 0, 0] ++ [0, 8, 0, 0] ++ [2, 0, 0, 0] ++ List.replicate (0x100 - 16) 0 ++
    ([114] ++ List.replicate 67 0 ++ [255, 255, 255, 255] ++ List.replicate 24 0) ++ [120]

/-- The size in bytes of one record: `sizeof(XafFileEntry2)` or
`sizeof(XafFileEntry)`. -/
def recordSize (version2 : Bool) : Nat := if version2 then 176 else 96

/-- The read of one record in the loop of lines 190-221. -/
def readEntry (version2 : Bool) (src : Source) : XafFileEntry × Source :=
  if version2 then readEntry2 src else readEntry1 src

/-- The `n` bytes of the archive from offset `off` on, a byte beyond the end of
the archive counting as zero. -/
def window (bytes : List Nat) : Nat → Nat → List Nat
  | _, 0 => []
  | off, n + 1 => bytes.getD off 0 :: window bytes (off + 1) n

/-- The record format of the first layout, as the specification gives it: in
the 96 bytes `rec` of one record the name buffer is bytes 0..63, the flag
bytes `isFile`, `compressionType`, `encryptionType`, `flag4` are bytes 64, 65,
66, 67, and little-endian from their offsets the 32-bit `parentId` (68),
`nextSibling` (72), `firstChild` (76), `size` (80), `compressedSize` (84) and
the 64-bit `sectorStartIndex` (88). -/
def recordLayout1 (rec : List Nat) : XafFileEntry :=
  { name := rec.take 64
    flags := { isFile := rec.getD 64 0, compressionType := rec.getD 65 0
               encryptionType := rec.getD 66 0, flag4 := rec.getD 67 0 }
    parentId := leVal ((rec.drop 68).take 4)
    nextSibling := leVal ((rec.drop 72).take 4)
    firstChild := leVal ((rec.drop 76).take 4)
    size := leVal ((rec.drop 80).take 4)
    compressedSize := leVal ((rec.drop 84).take 4)
    sectorStartIndex := leVal ((rec.drop 88).take 8) }

/-- The record format of the second layout, as the specification gives it: in
the 176 bytes `rec` of one record the name buffer is bytes 0..127, the flag
bytes are bytes 128..131, and little-endian from their offsets the 32-bit
`parentId` (132), `nextSibling` (136), `firstChild` (140), `size` (148),
`compressedSize` (152) and the 64-bit `sectorStartIndex` (160); bytes 144..147,
156..159 and 168..175 are padding. -/
def recordLayout2 (rec : List Nat) : XafFileEntry :=
  { name := rec.take 128
    flags := { isFile := rec.getD 128 0, compressionType := rec.getD 129 0
               encryptionType := rec.getD 130 0, flag4 := rec.getD 131 0 }
    parentId := leVal ((rec.drop 132).take 4)
    nextSibling := leVal ((rec.drop 136).take 4)
    firstChild := leVal ((rec.drop 140).take 4)
    size := leVal ((rec.drop 148).take 4)
    compressedSize := leVal ((rec.drop 152).take 4)
    sectorStartIndex := leVal ((rec.drop 160).take 8) }

/-- The record format selected by the layout. -/
def recordLayout (version2 : Bool) (rec : List Nat) : XafFileEntry :=
  if version2 then recordLayout2 rec else recordLayout1 rec

/-- How `main` ends once the record table `entries` is read and the source is
`src` (lines 223-349 and the `return 0`): the extraction runs over the table. -/
def extractAll (fuel : Nat) (outputFolder : List Nat) (header : XafHeader)
    (entries : List XafFileEntry) (src : Source) : Outcome Run :=
  match processEntries fuel outputFolder header entries entries src with
  | Outcome.undefined => Outcome.undefined
  | Outcome.outOfFuel => Outcome.outOfFuel
  | Outcome.ok (events, src) =>
    Outcome.ok { exitCode := 0, entries := entries, events := events, source := src }

/-- An archive of the first layout with three records of 96 bytes: the tag,
major version 1, sector size 2048, `totalRecords` 3, zeros up to
`kHEADER_SIZE`; then the root directory `d`, the file `a` (size 258, compressed
size 772, sector start index 5 + 2^32) and the file `b` (flags 1, 1, 2, 3, size
65536, compressed size 9, sector start index 7), both in `d`. -/
def threeRecordArchive : List Nat :=
  magic ++ [1, 0, 0, 0] ++ [0, 8, 0, 0] ++ [3, 0, 0, 0] ++ List.replicate (0x100 - 16) 0 ++
    ([100] ++ List.replicate 63 0 ++ [0, 0, 0, 0] ++ [255, 255, 255, 255] ++
      [255, 255, 255, 255] ++ [1, 0, 0, 0] ++ [0, 0, 0, 0] ++ [0, 0, 0, 0] ++
      [0, 0, 0, 0, 0, 0, 0, 0]) ++
    ([97] ++ List.replicate 63 0 ++ [1, 0, 0, 0] ++ [0, 0, 0, 0] ++ [2, 0, 0, 0] ++
      [255, 255, 255, 255] ++ [2, 1, 0, 0] ++ [4, 3, 0, 0] ++ [5, 0, 0, 0, 1, 0, 0, 0]) ++
    ([98] ++ List.replicate 63 0 ++ [1, 1, 2, 3] ++ [0, 0, 0, 0] ++ [255, 255, 255, 255] ++
      [255, 255, 255, 255] ++ [0, 0, 1, 0] ++ [9, 0, 0, 0] ++ [7, 0, 0, 0, 0, 0, 0, 0])

/-- An archive of the second layout with two records of 176 bytes: the tag,
major version 2, sector size 2048, `totalRecords` 2, zeros up to
`kHEADER_SIZE`; then the root directory `d` and the file `c` in it (size 3,
compressed size 3, sector start index 2); the padding members hold the bytes
9, 8 and 7. -/
def twoRecordArchive : List Nat :=
  magic ++ [2, 0, 0, 0] ++ [0, 8, 0, 0] ++ [2, 0, 0, 0] ++ List.replicate (0x100 - 16) 0 ++
    ([100] ++ List.replicate 127 0 ++ [0, 0, 0, 0] ++ [255, 255, 255, 255] ++ [0, 0, 0, 0] ++
      [1, 0, 0, 0] ++ [9, 9, 9, 9] ++ [0, 0, 0, 0] ++ [0, 0, 0, 0] ++ [8, 8, 8, 8] ++
      [0, 0, 0, 0, 0, 0, 0, 0] ++ [7, 7, 7, 7, 7, 7, 7, 7]) ++
    ([99] ++ List.replicate 127 0 ++ [1, 0, 0, 0] ++ [0, 0, 0, 0] ++ [255, 255, 255, 255] ++
      [255, 255, 255, 255] ++ [9, 9, 9, 9] ++ [3, 0, 0, 0] ++ [3, 0, 0, 0] ++ [8, 8, 8, 8] ++
      [2, 0, 0, 0, 0, 0, 0, 0] ++ [7, 7, 7, 7, 7, 7, 7, 7])

/-- An archive that ends with its header: the tag, major version 1, sector size
2048, `totalRecords` 1 and zeros up to `kHEADER_SIZE`. -/
def headerOnlyArchive : List Nat :=
  magic ++ [1, 0, 0, 0] ++ [0, 8, 0, 0] ++ [1, 0, 0, 0] ++ List.replicate (0x100 - 16) 0

end Xaf


namespace LZW

theorem beVal_lt (l : List Nat) (h : ∀ b ∈ l, b < 256) : beVal l < 256 ^ l.length := by
  induction l with
  | nil => simp [beVal]
  | cons b rest ih =>
    have hb : b < 256 := h b (List.mem_cons_self _ _)
    have hr := ih (fun x hx => h x (List.mem_cons_of_mem _ hx))
    simp only [beVal, List.length_cons, pow_succ]
    have hp : 0 < 256 ^ rest.length := by positivity
    nlinarith

theorem shift_or_byte (buf b cnt : Nat) (hbuf : buf < 2 ^ cnt) (hcnt : cnt ≤ 24) (hb : b < 256) :
    ((buf <<< 8) % 4294967296) ||| b = buf * 256 + b := by
  have h1 : buf < 2 ^ 24 := lt_of_lt_of_le hbuf (Nat.pow_le_pow_right (by norm_num) hcnt)
  have h2 : buf <<< 8 = 2 ^ 8 * buf := by rw [Nat.shiftLeft_eq, Nat.mul_comm]
  rw [Nat.mod_eq_of_lt (by rw [h2]; norm_num at h1 ⊢; omega), h2,
    ← Nat.mul_add_lt_is_or (by simpa using hb)]
  norm_num; ring

/-- What the fill loop of `readBits` does to the pending bits: nothing, it only
moves whole bytes from the input into the buffer. -/
theorem fillBits_spec (n : Nat) (hn : n ≤ 24) :
    ∀ (input : List Nat) (buf cnt : Nat), buf < 2 ^ cnt → cnt < n + 8 →
      (∀ b ∈ input, b < 256) →
      ∃ ok rest buf1 cnt1, fillBits n input buf cnt = (ok, rest, buf1, cnt1) ∧
        buf1 * 256 ^ rest.length + beVal rest = buf * 256 ^ input.length + beVal input ∧
        cnt1 + 8 * rest.length = cnt + 8 * input.length ∧
        buf1 < 2 ^ cnt1 ∧ cnt1 < n + 8 ∧ (∀ b ∈ rest, b < 256) ∧
        rest.length ≤ input.length ∧ (cnt < n → ok = true → rest.length < input.length) ∧
        (ok = true → n ≤ cnt1) ∧ (ok = false → rest = [] ∧ cnt1 < n) := by
  intro input
  induction input with
  | nil =>
    intro buf cnt hbuf hcnt _
    refine ⟨decide (¬ cnt < n), [], buf, cnt, rfl, rfl, rfl, hbuf, hcnt, by simp, le_refl _, ?_, ?_, ?_⟩
    · intro h1 h2; simp [h1] at h2
    · intro h; simpa using h
    · intro h; simpa using h
  | cons b rest ih =>
    intro buf cnt hbuf hcnt hbytes
    have hb : b < 256 := hbytes b (List.mem_cons_self _ _)
    have hrest : ∀ x ∈ rest, x < 256 := fun x hx => hbytes x (List.mem_cons_of_mem _ hx)
    by_cases hlt : cnt < n
    · have hstep : fillBits n (b :: rest) buf cnt =
          fillBits n rest (((buf <<< 8) % 4294967296) ||| b) (cnt + 8) := by
        simp [fillBits, hlt]
      rw [shift_or_byte buf b cnt hbuf (by omega) hb] at hstep
      have hbuf2 : buf * 256 + b < 2 ^ (cnt + 8) := by
        rw [pow_add]; norm_num; omega
      obtain ⟨ok, r, buf1, cnt1, he, hv, hl, hb1, hc1, hby, hlen, _, hok, hno⟩ :=
        ih (buf * 256 + b) (cnt + 8) hbuf2 (by omega) hrest
      refine ⟨ok, r, buf1, cnt1, by rw [hstep, he], ?_, ?_, hb1, hc1, hby, ?_, ?_, hok, hno⟩
      · rw [hv]; simp only [beVal, List.length_cons, pow_succ]; ring
      · rw [hl]; simp only [List.length_cons]; ring
      · simp only [List.length_cons]; omega
      · intro _ _; simp only [List.length_cons]; omega
    · refine ⟨true, b :: rest, buf, cnt, by simp [fillBits, hlt], rfl, rfl, hbuf, hcnt, hbytes,
        le_refl _, ?_, ?_, ?_⟩
      · intro h; exact absurd h hlt
      · intro _; omega
      · intro h; simp at h

end LZW
namespace LZW

theorem foldl_resetSlot (n : Nat) (st : LZWDecoder) :
    (List.range n).foldl resetSlot st =
      { st with
        dictionary := fun j =>
          if j < n then { symbol := j % 256, next := 0xFFFFFFFF } else st.dictionary j
        dictSize := st.dictSize + n } := by
  induction n with
  | zero => simp
  | succ n ih =>
    rw [List.range_succ, List.foldl_append, ih]
    simp only [List.foldl_cons, List.foldl_nil, resetSlot]
    congr 1
    · funext j
      by_cases h1 : j = n
      · subst h1; simp
      · by_cases h2 : j < n
        · have : j < n + 1 := by omega
          simp [h1, h2, this]
        · have : ¬ j < n + 1 := by omega
          simp [h1, h2, this]

theorem resetDictionary_eq (st : LZWDecoder) :
    resetDictionary st =
      { st with
        dictionary := fun j =>
          if j < 256 then { symbol := j % 256, next := 0xFFFFFFFF } else st.dictionary j
        dictSize := 256 } := by
  unfold resetDictionary
  rw [foldl_resetSlot]

end LZW

namespace LZW

theorem split_div (b1 r s be : Nat) (hbe : be < 256 ^ r) :
    (b1 * 256 ^ r + be) / 2 ^ (s + 8 * r) = b1 / 2 ^ s := by
  have h256 : (256 : Nat) ^ r = 2 ^ (8 * r) := by rw [pow_mul]; norm_num
  rw [pow_add, Nat.mul_comm (2 ^ s), ← Nat.div_div_eq_div_mul, ← h256]
  congr 1
  rw [Nat.mul_comm, Nat.mul_add_div (by positivity), Nat.div_eq_of_lt hbe, Nat.add_zero]

theorem split_mod (b1 r s be : Nat) (hbe : be < 256 ^ r) :
    (b1 * 256 ^ r + be) % 2 ^ (s + 8 * r) = (b1 % 2 ^ s) * 256 ^ r + be := by
  have h256 : (256 : Nat) ^ r = 2 ^ (8 * r) := by rw [pow_mul]; norm_num
  have hp : 0 < 256 ^ r := by positivity
  have hs : 0 < 2 ^ s := by positivity
  rw [pow_add, ← h256]
  have hm : b1 % 2 ^ s < 2 ^ s := Nat.mod_lt _ hs
  have key : b1 * 256 ^ r + be = (b1 % 2 ^ s) * 256 ^ r + be + (2 ^ s * 256 ^ r) * (b1 / 2 ^ s) := by
    conv_lhs => rw [← Nat.div_add_mod b1 (2 ^ s)]
    ring
  rw [key, Nat.add_mul_mod_self_left]
  apply Nat.mod_eq_of_lt
  calc b1 % 2 ^ s * 256 ^ r + be < b1 % 2 ^ s * 256 ^ r + 256 ^ r := by omega
    _ = (b1 % 2 ^ s + 1) * 256 ^ r := by ring
    _ ≤ 2 ^ s * 256 ^ r := Nat.mul_le_mul_right _ hm

/-- A read of `n` bits when at least `n` bits are pending: the code is the top
`n` bits of the pending number, the rest stays pending. -/
theorem readBits_some (st : LZWDecoder) (n : Nat) (hn : n ≤ 24) (h8 : 8 ≤ n)
    (hcnt : st.bitCount < 8) (hbuf : st.bitBuffer < 2 ^ st.bitCount)
    (hbytes : ∀ b ∈ st.input, b < 256) (hL : n ≤ st.pendingLen) :
    ∃ rest buf cnt, readBits n st = (some (st.pendingVal / 2 ^ (st.pendingLen - n)),
        { st with input := rest, bitBuffer := buf, bitCount := cnt }) ∧
      cnt < 8 ∧ buf < 2 ^ cnt ∧ (∀ b ∈ rest, b < 256) ∧ rest.length < st.input.length ∧
      buf * 256 ^ rest.length + beVal rest = st.pendingVal % 2 ^ (st.pendingLen - n) ∧
      cnt + 8 * rest.length = st.pendingLen - n := by
  obtain ⟨ok, rest, buf1, cnt1, he, hv, hl, hb1, hc1, hby, hlen, hlt, hok, hno⟩ :=
    fillBits_spec n hn st.input st.bitBuffer st.bitCount hbuf (by omega) hbytes
  have hbe := beVal_lt rest hby
  cases ok with
  | false =>
    obtain ⟨h1, h2⟩ := hno rfl
    subst h1
    simp only [LZWDecoder.pendingLen] at hL
    simp at hl
    omega
  | true =>
    have hge := hok rfl
    have hshift : st.pendingLen - n = (cnt1 - n) + 8 * rest.length := by
      simp only [LZWDecoder.pendingLen]; omega
    refine ⟨rest, buf1 % 2 ^ (cnt1 - n), cnt1 - n, ?_, by omega, Nat.mod_lt _ (by positivity),
      hby, hlt (by omega) rfl, ?_, ?_⟩
    · simp only [readBits, he]
      rw [LZWDecoder.pendingVal, ← hv, hshift, split_div _ _ _ _ hbe]
      rw [Nat.one_shiftLeft, Nat.one_shiftLeft, Nat.and_pow_two_sub_one_eq_mod,
        Nat.and_pow_two_sub_one_eq_mod, Nat.shiftRight_eq_div_pow]
      congr 2
      apply Nat.mod_eq_of_lt
      apply Nat.div_lt_of_lt_mul
      rw [← pow_add]
      have : cnt1 - n + n = cnt1 := by omega
      rw [this]; exact hb1
    · rw [LZWDecoder.pendingVal, ← hv, hshift, split_mod _ _ _ _ hbe]
    · omega

/-- A read of `n` bits when fewer are pending answers end of stream. -/
theorem readBits_none (st : LZWDecoder) (n : Nat) (hn : n ≤ 24) (h8 : 8 ≤ n)
    (hcnt : st.bitCount < 8) (hbuf : st.bitBuffer < 2 ^ st.bitCount)
    (hbytes : ∀ b ∈ st.input, b < 256) (hL : st.pendingLen < n) :
    (readBits n st).1 = none := by
  obtain ⟨ok, rest, buf1, cnt1, he, hv, hl, hb1, hc1, hby, hlen, hlt, hok, hno⟩ :=
    fillBits_spec n hn st.input st.bitBuffer st.bitCount hbuf (by omega) hbytes
  cases ok with
  | false => simp [readBits, he]
  | true =>
    have hge := hok rfl
    simp only [LZWDecoder.pendingLen] at hL
    omega

end LZW

namespace LZW

/-- One successful read, seen through the pending bits only. -/
theorem readBits_step (st : LZWDecoder) (n : Nat) (hn : n ≤ 24) (h8 : 8 ≤ n)
    (hr : st.readerOk) (hL : n ≤ st.pendingLen) :
    ∃ st1, readBits n st = (some (st.pendingVal / 2 ^ (st.pendingLen - n)), st1) ∧
      st1.sameCore st ∧ st1.readerOk ∧ st1.input.length < st.input.length ∧
      st1.pendingVal = st.pendingVal % 2 ^ (st.pendingLen - n) ∧
      st1.pendingLen = st.pendingLen - n := by
  obtain ⟨rest, buf, cnt, hread, hcnt, hbuf, hby, hlen, hv, hl⟩ :=
    readBits_some st n hn h8 hr.1 hr.2.1 hr.2.2 hL
  exact ⟨_, hread, ⟨rfl, rfl, rfl, rfl, rfl, rfl, rfl, rfl⟩, ⟨hcnt, hbuf, hby⟩, hlen, hv, hl⟩

/-- One iteration of the loop when a whole code is pending. -/
theorem decodeLoop_step (fuel k : Nat) (st : LZWDecoder) (h24 : st.codeSize ≤ 24)
    (h8 : 8 ≤ st.codeSize) (hr : st.readerOk) (hL : st.codeSize ≤ st.pendingLen) :
    ∃ st1, st1.sameCore st ∧ st1.readerOk ∧ st1.input.length < st.input.length ∧
      st1.pendingVal = st.pendingVal % 2 ^ (st.pendingLen - st.codeSize) ∧
      st1.pendingLen = st.pendingLen - st.codeSize ∧
      readBits st.codeSize st =
        (some (st.pendingVal / 2 ^ (st.pendingLen - st.codeSize)), st1) ∧
      decodeLoop fuel (k + 1) st =
        (match decodeBody fuel st1 (st.pendingVal / 2 ^ (st.pendingLen - st.codeSize)) with
         | none => none
         | some st2 => decodeLoop fuel k st2) := by
  obtain ⟨st1, hread, hsame, hr1, hlen, hv, hl⟩ := readBits_step st st.codeSize h24 h8 hr hL
  refine ⟨st1, hsame, hr1, hlen, hv, hl, hread, ?_⟩
  rw [decodeLoop, hread]

/-- The loop stops with the output when fewer bits than one code are pending. -/
theorem decodeLoop_eof (fuel k : Nat) (st : LZWDecoder) (h8 : 8 ≤ st.codeSize)
    (h24 : st.codeSize ≤ 24) (hr : st.readerOk) (hL : st.pendingLen < st.codeSize) :
    decodeLoop fuel (k + 1) st = some st.output := by
  have hnone := readBits_none st st.codeSize h24 h8 hr.1 hr.2.1 hr.2.2 hL
  rw [decodeLoop]
  cases hrd : readBits st.codeSize st with
  | mk c s =>
    rw [hrd] at hnone
    simp only at hnone
    subst hnone
    rfl

theorem new_eq (input : List Nat) (n : Nat) :
    LZWDecoder.new input n =
      { input := input, codeSize := n, initialCodeSize := n, dictLimit := 1 <<< n,
        dictSize := 256, bitBuffer := 0, bitCount := 0,
        dictionary := fun j =>
          if j < 256 then { symbol := j % 256, next := 0xFFFFFFFF }
          else { symbol := 0, next := 0 },
        output := [], prevCode := 0, first := true } := by
  rw [LZWDecoder.new, resetDictionary_eq]

/-- The freshly constructed decoder satisfies the loop invariant. -/
theorem new_inv (input : List Nat) (hbytes : ∀ b ∈ input, b < 256) :
    Inv (LZWDecoder.new input 9) := by
  rw [new_eq]
  refine ⟨le_refl _, by norm_num, rfl, by simp [Nat.one_shiftLeft], le_refl _, by norm_num,
    by norm_num, by norm_num, hbytes, ?_, ?_, fun h => by simp at h⟩
  · intro j hj
    simp [hj, Nat.mod_eq_of_lt hj]
  · intro j h1 h2
    simp only at h2
    omega

theorem new_pending (input : List Nat) :
    (LZWDecoder.new input 9).pendingVal = beVal input ∧
      (LZWDecoder.new input 9).pendingLen = 8 * input.length ∧
      (LZWDecoder.new input 9).output = [] ∧ (LZWDecoder.new input 9).first = true ∧
      (LZWDecoder.new input 9).codeSize = 9 ∧ (LZWDecoder.new input 9).dictSize = 256 ∧
      (LZWDecoder.new input 9).prevCode = 0 ∧ (LZWDecoder.new input 9).dictLimit = 512 ∧
      (LZWDecoder.new input 9).input = input := by
  rw [new_eq]
  simp [LZWDecoder.pendingVal, LZWDecoder.pendingLen, Nat.one_shiftLeft]

theorem Inv.readerOk {st : LZWDecoder} (h : Inv st) : st.readerOk := ⟨h.cnt, h.buf, h.bytes⟩

/-- The invariant does not look at what a read changes beyond `readerOk`. -/
theorem Inv.of_sameCore {st st1 : LZWDecoder} (h : Inv st) (hs : st1.sameCore st)
    (hr : st1.readerOk) : Inv st1 := by
  obtain ⟨h1, h2, h3, h4, h5, h6, h7, h8⟩ := hs
  exact ⟨h1 ▸ h.cs_lo, h1 ▸ h.cs_hi, h2 ▸ h.init, by rw [h3, h1]; exact h.limit,
    h4 ▸ h.ds_lo, by rw [h4, h1]; exact h.ds_hi, hr.1, hr.2.1, hr.2.2,
    by rw [h5]; exact h.roots, by rw [h5, h4]; exact h.links,
    by rw [h8, h7, h4]; exact h.prev⟩

end LZW

namespace LZW

theorem chain_getSequence_len (d : Nat → Entry) (j : Nat) (s : List Nat) (h : Chain d j s) :
    ∀ (fuel : Nat) (out : List Nat), s.length ≤ fuel →
      getSequence fuel d j out = some (out ++ s.reverse) := by
  induction h with
  | root j hj =>
    intro fuel out hf
    obtain ⟨f, rfl⟩ : ∃ f, fuel = f + 1 := ⟨fuel - 1, by simp at hf; omega⟩
    simp [getSequence, hj]
  | link j p s hj hp _ ih =>
    intro fuel out hf
    obtain ⟨f, rfl⟩ : ∃ f, fuel = f + 1 := ⟨fuel - 1, by simp at hf; omega⟩
    have hne : ¬ (8 * p = 4294967295) := by omega
    have hdiv : 8 * p / 8 = p := by omega
    simp only [getSequence, hj, hne, if_false, hdiv]
    rw [ih f _ (by simp at hf; omega)]
    simp

theorem chain_length_le (d : Nat → Entry) (j : Nat) (s : List Nat) (h : Chain d j s) :
    s.length ≤ j + 1 := by
  induction h with
  | root j hj => simp
  | link j p s hj hp _ ih => simp; omega

theorem chain_getSequence (d : Nat → Entry) (j : Nat) (s : List Nat) (h : Chain d j s)
    (fuel : Nat) (out : List Nat) (hf : j < fuel) :
    getSequence fuel d j out = some (out ++ s.reverse) :=
  chain_getSequence_len d j s h fuel out (by have := chain_length_le d j s h; omega)

theorem chain_ne_nil (d : Nat → Entry) (j : Nat) (s : List Nat) (h : Chain d j s) : s ≠ [] := by
  cases h <;> simp

theorem chain_frame (d d2 : Nat → Entry) (j : Nat) (s : List Nat) (h : Chain d j s)
    (hsame : ∀ i, i ≤ j → d2 i = d i) : Chain d2 j s := by
  induction h with
  | root j hj =>
    have := hsame j (le_refl _)
    rw [← this]
    exact Chain.root j (by rw [this]; exact hj)
  | link j p s hj hp _ ih =>
    have := hsame j (le_refl _)
    rw [← this]
    exact Chain.link j p s (by rw [this]; exact hj) hp (ih (fun i hi => hsame i (by omega)))

theorem chain_unique (d : Nat → Entry) (j : Nat) (s t : List Nat) (h1 : Chain d j s)
    (h2 : Chain d j t) : s = t := by
  have a := chain_getSequence d j s h1 (j + 1) [] (by omega)
  have b := chain_getSequence d j t h2 (j + 1) [] (by omega)
  rw [a] at b
  simpa using b

theorem chain_exists (d : Nat → Entry) (size : Nat)
    (roots : ∀ j, j < 256 → d j = { symbol := j, next := 0xFFFFFFFF })
    (links : ∀ j, 256 ≤ j → j < size → ∃ p, p < j ∧ (d j).next = 8 * p) :
    ∀ j, j < size ∨ j < 256 → ∃ s, Chain d j s := by
  intro j
  induction j using Nat.strong_induction_on with
  | _ j ih =>
    intro hj
    by_cases h : j < 256
    · exact ⟨_, Chain.root j (by rw [roots j h])⟩
    · have hj2 : j < size := by omega
      obtain ⟨p, hp, hn⟩ := links j (by omega) hj2
      obtain ⟨s, hs⟩ := ih p hp (Or.inl (by omega))
      exact ⟨_, Chain.link j p s hn hp hs⟩

end LZW

namespace LZW

theorem update_reader (st : LZWDecoder) (c : Nat) (temp : List Nat) :
    (update st c temp).input = st.input ∧ (update st c temp).bitCount = st.bitCount ∧
      (update st c temp).bitBuffer = st.bitBuffer := by
  unfold update growOrReset addToDictionary
  simp only [resetDictionary_eq]
  split_ifs <;> simp

theorem update_inv (st : LZWDecoder) (c : Nat) (temp : List Nat) (hinv : Inv st)
    (hok : codeOk (st.first, st.dictSize, c) = true) : Inv (update st c temp) := by
  obtain ⟨cs_lo, cs_hi, init, limit, ds_lo, ds_hi, cnt, buf, bytes, roots, links, prev⟩ := hinv
  obtain ⟨input, codeSize, initialCodeSize, dictLimit, dictSize, bitBuffer, bitCount,
    dictionary, output, prevCode, first⟩ := st
  simp only at cs_lo cs_hi init limit ds_lo ds_hi cnt buf bytes roots links prev
  simp only [codeOk] at hok
  subst init limit
  unfold update growOrReset addToDictionary
  simp only [resetDictionary_eq]
  cases first with
  | true =>
    simp only [if_true, decide_eq_true_eq] at hok
    have h1 : ¬ (dictSize = (2 ^ codeSize + 4294967295) % 4294967296) := by
      interval_cases codeSize <;> omega
    simp only [if_true, h1, if_false]
    exact ⟨cs_lo, cs_hi, rfl, rfl, ds_lo, ds_hi, cnt, buf, bytes, roots, links,
      fun _ => by simp only; omega⟩
  | false =>
    simp only [Bool.false_eq_true, if_false, decide_eq_true_eq] at hok
    have hp := prev rfl
    have h4096 : ¬ (dictSize ≥ 4096) := by
      have : 2 ^ codeSize ≤ 2 ^ 12 := Nat.pow_le_pow_right (by norm_num) cs_hi
      omega
    simp only [Bool.false_eq_true, if_false, h4096]
    have hmod : prevCode * 8 % 4294967296 = 8 * prevCode := by omega
    split_ifs with h1 h2
    · refine ⟨by simp only; omega, by simp only; omega, rfl, by simp [Nat.one_shiftLeft], ds_lo.trans (by simp),
        ?_, cnt, buf, bytes, ?_, ?_, fun _ => by simp only; omega⟩
      · simp only; rw [pow_succ]; omega
      · intro j hj
        have : ¬ j = dictSize := by omega
        simp only [this, if_false]
        exact roots j hj
      · intro j hj1 hj2
        simp only at hj2 ⊢
        by_cases hj : j = dictSize
        · subst hj
          exact ⟨prevCode, hp, by simp [hmod]⟩
        · simp only [hj, if_false]
          exact links j hj1 (by omega)
    · refine ⟨by simp, by simp, rfl, by simp [Nat.one_shiftLeft], by simp, by simp, cnt, buf, bytes,
        ?_, ?_, fun h => by simp at h⟩
      · intro j hj
        simp [hj, Nat.mod_eq_of_lt hj]
      · intro j hj1 hj2
        simp only at hj2
        omega
    · refine ⟨cs_lo, cs_hi, rfl, rfl, ds_lo.trans (by simp), ?_, cnt, buf, bytes, ?_, ?_,
        fun _ => by simp only; omega⟩
      · simp only at h1 ⊢
        interval_cases codeSize <;> omega
      · intro j hj
        have : ¬ j = dictSize := by omega
        simp only [this, if_false]
        exact roots j hj
      · intro j hj1 hj2
        simp only at hj2 ⊢
        by_cases hj : j = dictSize
        · subst hj
          exact ⟨prevCode, hp, by simp [hmod]⟩
        · simp only [hj, if_false]
          exact links j hj1 (by omega)

end LZW

namespace LZW

theorem resolve_lt (fuel : Nat) (st : LZWDecoder) (c : Nat) (s : List Nat)
    (hc : c < st.dictSize) (hs : Chain st.dictionary c s) (hf : s.length ≤ fuel) :
    resolve fuel st c = some s := by
  have : ¬ c ≥ st.dictSize := by omega
  simp [resolve, this, chain_getSequence_len st.dictionary c s hs fuel [] hf]

theorem resolve_ge (fuel : Nat) (st : LZWDecoder) (c : Nat) (s : List Nat)
    (hc : st.dictSize ≤ c) (hs : Chain st.dictionary st.prevCode s) (hf : s.length ≤ fuel) :
    resolve fuel st c = some (s ++ [s.headD 0]) := by
  have : c ≥ st.dictSize := hc
  simp [resolve, this, chain_getSequence_len st.dictionary st.prevCode s hs fuel [] hf]

theorem update_output (st : LZWDecoder) (c : Nat) (temp : List Nat) :
    (update st c temp).output = st.output ++ temp := by
  unfold update growOrReset addToDictionary
  simp only [resetDictionary_eq]
  split_ifs <;> simp

theorem pending_of_reader {a b : LZWDecoder} (h1 : a.input = b.input)
    (h2 : a.bitCount = b.bitCount) (h3 : a.bitBuffer = b.bitBuffer) :
    a.pendingVal = b.pendingVal ∧ a.pendingLen = b.pendingLen := by
  simp [LZWDecoder.pendingVal, LZWDecoder.pendingLen, h1, h2, h3]

theorem update_pending (st : LZWDecoder) (c : Nat) (temp : List Nat) :
    (update st c temp).pendingVal = st.pendingVal ∧
      (update st c temp).pendingLen = st.pendingLen := by
  obtain ⟨h1, h2, h3⟩ := update_reader st c temp
  exact pending_of_reader h1 h2 h3

end LZW

namespace LZW

/-- C6. For every byte value `b`, decoding the two bytes
`[b >> 1, (b & 1) << 7]`, which carry the single 9-bit code `b` most
significant bit first followed by seven zero bits, returns exactly `[b]`:
any fuel from 2 on is enough. -/
theorem decode_single_code (b : Nat) (hb : b < 256) (fuel : Nat) (hfuel : 2 ≤ fuel) :
    decode fuel [b >>> 1, (b &&& 1) <<< 7] = some [b] := by
  obtain ⟨m, rfl⟩ : ∃ m, fuel = m + 2 := ⟨fuel - 2, by omega⟩
  have hx : b >>> 1 = b / 2 := by rw [Nat.shiftRight_eq_div_pow, pow_one]
  have hy : (b &&& 1) <<< 7 = (b % 2) * 128 := by
    rw [Nat.shiftLeft_eq, show (1 : Nat) = 2 ^ 1 - 1 by norm_num,
      Nat.and_pow_two_sub_one_eq_mod, pow_one]
  rw [hx, hy]
  unfold decode
  have hbytes : ∀ x ∈ [b / 2, b % 2 * 128], x < 256 := by
    intro x hx
    simp only [List.mem_cons, List.mem_singleton, List.not_mem_nil, or_false] at hx
    rcases hx with rfl | rfl <;> omega
  have hinv := new_inv _ hbytes
  obtain ⟨hV, hL, hout, hfirst, hcs, hds, -, -, -⟩ := new_pending [b / 2, b % 2 * 128]
  generalize LZWDecoder.new [b / 2, b % 2 * 128] 9 = st0 at hinv hV hL hout hfirst hcs hds ⊢
  have hV2 : st0.pendingVal = 128 * b := by
    rw [hV]
    simp only [beVal, List.length_cons, List.length_nil]
    norm_num
    omega
  have hL2 : st0.pendingLen = 16 := by rw [hL]; rfl
  obtain ⟨st1, hsame, hr1, -, hv1, hl1, -, hloop⟩ :=
    decodeLoop_step (m + 2) (m + 1) st0 (by omega) (by omega) hinv.readerOk (by omega)
  rw [hloop, hV2, hL2, hcs]
  rw [hV2, hL2, hcs] at hv1
  rw [hL2, hcs] at hl1
  have hcode : 128 * b / 2 ^ (16 - 9) = b := by norm_num
  rw [hcode]
  have hinv1 : Inv st1 := hinv.of_sameCore hsame hr1
  have hds1 : st1.dictSize = 256 := by rw [hsame.2.2.2.1, hds]
  have hchain : Chain st1.dictionary b [(st1.dictionary b).symbol] :=
    Chain.root b (by rw [hinv1.roots b hb])
  have hsym : (st1.dictionary b).symbol = b := by rw [hinv1.roots b hb]
  rw [hsym] at hchain
  have hres : resolve (m + 2) st1 b = some [b] :=
    resolve_lt (m + 2) st1 b [b] (by omega) hchain (by simp)
  have hfirst1 : st1.first = true := by rw [hsame.2.2.2.2.2.2.2, hfirst]
  have hok : codeOk (st1.first, st1.dictSize, b) = true := by
    simp [codeOk, hfirst1, hb]
  have hinv2 := update_inv st1 b [b] hinv1 hok
  simp only [decodeBody, hres, Option.map_some']
  rw [decodeLoop_eof _ _ _ (by have := hinv2.cs_lo; omega) (by have := hinv2.cs_hi; omega)
    hinv2.readerOk]
  · rw [update_output, hsame.2.2.2.2.2.1, hout]
    rfl
  · rw [(update_pending st1 b [b]).2, hl1]
    have := hinv2.cs_lo
    omega

/-- The byte `A` (65): the two bytes `20 80` decode to it. -/
theorem decode_single_code_witness :
    (65 : Nat) < 256 ∧ decode 2 [65 >>> 1, (65 &&& 1) <<< 7] = some [65] :=
  ⟨by decide, decode_single_code 65 (by decide) 2 (le_refl 2)⟩

end LZW

namespace LZW

/-- A slot whose back-reference is its own offset is walked forever. -/
theorem getSequence_self_loop (d : Nat → Entry) (c : Nat) (h : (d c).next = 8 * c) :
    ∀ (fuel : Nat) (out : List Nat), getSequence fuel d c out = none := by
  intro fuel
  induction fuel with
  | zero => intro out; rfl
  | succ f ih =>
    intro out
    have hne : ¬ (8 * c = 4294967295) := by omega
    have hdiv : 8 * c / 8 = c := by omega
    simp only [getSequence, h, hne, if_false, hdiv]
    exact ih _

theorem decodeBody_self_loop (fuel : Nat) (st : LZWDecoder) (code : Nat)
    (hlt : code < st.dictSize) (h : (st.dictionary code).next = 8 * code) :
    decodeBody fuel st code = none := by
  have : ¬ code ≥ st.dictSize := by omega
  simp [decodeBody, resolve, this, getSequence_self_loop st.dictionary code h]

/-- The update after the first code of an epoch: nothing is added. -/
theorem update_first (st : LZWDecoder) (c : Nat) (temp : List Nat) (hf : st.first = true)
    (hg : st.dictSize ≠ (st.dictLimit + 4294967295) % 4294967296) :
    update st c temp = { st with output := st.output ++ temp, prevCode := c, first := false } := by
  simp [update, growOrReset, hf, hg]

/-- The update after a later code when the width stays: one slot is added. -/
theorem update_add (st : LZWDecoder) (c : Nat) (temp : List Nat) (hf : st.first = false)
    (h4096 : st.dictSize < 4096)
    (hg : st.dictSize + 1 ≠ (st.dictLimit + 4294967295) % 4294967296) :
    update st c temp =
      { st with
        output := st.output ++ temp
        dictionary := fun j =>
          if j = st.dictSize then
            { symbol := temp.headD 0, next := (st.prevCode * 8) % 4294967296 }
          else st.dictionary j
        dictSize := st.dictSize + 1
        prevCode := c
        first := false } := by
  have h : ¬ st.dictSize ≥ 4096 := by omega
  simp [update, growOrReset, addToDictionary, hf, hg, h]

/-- The stream `100000000 001000001 100000000` (codes 256, 65, 256) padded to
four bytes: the second code makes slot 256 refer to itself, the third code
walks it. -/
theorem decodeLoop_malformed (fuel k : Nat) :
    decodeLoop fuel k (LZWDecoder.new [0x80, 0x10, 0x60, 0x00] 9) = none := by
  have hbytes : ∀ x ∈ [0x80, 0x10, 0x60, 0x00], x < 256 := by
    intro x hx
    simp only [List.mem_cons, List.mem_singleton, List.not_mem_nil, or_false] at hx
    rcases hx with rfl | rfl | rfl | rfl <;> norm_num
  have hinv := new_inv _ hbytes
  obtain ⟨hV, hL, -, hfirst, hcs, hds, -, hlim, -⟩ := new_pending [0x80, 0x10, 0x60, 0x00]
  generalize LZWDecoder.new [0x80, 0x10, 0x60, 0x00] 9 = st0 at hinv hV hL hfirst hcs hds hlim ⊢
  have hV0 : st0.pendingVal = 2148556800 := by
    rw [hV]; simp only [beVal, List.length_cons, List.length_nil]; norm_num
  have hL0 : st0.pendingLen = 32 := by rw [hL]; rfl
  have hr0 := hinv.readerOk
  clear hinv hV hL
  -- first code: 256, read while `first` holds
  cases k with
  | zero => rfl
  | succ k =>
  obtain ⟨st1, hs1, hr1, -, hv1, hl1, -, hloop1⟩ :=
    decodeLoop_step fuel k st0 (by omega) (by omega) hr0 (by omega)
  rw [hloop1, hV0, hL0, hcs]
  rw [hV0, hL0, hcs] at hv1
  rw [hL0, hcs] at hl1
  obtain ⟨e1, -, e3, e4, e5, -, -, e8⟩ := hs1
  simp only [decodeBody]
  cases resolve fuel st1 (2148556800 / 2 ^ (32 - 9)) with
  | none => rfl
  | some temp =>
  simp only [Option.map_some']
  rw [show (2148556800 : Nat) / 2 ^ (32 - 9) = 256 by norm_num,
    update_first st1 256 temp (by rw [e8, hfirst]) (by rw [e4, e3, hds, hlim]; norm_num)]
  generalize hst2 : ({ st1 with output := st1.output ++ temp, prevCode := 256, first := false } :
    LZWDecoder) = st2
  have hr2 : st2.readerOk := by subst hst2; exact hr1
  have hcs2 : st2.codeSize = 9 := by subst hst2; exact e1.trans hcs
  have hds2 : st2.dictSize = 256 := by subst hst2; exact e4.trans hds
  have hlim2 : st2.dictLimit = 512 := by subst hst2; exact e3.trans hlim
  have hf2 : st2.first = false := by subst hst2; rfl
  have hp2 : st2.prevCode = 256 := by subst hst2; rfl
  have hV2 : st2.pendingVal = 1073152 := by subst hst2; show st1.pendingVal = 1073152; rw [hv1]; norm_num
  have hL2 : st2.pendingLen = 23 := by subst hst2; show st1.pendingLen = 23; rw [hl1]
  clear hst2 hr1 hv1 hl1 e1 e3 e4 e5 e8 hloop1
  -- second code: 65, slot 256 is added with back-reference 8 * 256
  cases k with
  | zero => rfl
  | succ k =>
  obtain ⟨st3, hs3, hr3, -, hv3, hl3, -, hloop3⟩ :=
    decodeLoop_step fuel k st2 (by omega) (by omega) hr2 (by omega)
  rw [hloop3, hV2, hL2, hcs2]
  rw [hV2, hL2, hcs2] at hv3
  rw [hL2, hcs2] at hl3
  obtain ⟨e1, -, e3, e4, e5, -, e7, e8⟩ := hs3
  simp only [decodeBody]
  cases resolve fuel st3 (1073152 / 2 ^ (23 - 9)) with
  | none => rfl
  | some temp2 =>
  simp only [Option.map_some']
  rw [show (1073152 : Nat) / 2 ^ (23 - 9) = 65 by norm_num,
    update_add st3 65 temp2 (by rw [e8, hf2]) (by rw [e4, hds2]; norm_num)
      (by rw [e4, e3, hds2, hlim2]; norm_num)]
  generalize hst4 : ({ st3 with
        output := st3.output ++ temp2
        dictionary := fun j =>
          if j = st3.dictSize then
            { symbol := temp2.headD 0, next := (st3.prevCode * 8) % 4294967296 }
          else st3.dictionary j
        dictSize := st3.dictSize + 1
        prevCode := 65
        first := false } : LZWDecoder) = st4
  have hr4 : st4.readerOk := by subst hst4; exact hr3
  have hcs4 : st4.codeSize = 9 := by subst hst4; exact e1.trans hcs2
  have hds4 : st4.dictSize = 257 := by subst hst4; simp only [e4, hds2]
  have hslot : (st4.dictionary 256).next = 8 * 256 := by
    subst hst4; simp only [e4, hds2, e7, hp2, if_true]
  have hV4 : st4.pendingVal = 8192 := by subst hst4; show st3.pendingVal = 8192; rw [hv3]; norm_num
  have hL4 : st4.pendingLen = 14 := by subst hst4; show st3.pendingLen = 14; rw [hl3]
  clear hst4 hr3 hv3 hl3 e1 e3 e4 e5 e7 e8 hloop3
  -- third code: 256 again, now a slot in use
  cases k with
  | zero => rfl
  | succ k =>
  obtain ⟨st5, hs5, -, -, -, -, -, hloop5⟩ :=
    decodeLoop_step fuel k st4 (by omega) (by omega) hr4 (by omega)
  rw [hloop5, hV4, hL4, hcs4]
  obtain ⟨-, -, -, e4, e5, -, -, -⟩ := hs5
  rw [show (8192 : Nat) / 2 ^ (14 - 9) = 256 by norm_num,
    decodeBody_self_loop fuel st5 256 (by rw [e4, hds4]; norm_num) (by rw [e5]; exact hslot)]

/-- C7, the claim as stated fails: on the four bytes `80 10 60 00` (the 9-bit
codes 256, 65, 256) `decode` returns nothing, whatever the fuel: the walk of
`getSequence` never leaves slot 256. -/
theorem decode_malformed_never_returns :
    ¬ ∃ fuel out, decode fuel [0x80, 0x10, 0x60, 0x00] = some out := by
  rintro ⟨fuel, out, h⟩
  rw [decode, decodeLoop_malformed] at h
  exact Option.noConfusion h

end LZW

namespace LZW

/-- Under the invariant a code that refers to something resolves, and to the
same bytes for every fuel from 4096 on. -/
theorem resolve_ok (st : LZWDecoder) (c : Nat) (hinv : Inv st)
    (hok : codeOk (st.first, st.dictSize, c) = true) :
    ∃ temp, temp ≠ [] ∧ ∀ fuel, 4096 ≤ fuel → resolve fuel st c = some temp := by
  have hsize : st.dictSize + 2 ≤ 4096 := by
    have : 2 ^ st.codeSize ≤ 2 ^ 12 := Nat.pow_le_pow_right (by norm_num) hinv.cs_hi
    have := hinv.ds_hi
    omega
  by_cases hc : c < st.dictSize
  · obtain ⟨s, hs⟩ := chain_exists st.dictionary st.dictSize hinv.roots hinv.links c (Or.inl hc)
    refine ⟨s, chain_ne_nil _ _ _ hs, fun fuel hf => resolve_lt fuel st c s hc hs ?_⟩
    have := chain_length_le _ _ _ hs
    omega
  · have hfirst : st.first = false := by
      cases hf : st.first with
      | false => rfl
      | true =>
        simp only [codeOk, hf, if_true, decide_eq_true_eq] at hok
        have := hinv.ds_lo
        omega
    have hp := hinv.prev hfirst
    obtain ⟨s, hs⟩ := chain_exists st.dictionary st.dictSize hinv.roots hinv.links st.prevCode
      (Or.inl hp)
    refine ⟨s ++ [s.headD 0], by simp, fun fuel hf =>
      resolve_ge fuel st c s (by omega) hs ?_⟩
    have := chain_length_le _ _ _ hs
    omega

theorem codesRead_eof (fuel k : Nat) (st : LZWDecoder) (h8 : 8 ≤ st.codeSize)
    (h24 : st.codeSize ≤ 24) (hr : st.readerOk) (hL : st.pendingLen < st.codeSize) :
    codesRead fuel k st = [] := by
  cases k with
  | zero => rfl
  | succ k =>
    have hnone := readBits_none st st.codeSize h24 h8 hr.1 hr.2.1 hr.2.2 hL
    rw [codesRead]
    cases hrd : readBits st.codeSize st with
    | mk c s =>
      rw [hrd] at hnone
      simp only at hnone
      subst hnone
      rfl

theorem decodeLoop_eq_exitState (fuel : Nat) :
    ∀ (k : Nat) (st : LZWDecoder),
      decodeLoop fuel k st = (exitState fuel k st).map (fun s => s.output) := by
  intro k
  induction k with
  | zero => intro st; rfl
  | succ k ih =>
    intro st
    rw [decodeLoop, exitState]
    cases readBits st.codeSize st with
    | mk c st1 =>
      cases c with
      | none => rfl
      | some code =>
        simp only
        cases decodeBody fuel st1 code with
        | none => rfl
        | some st2 => exact ih st2

theorem exitState_eof (fuel k : Nat) (st : LZWDecoder) (h8 : 8 ≤ st.codeSize)
    (h24 : st.codeSize ≤ 24) (hr : st.readerOk) (hL : st.pendingLen < st.codeSize) :
    exitState fuel (k + 1) st = some st := by
  have hnone := readBits_none st st.codeSize h24 h8 hr.1 hr.2.1 hr.2.2 hL
  rw [exitState]
  cases hrd : readBits st.codeSize st with
  | mk c s =>
    rw [hrd] at hnone
    simp only at hnone
    subst hnone
    rfl

/-- The loop on a stream whose codes all refer to something: it is left, in a
state with fewer bits pending than a code has, and that state does not depend
on the fuel. -/
theorem exitState_terminates :
    ∀ (n : Nat) (st : LZWDecoder), st.input.length ≤ n → Inv st →
      (∀ fuel k, 4096 ≤ fuel → ∀ p ∈ codesRead fuel k st, codeOk p = true) →
      ∃ stf, stf.pendingLen < stf.codeSize ∧
        ∀ fuel k, 4096 ≤ fuel → n < k → exitState fuel k st = some stf := by
  intro n
  induction n with
  | zero =>
    intro st hlen hinv _
    have hL : st.pendingLen < st.codeSize := by
      have := hinv.cs_lo
      have := hinv.cnt
      simp only [LZWDecoder.pendingLen]
      omega
    refine ⟨st, hL, fun fuel k _ hk => ?_⟩
    obtain ⟨k, rfl⟩ : ∃ j, k = j + 1 := ⟨k - 1, by omega⟩
    exact exitState_eof fuel k st (by have := hinv.cs_lo; omega) (by have := hinv.cs_hi; omega)
      hinv.readerOk hL
  | succ n ih =>
    intro st hlen hinv hwf
    have h8 : 8 ≤ st.codeSize := by have := hinv.cs_lo; omega
    have h24 : st.codeSize ≤ 24 := by have := hinv.cs_hi; omega
    by_cases hL : st.pendingLen < st.codeSize
    · refine ⟨st, hL, fun fuel k _ hk => ?_⟩
      obtain ⟨k, rfl⟩ : ∃ j, k = j + 1 := ⟨k - 1, by omega⟩
      exact exitState_eof fuel k st h8 h24 hinv.readerOk hL
    · obtain ⟨st1, hread, hsame, hr1, hlt, -, -⟩ :=
        readBits_step st st.codeSize h24 h8 hinv.readerOk (by omega)
      have hinv1 : Inv st1 := hinv.of_sameCore hsame hr1
      generalize st.pendingVal / 2 ^ (st.pendingLen - st.codeSize) = c at hread
      have hok : codeOk (st1.first, st1.dictSize, c) = true := by
        apply hwf 4096 1 (le_refl _)
        rw [codesRead, hread]
        exact List.mem_cons_self _ _
      obtain ⟨temp, -, hres⟩ := resolve_ok st1 c hinv1 hok
      have hinv2 := update_inv st1 c temp hinv1 hok
      have hlen2 : (update st1 c temp).input.length ≤ n := by
        rw [(update_reader st1 c temp).1]
        omega
      have hwf2 : ∀ fuel k, 4096 ≤ fuel → ∀ p ∈ codesRead fuel k (update st1 c temp),
          codeOk p = true := by
        intro fuel k hf p hp
        apply hwf fuel (k + 1) hf
        rw [codesRead, hread]
        simp only [decodeBody, hres fuel hf, Option.map_some']
        exact List.mem_cons_of_mem _ hp
      obtain ⟨stf, hstf, hout⟩ := ih (update st1 c temp) hlen2 hinv2 hwf2
      refine ⟨stf, hstf, fun fuel k hf hk => ?_⟩
      obtain ⟨k, rfl⟩ : ∃ j, k = j + 1 := ⟨k - 1, by omega⟩
      rw [exitState, hread]
      simp only [decodeBody, hres fuel hf, Option.map_some']
      exact hout fuel k hf (by omega)

/-- C7, amended. On every input whose codes all refer to something when they
are read (the first code of an epoch below 256, every other code at most
`dictSize`), `decode` terminates: the loop is left in one state `stf`, reached
when fewer than `codeSize` unread bits remain, and `decode` returns the output
accumulated in it, for every fuel from `4096 + input.length` on. -/
theorem decode_terminates_of_wellFormed (input : List Nat) (hbytes : ∀ b ∈ input, b < 256)
    (hwf : WellFormedStream input) :
    ∃ stf, stf.pendingLen < stf.codeSize ∧
      ∀ fuel, 4096 + input.length ≤ fuel →
        exitState fuel fuel (LZWDecoder.new input 9) = some stf ∧
        decode fuel input = some stf.output := by
  have hinv := new_inv input hbytes
  have hlen : (LZWDecoder.new input 9).input.length ≤ input.length := by
    rw [(new_pending input).2.2.2.2.2.2.2.2]
  obtain ⟨stf, hstf, hout⟩ := exitState_terminates input.length (LZWDecoder.new input 9) hlen
    hinv (fun fuel k _ p hp => hwf fuel k p hp)
  refine ⟨stf, hstf, fun fuel hf => ?_⟩
  have h := hout fuel fuel (by omega) (by omega)
  refine ⟨h, ?_⟩
  rw [decode, decodeLoop_eq_exitState, h]
  rfl

/-- The two bytes `20 80` carry the single code 65, which refers to a singleton. -/
theorem wellFormed_single : WellFormedStream [0x20, 0x80] := by
  intro fuel k p hp
  have hbytes : ∀ x ∈ [0x20, 0x80], x < 256 := by
    intro x hx
    simp only [List.mem_cons, List.mem_singleton, List.not_mem_nil, or_false] at hx
    rcases hx with rfl | rfl <;> norm_num
  have hinv := new_inv _ hbytes
  obtain ⟨hV, hL, -, hfirst, hcs, hds, -, -, -⟩ := new_pending [0x20, 0x80]
  generalize LZWDecoder.new [0x20, 0x80] 9 = st0 at hinv hV hL hfirst hcs hds hp
  have hL0 : st0.pendingLen = 16 := by rw [hL]; rfl
  have hV0 : st0.pendingVal = 8320 := by
    rw [hV]; simp only [beVal, List.length_cons, List.length_nil]; norm_num
  cases k with
  | zero => simp [codesRead] at hp
  | succ k =>
    obtain ⟨st1, hread, hsame, hr1, -, -, hl1⟩ :=
      readBits_step st0 st0.codeSize (by omega) (by omega) hinv.readerOk (by omega)
    rw [hV0, hL0, hcs, show (8320 : Nat) / 2 ^ (16 - 9) = 65 by norm_num] at hread
    rw [hL0, hcs] at hl1
    have hinv1 : Inv st1 := hinv.of_sameCore hsame hr1
    have hf1 : st1.first = true := hsame.2.2.2.2.2.2.2.trans hfirst
    have hok : codeOk (st1.first, st1.dictSize, 65) = true := by simp [codeOk, hf1]
    rw [codesRead, hcs, hread] at hp
    rcases List.mem_cons.mp hp with rfl | htail
    · exact hok
    · simp only [decodeBody] at htail
      cases hres : resolve fuel st1 65 with
      | none => rw [hres] at htail; simp at htail
      | some temp =>
        rw [hres] at htail
        simp only [Option.map_some'] at htail
        have hinv2 := update_inv st1 65 temp hinv1 hok
        rw [codesRead_eof fuel k _ (by have := hinv2.cs_lo; omega)
          (by have := hinv2.cs_hi; omega) hinv2.readerOk
          (by rw [(update_pending st1 65 temp).2, hl1]; have := hinv2.cs_lo; omega)] at htail
        simp at htail

/-- The stream `20 80` meets the hypotheses of `decode_terminates_of_wellFormed`. -/
theorem decode_terminates_of_wellFormed_witness :
    (∀ b ∈ [0x20, 0x80], b < 256) ∧ WellFormedStream [0x20, 0x80] ∧
      ∃ stf, stf.pendingLen < stf.codeSize ∧
        ∀ fuel, 4096 + [0x20, 0x80].length ≤ fuel →
          exitState fuel fuel (LZWDecoder.new [0x20, 0x80] 9) = some stf ∧
          decode fuel [0x20, 0x80] = some stf.output :=
  ⟨by decide, wellFormed_single,
    decode_terminates_of_wellFormed [0x20, 0x80] (by decide) wellFormed_single⟩

end LZW

namespace LZW

theorem isMatch_mono (table : List (List Nat)) (s : List Nat) (input : List Nat)
    (m : Nat × Nat) (h : IsMatch table input m) : IsMatch (table ++ [s]) input m := by
  rcases h with h | ⟨i, t, hi, hp, hm, hl⟩
  · exact Or.inl h
  · refine Or.inr ⟨i, t, ?_, hp, hm, hl⟩
    have hlt : i < table.length := (List.getElem?_eq_some.mp hi).1
    rw [List.getElem?_append_left hlt]
    exact hi

theorem isMatch_len (table : List (List Nat)) (input : List Nat) (m : Nat × Nat)
    (h : IsMatch table input m) : 1 ≤ m.2 := by
  rcases h with h | ⟨i, t, -, -, hm, hl⟩
  · rw [h]
  · rw [hm]; exact Nat.le_of_lt hl

theorem bestMatch_spec (input : List Nat) :
    ∀ (rest done : List (List Nat)) (best : Nat × Nat), IsMatch done input best →
      IsMatch (done ++ rest) input (bestMatch input rest (256 + done.length) best) := by
  intro rest
  induction rest with
  | nil => intro done best h; simpa [bestMatch] using h
  | cons s rest ih =>
    intro done best h
    rw [bestMatch]
    have hstep : IsMatch (done ++ [s]) input
        (if s.isPrefixOf input && decide (best.2 < s.length) then (256 + done.length, s.length)
          else best) := by
      split_ifs with hc
      · simp only [Bool.and_eq_true, List.isPrefixOf_iff_prefix, decide_eq_true_eq] at hc
        refine Or.inr ⟨done.length, s, by simp, hc.1, rfl, ?_⟩
        have := isMatch_len done input best h
        omega
      · exact isMatch_mono done s input best h
    have := ih (done ++ [s]) _ hstep
    simpa [Nat.add_assoc] using this

theorem longestMatch_spec (table : List (List Nat)) (input : List Nat) :
    IsMatch table input (longestMatch table input) := by
  have := bestMatch_spec input table [] (input.headD 0, 1) (Or.inl rfl)
  simpa [longestMatch] using this

theorem packVal_lt (codes : List (Nat × Nat)) (h : ∀ p ∈ codes, p.1 < 2 ^ p.2) :
    packVal codes < 2 ^ packLen codes := by
  induction codes with
  | nil => simp [packVal, packLen]
  | cons p rest ih =>
    obtain ⟨c, w⟩ := p
    have hc : c < 2 ^ w := h (c, w) (List.mem_cons_self _ _)
    have hr := ih (fun q hq => h q (List.mem_cons_of_mem _ hq))
    simp only [packVal, packLen, pow_add]
    have hp : 0 < 2 ^ packLen rest := by positivity
    calc c * 2 ^ packLen rest + packVal rest < c * 2 ^ packLen rest + 2 ^ packLen rest := by omega
      _ = (c + 1) * 2 ^ packLen rest := by ring
      _ ≤ 2 ^ w * 2 ^ packLen rest := Nat.mul_le_mul_right _ hc

theorem toBytes_spec : ∀ (n v : Nat), v < 256 ^ n →
    beVal (toBytes n v) = v ∧ (toBytes n v).length = n ∧ ∀ b ∈ toBytes n v, b < 256 := by
  intro n
  induction n with
  | zero =>
    intro v hv
    simp only [pow_zero, Nat.lt_one_iff] at hv
    simp [toBytes, beVal, hv]
  | succ n ih =>
    intro v hv
    have hp : 0 < 256 ^ n := by positivity
    obtain ⟨h1, h2, h3⟩ := ih (v % 256 ^ n) (Nat.mod_lt _ hp)
    have hq : v / 256 ^ n < 256 := by
      apply Nat.div_lt_of_lt_mul
      rw [pow_succ] at hv
      exact hv
    refine ⟨?_, by simp [toBytes, h2], ?_⟩
    · simp only [toBytes, beVal, h1, h2, Nat.mod_eq_of_lt hq]
      rw [Nat.mul_comm]
      exact Nat.div_add_mod v (256 ^ n)
    · intro b hb
      simp only [toBytes, List.mem_cons] at hb
      rcases hb with rfl | hb
      · exact Nat.mod_lt _ (by norm_num)
      · exact h3 b hb

theorem padLen_lt (codes : List (Nat × Nat)) : padLen codes < 8 := by
  unfold padLen; omega

theorem pack_spec (codes : List (Nat × Nat)) (h : ∀ p ∈ codes, p.1 < 2 ^ p.2) :
    beVal (pack codes) = packVal codes * 2 ^ padLen codes ∧
      8 * (pack codes).length = packLen codes + padLen codes ∧
      ∀ b ∈ pack codes, b < 256 := by
  have hdiv : 8 * ((packLen codes + padLen codes) / 8) = packLen codes + padLen codes := by
    unfold padLen; omega
  have hlt : packVal codes * 2 ^ padLen codes < 256 ^ ((packLen codes + padLen codes) / 8) := by
    have h256 : (256 : Nat) ^ ((packLen codes + padLen codes) / 8) =
        2 ^ (8 * ((packLen codes + padLen codes) / 8)) := by rw [pow_mul]; norm_num
    rw [h256, hdiv, pow_add]
    exact Nat.mul_lt_mul_of_pos_right (packVal_lt codes h) (by positivity)
  obtain ⟨h1, h2, h3⟩ := toBytes_spec _ _ hlt
  exact ⟨h1, by unfold pack; rw [h2, hdiv], h3⟩

end LZW

namespace LZW

/-- The update as one assignment followed by the growth test. -/
theorem update_eq_growOrReset (st : LZWDecoder) (c : Nat) (temp : List Nat)
    (h4096 : st.dictSize < 4096) :
    update st c temp =
      growOrReset
        { st with
          output := st.output ++ temp
          dictionary :=
            if st.first then st.dictionary
            else fun j =>
              if j = st.dictSize then
                { symbol := temp.headD 0, next := (st.prevCode * 8) % 4294967296 }
              else st.dictionary j
          dictSize := if st.first then st.dictSize else st.dictSize + 1
          prevCode := c
          first := false } := by
  have h : ¬ st.dictSize ≥ 4096 := by omega
  unfold update addToDictionary
  cases hf : st.first <;> simp [h]

theorem limit_minus_one (cs : Nat) (h9 : 9 ≤ cs) (h12 : cs ≤ 12) :
    (2 ^ cs + 4294967295) % 4294967296 = 2 ^ cs - 1 := by
  interval_cases cs <;> norm_num

/-- The growth test on the decoder side against the encoder's `advance`. -/
theorem sim_growOrReset (enc : Encoder) (pre : LZWDecoder) (table : List (List Nat))
    (phrase : List Nat) (hinv : Inv (growOrReset pre)) (h9 : 9 ≤ enc.codeSize)
    (h12 : enc.codeSize ≤ 12) (hcs : pre.codeSize = enc.codeSize)
    (hlim : pre.dictLimit = 2 ^ enc.codeSize) (hinit : pre.initialCodeSize = 9)
    (hfirst : pre.first = false) (hsize : pre.dictSize = 256 + table.length)
    (htable : ∀ i s, table[i]? = some s → Chain pre.dictionary (256 + i) s)
    (hprev : Chain pre.dictionary pre.prevCode phrase) :
    Sim (enc.advance table phrase) (growOrReset pre) := by
  have hcond : (pre.dictSize = (pre.dictLimit + 4294967295) % 4294967296) ↔
      256 + table.length = 2 ^ enc.codeSize - 1 := by
    rw [hlim, limit_minus_one enc.codeSize h9 h12, hsize]
  by_cases hc : 256 + table.length = 2 ^ enc.codeSize - 1
  · have hc2 := hcond.mpr hc
    by_cases hw : enc.codeSize < 12
    · have hw2 : pre.codeSize < 12 := by rw [hcs]; exact hw
      have hg : growOrReset pre =
          { pre with codeSize := pre.codeSize + 1, dictLimit := 1 <<< (pre.codeSize + 1) } := by
        simp [growOrReset, hc2, hw2]
      have ha : enc.advance table phrase =
          { table := table, codeSize := enc.codeSize + 1, prev := phrase, first := false } := by
        simp [Encoder.advance, hc, hw]
      rw [hg] at hinv ⊢
      rw [ha]
      exact ⟨hinv, by simp [hcs], hfirst, hsize, fun h => by simp at h, htable, fun _ => hprev⟩
    · have hw2 : ¬ pre.codeSize < 12 := by rw [hcs]; exact hw
      have hg : growOrReset pre =
          { pre with
            dictionary := fun j =>
              if j < 256 then { symbol := j % 256, next := 0xFFFFFFFF } else pre.dictionary j
            dictSize := 256
            codeSize := pre.initialCodeSize, dictLimit := 1 <<< pre.initialCodeSize,
            first := true } := by
        simp [growOrReset, hc2, hw2, resetDictionary_eq]
      have ha : enc.advance table phrase =
          { table := [], codeSize := 9, prev := phrase, first := true } := by
        simp [Encoder.advance, hc, hw]
      rw [hg] at hinv ⊢
      rw [ha]
      exact ⟨hinv, hinit, rfl, rfl, fun _ => rfl, fun i s h => by simp at h,
        fun h => by simp at h⟩
  · have hc2 : ¬ (pre.dictSize = (pre.dictLimit + 4294967295) % 4294967296) :=
      fun h => hc (hcond.mp h)
    have hg : growOrReset pre = pre := by simp [growOrReset, hc2]
    have ha : enc.advance table phrase =
        { table := table, codeSize := enc.codeSize, prev := phrase, first := false } := by
      simp [Encoder.advance, hc]
    rw [hg] at hinv ⊢
    rw [ha]
    exact ⟨hinv, hcs, hfirst, hsize, fun h => by simp at h, htable, fun _ => hprev⟩

/-- How the decoder resolves what the encoder matched. -/
theorem match_resolves (enc : Encoder) (st : LZWDecoder) (b : Nat) (rest : List Nat)
    (hsim : Sim enc st) (hb : b < 256) (m : Nat × Nat)
    (hm : IsMatch (enc.tableNow b) (b :: rest) m) :
    codeOk (st.first, st.dictSize, m.1) = true ∧ m.1 ≤ st.dictSize ∧
      ((b :: rest).take m.2).headD 0 = b ∧
      ((m.1 < st.dictSize ∧ Chain st.dictionary m.1 ((b :: rest).take m.2)) ∨
        (m.1 = st.dictSize ∧ st.first = false ∧ (b :: rest).take m.2 = enc.prev ++ [b] ∧
          enc.prev.headD 0 = b)) := by
  have hds := hsim.inv.ds_lo
  rcases hm with hm | ⟨i, s, hi, hp, hm, hl⟩
  · subst hm
    have htake : (b :: rest).take 1 = [b] := rfl
    simp only [List.headD_cons, htake]
    refine ⟨?_, ?_, ?_, Or.inl ⟨?_, ?_⟩⟩
    · simp only [codeOk]
      split_ifs <;> simp <;> omega
    · omega
    · trivial
    · omega
    · have hroot := hsim.inv.roots b hb
      have := Chain.root (d := st.dictionary) b (by rw [hroot])
      rw [hroot] at this
      exact this
  · subst hm
    have htake : (b :: rest).take s.length = s := by
      obtain ⟨t, ht⟩ := hp
      rw [← ht, List.take_left]
    simp only [htake]
    have hhead : s.headD 0 = b := by
      obtain ⟨t, ht⟩ := hp
      cases s with
      | nil => simp at hl
      | cons a s2 =>
        simp only [List.cons_append, List.cons.injEq] at ht
        simp [ht.1]
    cases hf : enc.first with
    | true =>
      have hnil := hsim.fresh hf
      simp [Encoder.tableNow, hf, hnil] at hi
    | false =>
      have hsf : st.first = false := by rw [hsim.first, hf]
      simp only [Encoder.tableNow, hf, Bool.false_eq_true, if_false] at hi
      by_cases hlt : i < enc.table.length
      · rw [List.getElem?_append_left hlt] at hi
        refine ⟨by simp [codeOk, hsf, hsim.size]; omega, by rw [hsim.size]; omega, hhead,
          Or.inl ⟨by rw [hsim.size]; omega, hsim.table i s hi⟩⟩
      · have hlen : i < (enc.table ++ [enc.prev ++ [b]]).length :=
          (List.getElem?_eq_some.mp hi).1
        simp only [List.length_append, List.length_singleton] at hlen
        have hieq : i = enc.table.length := by omega
        subst hieq
        simp only [List.getElem?_concat_length, Option.some.injEq] at hi
        subst hi
        have hprev := hsim.prev hf
        have hne := chain_ne_nil _ _ _ hprev
        refine ⟨by simp [codeOk, hsf, hsim.size], by rw [hsim.size], hhead,
          Or.inr ⟨by rw [hsim.size], hsf, rfl, ?_⟩⟩
        cases hpv : enc.prev with
        | nil => exact absurd hpv hne
        | cons a p2 =>
          rw [hpv] at hhead
          simpa using hhead

end LZW

namespace LZW

/-- The slot the decoder adds spells the previous phrase and the new byte. -/
theorem chain_added (d : Nat → Entry) (size prevCode b : Nat) (prev : List Nat)
    (hs : size ≤ 4096) (hp : prevCode < size) (hprev : Chain d prevCode prev) :
    Chain (fun j => if j = size then { symbol := b, next := (prevCode * 8) % 4294967296 }
        else d j) size (prev ++ [b]) := by
  have hframe : Chain (fun j => if j = size then
      ({ symbol := b, next := (prevCode * 8) % 4294967296 } : Entry) else d j) prevCode prev :=
    chain_frame d _ prevCode prev hprev (fun i hi => by
      have : ¬ i = size := by omega
      simp [this])
  have hlink := Chain.link size prevCode prev (by
    have : prevCode * 8 % 4294967296 = 8 * prevCode := by omega
    simp [this]) hp hframe
  simpa using hlink

theorem chain_kept (d : Nat → Entry) (size j : Nat) (e : Entry) (s : List Nat)
    (hj : j < size) (h : Chain d j s) :
    Chain (fun i => if i = size then e else d i) j s :=
  chain_frame d _ j s h (fun i hi => by
    have : ¬ i = size := by omega
    simp [this])

/-- One turn of the encoder against one turn of the decoder: the decoder
resolves the emitted code to the phrase the encoder consumed, and the two
stay in step. -/
theorem sim_step (enc : Encoder) (st : LZWDecoder) (b : Nat) (rest : List Nat)
    (hsim : Sim enc st) (hb : b < 256) :
    (∀ fuel, 4096 ≤ fuel →
        resolve fuel st (longestMatch (enc.tableNow b) (b :: rest)).1 =
          some ((b :: rest).take (longestMatch (enc.tableNow b) (b :: rest)).2)) ∧
      Sim (enc.advance (enc.tableNow b)
            ((b :: rest).take (longestMatch (enc.tableNow b) (b :: rest)).2))
          (update st (longestMatch (enc.tableNow b) (b :: rest)).1
            ((b :: rest).take (longestMatch (enc.tableNow b) (b :: rest)).2)) ∧
      (longestMatch (enc.tableNow b) (b :: rest)).1 < 2 ^ st.codeSize ∧
      1 ≤ (longestMatch (enc.tableNow b) (b :: rest)).2 := by
  have hm := longestMatch_spec (enc.tableNow b) (b :: rest)
  generalize longestMatch (enc.tableNow b) (b :: rest) = m at hm ⊢
  obtain ⟨hok, hle, hhead, hres⟩ := match_resolves enc st b rest hsim hb m hm
  generalize (b :: rest).take m.2 = phrase at hhead hres ⊢
  have hinv := hsim.inv
  have h4096 : st.dictSize + 2 ≤ 4096 := by
    have : 2 ^ st.codeSize ≤ 2 ^ 12 := Nat.pow_le_pow_right (by norm_num) hinv.cs_hi
    have := hinv.ds_hi
    omega
  refine ⟨?_, ?_, by have := hinv.ds_hi; omega, isMatch_len _ _ _ hm⟩
  · intro fuel hf
    rcases hres with ⟨hlt, hch⟩ | ⟨heq, hsf, hph, hpv⟩
    · exact resolve_lt fuel st m.1 phrase hlt hch (by
        have := chain_length_le _ _ _ hch
        omega)
    · have hef : enc.first = false := by rw [← hsim.first]; exact hsf
      have hch := hsim.prev hef
      have := resolve_ge fuel st m.1 enc.prev (by omega) hch (by
        have := chain_length_le _ _ _ hch
        have := hinv.prev hsf
        omega)
      rw [this, hph, hpv]
  · have hinv2 := update_inv st m.1 phrase hinv hok
    rw [update_eq_growOrReset st m.1 phrase (by omega)] at hinv2 ⊢
    apply sim_growOrReset enc _ (enc.tableNow b) phrase hinv2
      (by rw [← hsim.codeSize]; exact hinv.cs_lo) (by rw [← hsim.codeSize]; exact hinv.cs_hi)
      hsim.codeSize (by rw [← hsim.codeSize]; exact hinv.limit) hinv.init rfl
    · -- size
      cases hf : enc.first with
      | true =>
        have hsf : st.first = true := by rw [hsim.first, hf]
        simp [hsf, Encoder.tableNow, hf, hsim.size]
      | false =>
        have hsf : st.first = false := by rw [hsim.first, hf]
        simp [hsf, Encoder.tableNow, hf, hsim.size]
        omega
    · -- table
      intro i s hi
      cases hf : enc.first with
      | true =>
        have hsf : st.first = true := by rw [hsim.first, hf]
        simp only [Encoder.tableNow, hf, if_true] at hi
        simp only [hsf, if_true]
        exact hsim.table i s hi
      | false =>
        have hsf : st.first = false := by rw [hsim.first, hf]
        simp only [Encoder.tableNow, hf, Bool.false_eq_true, if_false] at hi
        simp only [hsf, Bool.false_eq_true, if_false]
        by_cases hlt : i < enc.table.length
        · rw [List.getElem?_append_left hlt] at hi
          exact chain_kept _ _ _ _ _ (by rw [hsim.size]; omega) (hsim.table i s hi)
        · have hlen : i < (enc.table ++ [enc.prev ++ [b]]).length :=
            (List.getElem?_eq_some.mp hi).1
          simp only [List.length_append, List.length_singleton] at hlen
          have hieq : i = enc.table.length := by omega
          subst hieq
          simp only [List.getElem?_concat_length, Option.some.injEq] at hi
          subst hi
          rw [← hsim.size, hhead]
          exact chain_added _ _ _ _ _ (by omega) (hinv.prev hsf) (hsim.prev hf)
    · -- the phrase just emitted
      show Chain _ m.1 phrase
      rcases hres with ⟨hlt, hch⟩ | ⟨heq, hsf, hph, hpv⟩
      · cases hsf : st.first with
        | true => simp only [if_true]; exact hch
        | false =>
          simp only [Bool.false_eq_true, if_false]
          exact chain_kept _ _ _ _ _ hlt hch
      · have hef : enc.first = false := by rw [← hsim.first]; exact hsf
        simp only [hsf, Bool.false_eq_true, if_false]
        subst hph
        rw [heq, hhead]
        exact chain_added _ _ _ _ _ (by omega) (hinv.prev hsf) (hsim.prev hef)

end LZW

namespace LZW

theorem Sim.of_read {enc : Encoder} {st st1 : LZWDecoder} (h : Sim enc st)
    (hs : st1.sameCore st) (hr : st1.readerOk) : Sim enc st1 := by
  have hinv := h.inv.of_sameCore hs hr
  obtain ⟨h1, h2, h3, h4, h5, h6, h7, h8⟩ := hs
  exact ⟨hinv, h1.trans h.codeSize, h8.trans h.first, h4.trans h.size, h.fresh,
    by rw [h5]; exact h.table, by rw [h5, h7]; exact h.prev⟩

theorem encodeLoop_cons (n : Nat) (enc : Encoder) (b : Nat) (rest : List Nat) :
    encodeLoop (n + 1) enc (b :: rest) =
      ((longestMatch (enc.tableNow b) (b :: rest)).1, enc.codeSize) ::
        encodeLoop n
          (enc.advance (enc.tableNow b)
            ((b :: rest).take (longestMatch (enc.tableNow b) (b :: rest)).2))
          ((b :: rest).drop (longestMatch (enc.tableNow b) (b :: rest)).2) := rfl

/-- Every code the encoder emits fits its width. -/
theorem encodeLoop_valid :
    ∀ (n : Nat) (input : List Nat) (enc : Encoder) (st : LZWDecoder), Sim enc st →
      (∀ b ∈ input, b < 256) → ∀ p ∈ encodeLoop n enc input, p.1 < 2 ^ p.2 := by
  intro n
  induction n with
  | zero => intro input enc st _ _ p hp; simp [encodeLoop] at hp
  | succ n ih =>
    intro input enc st hsim hbytes p hp
    cases input with
    | nil => simp [encodeLoop] at hp
    | cons b rest =>
      have hb : b < 256 := hbytes b (List.mem_cons_self _ _)
      obtain ⟨-, hsim2, hlt, -⟩ := sim_step enc st b rest hsim hb
      rw [encodeLoop_cons] at hp
      rcases List.mem_cons.mp hp with rfl | hp2
      · simp only
        rw [← hsim.codeSize]
        exact hlt
      · exact ih _ _ _ hsim2 (fun x hx => hbytes x (List.mem_of_mem_drop hx)) p hp2

theorem top_code (c vr lr pad cs : Nat) (h : vr < 2 ^ lr) :
    (c * 2 ^ lr + vr) * 2 ^ pad / 2 ^ (cs + lr + pad - cs) = c ∧
      (c * 2 ^ lr + vr) * 2 ^ pad % 2 ^ (cs + lr + pad - cs) = vr * 2 ^ pad := by
  have he : cs + lr + pad - cs = lr + pad := by omega
  have hpos : 0 < 2 ^ (lr + pad) := by positivity
  have hlt : vr * 2 ^ pad < 2 ^ (lr + pad) := by
    rw [pow_add]
    exact Nat.mul_lt_mul_of_pos_right h (by positivity)
  have hx : (c * 2 ^ lr + vr) * 2 ^ pad = vr * 2 ^ pad + 2 ^ (lr + pad) * c := by
    rw [pow_add]; ring
  rw [he, hx]
  constructor
  · rw [Nat.add_mul_div_left _ _ hpos, Nat.div_eq_of_lt hlt, Nat.zero_add]
  · rw [Nat.add_mul_mod_self_left, Nat.mod_eq_of_lt hlt]

/-- The decoder, started in step with the encoder on the packed codes of
`input`, appends exactly `input` to its output. -/
theorem roundtrip_loop :
    ∀ (n : Nat) (input : List Nat) (enc : Encoder) (st : LZWDecoder) (pad : Nat),
      input.length ≤ n → (∀ b ∈ input, b < 256) → Sim enc st → pad < 8 →
      st.pendingVal = packVal (encodeLoop n enc input) * 2 ^ pad →
      st.pendingLen = packLen (encodeLoop n enc input) + pad →
      ∀ fuel k, 4096 ≤ fuel → input.length < k →
        decodeLoop fuel k st = some (st.output ++ input) := by
  intro n
  induction n with
  | zero =>
    intro input enc st pad hlen _ hsim hpad _ hL fuel k _ hk
    have hnil : input = [] := List.eq_nil_of_length_eq_zero (by omega)
    subst hnil
    obtain ⟨k, rfl⟩ : ∃ j, k = j + 1 := ⟨k - 1, by omega⟩
    have h9 := hsim.inv.cs_lo
    have h12 := hsim.inv.cs_hi
    rw [decodeLoop_eof fuel k st (by omega) (by omega) hsim.inv.readerOk
      (by rw [hL]; simp only [encodeLoop, packLen]; omega)]
    simp
  | succ n ih =>
    intro input enc st pad hlen hbytes hsim hpad hV hL fuel k hf hk
    obtain ⟨k, rfl⟩ : ∃ j, k = j + 1 := ⟨k - 1, by omega⟩
    have h9 := hsim.inv.cs_lo
    have h12 := hsim.inv.cs_hi
    cases input with
    | nil =>
      rw [decodeLoop_eof fuel k st (by omega) (by omega) hsim.inv.readerOk
        (by rw [hL]; simp only [encodeLoop, packLen]; omega)]
      simp
    | cons b rest =>
      have hb : b < 256 := hbytes b (List.mem_cons_self _ _)
      have hvalid := encodeLoop_valid (n + 1) (b :: rest) enc st hsim hbytes
      rw [encodeLoop_cons] at hV hL hvalid
      generalize hm : longestMatch (enc.tableNow b) (b :: rest) = m at hV hL hvalid
      generalize hR : encodeLoop n (enc.advance (enc.tableNow b) ((b :: rest).take m.2))
        ((b :: rest).drop m.2) = R at hV hL hvalid
      have hvr : packVal R < 2 ^ packLen R :=
        packVal_lt R (fun p hp => hvalid p (List.mem_cons_of_mem _ hp))
      simp only [packVal, packLen] at hV hL
      rw [← hsim.codeSize] at hL
      obtain ⟨hcode, hrem⟩ := top_code m.1 (packVal R) (packLen R) pad st.codeSize hvr
      obtain ⟨st1, hsame, hr1, -, hv1, hl1, -, hloop⟩ :=
        decodeLoop_step fuel k st (by omega) (by omega) hsim.inv.readerOk (by omega)
      rw [hloop, hV, hL, hcode]
      rw [hV, hL, hrem] at hv1
      rw [hL] at hl1
      have hsim1 : Sim enc st1 := hsim.of_read hsame hr1
      obtain ⟨hres, hsim2, -, hlen1⟩ := sim_step enc st1 b rest hsim1 hb
      rw [hm] at hres hsim2 hlen1
      simp only [decodeBody, hres fuel hf, Option.map_some']
      obtain ⟨hpv, hpl⟩ := update_pending st1 m.1 ((b :: rest).take m.2)
      have hrec := ih ((b :: rest).drop m.2) _ _ pad
        (by simp only [List.length_drop, List.length_cons] at hlen ⊢; omega)
        (fun x hx => hbytes x (List.mem_of_mem_drop hx)) hsim2 hpad
        (by rw [hpv, hv1, hR]) (by rw [hpl, hl1, hR]; omega) fuel k hf
        (by simp only [List.length_drop, List.length_cons] at hk ⊢; omega)
      rw [hrec, update_output, hsame.2.2.2.2.2.1, List.append_assoc, List.take_append_drop]

end LZW

namespace LZW

theorem replicate_isPrefixOf (a n r : Nat) (h : n ≤ r) :
    (List.replicate n a).isPrefixOf (List.replicate r a) = true := by
  rw [List.isPrefixOf_iff_prefix]
  refine ⟨List.replicate (r - n) a, ?_⟩
  rw [← List.replicate_add]
  congr 1
  omega

theorem bestMatch_const (a r : Nat) :
    ∀ (len m0 code : Nat) (best : Nat × Nat), best.2 < m0 + 2 → m0 + len + 1 ≤ r →
      bestMatch (List.replicate r a)
          ((List.range' m0 len).map (fun j => List.replicate (j + 2) a)) code best =
        if len = 0 then best else (code + len - 1, m0 + len + 1) := by
  intro len
  induction len with
  | zero => intro m0 code best _ _; simp [bestMatch]
  | succ len ih =>
    intro m0 code best hb hr
    have hpre := replicate_isPrefixOf a (m0 + 2) r (by omega)
    simp only [List.range'_succ, List.map_cons, bestMatch, hpre, List.length_replicate, hb,
      decide_True, Bool.and_self, if_true]
    rw [ih (m0 + 1) (code + 1) (code, m0 + 2) (by simp) (by omega)]
    by_cases hl : len = 0
    · subst hl; simp
    · simp only [hl, if_false, Nat.add_one_ne_zero]
      congr 1 <;> omega

theorem longestMatch_const (a m r : Nat) (hr : m + 2 ≤ r) :
    longestMatch (constTable a (m + 1)) (List.replicate r a) = (256 + m, m + 2) := by
  unfold longestMatch constTable
  rw [List.range_eq_range', bestMatch_const a r (m + 1) 0 256 _ (by simp) (by omega)]
  simp

theorem constState_tableNow (a m w : Nat) :
    (constState a m w).tableNow a = constTable a (m + 1) := by
  simp only [constState, Encoder.tableNow, constTable, Bool.false_eq_true, if_false,
    List.range_succ, List.map_append, List.map_cons, List.map_nil]
  congr 2
  exact (List.replicate_succ' (m + 1) a).symm

/-- One turn of the encoder on a run of one byte: it emits the newest code. -/
theorem encodeLoop_const (a m w r fuel : Nat) (hr : m + 2 ≤ r) :
    encodeLoop (fuel + 1) (constState a m w) (List.replicate r a) =
      (256 + m, w) ::
        encodeLoop fuel
          ((constState a m w).advance (constTable a (m + 1)) (List.replicate (m + 2) a))
          (List.replicate (r - (m + 2)) a) := by
  obtain ⟨r2, rfl⟩ : ∃ r2, r = r2 + 1 := ⟨r - 1, by omega⟩
  have hcons : List.replicate (r2 + 1) a = a :: List.replicate r2 a := rfl
  rw [hcons, encodeLoop_cons, ← hcons, constState_tableNow, longestMatch_const a m (r2 + 1) hr]
  rw [List.take_replicate, List.drop_replicate, Nat.min_eq_left hr]
  rfl

theorem advance_same (a m w : Nat) (h : 256 + (m + 1) ≠ 2 ^ w - 1) :
    (constState a m w).advance (constTable a (m + 1)) (List.replicate (m + 2) a) =
      constState a (m + 1) w := by
  simp [Encoder.advance, constState, constTable, h]

theorem advance_grow (a m w : Nat) (h : 256 + (m + 1) = 2 ^ w - 1) (hw : w < 12) :
    (constState a m w).advance (constTable a (m + 1)) (List.replicate (m + 2) a) =
      constState a (m + 1) (w + 1) := by
  simp [Encoder.advance, constState, constTable, h, hw]

theorem advance_reset (a m : Nat) (h : 256 + (m + 1) = 2 ^ 12 - 1) :
    (constState a m 12).advance (constTable a (m + 1)) (List.replicate (m + 2) a) =
      { table := [], codeSize := 9, prev := List.replicate (m + 2) a, first := true } := by
  simp [Encoder.advance, constState, constTable, h]

/-- A stretch of `j` turns in which the width does not change. -/
theorem widths_stretch (a w : Nat) :
    ∀ (j m r fuel : Nat), (∀ i, i < j → 256 + (m + i + 1) ≠ 2 ^ w - 1) →
      j * (m + j + 1) ≤ r → j ≤ fuel →
      ∃ r2, r ≤ r2 + j * (m + j + 1) ∧
        (encodeLoop fuel (constState a m w) (List.replicate r a)).map Prod.snd =
          List.replicate j w ++
            (encodeLoop (fuel - j) (constState a (m + j) w) (List.replicate r2 a)).map
              Prod.snd := by
  intro j
  induction j with
  | zero => intro m r fuel _ _ _; exact ⟨r, by simp, by simp⟩
  | succ j ih =>
    intro m r fuel hno hr hf
    obtain ⟨f, rfl⟩ : ∃ f, fuel = f + 1 := ⟨fuel - 1, by omega⟩
    have hr1 : m + 2 ≤ r := by nlinarith
    rw [encodeLoop_const a m w r f hr1, advance_same a m w (by simpa using hno 0 (by omega))]
    have hr2 : j * (m + 1 + j + 1) ≤ r - (m + 2) := by
      have : (j + 1) * (m + (j + 1) + 1) = j * (m + 1 + j + 1) + (m + j + 2) := by ring
      omega
    obtain ⟨r2, hr2b, heq⟩ := ih (m + 1) (r - (m + 2)) f
      (fun i hi => by have := hno (i + 1) (by omega); rwa [show m + (i + 1) + 1 = m + 1 + i + 1 by ring] at this)
      hr2 (by omega)
    refine ⟨r2, ?_, ?_⟩
    · have : (j + 1) * (m + (j + 1) + 1) = j * (m + 1 + j + 1) + (m + j + 2) := by ring
      omega
    · simp only [List.map_cons, heq, List.replicate_succ, List.cons_append]
      rw [show f + 1 - (j + 1) = f - j by omega, show m + 1 + j = m + (j + 1) by ring]

end LZW

namespace LZW

/-- The first turn of an epoch on a run of one byte emits the singleton. -/
theorem encodeLoop_fresh (a r fuel : Nat) (p : List Nat) :
    encodeLoop (fuel + 1) { table := [], codeSize := 9, prev := p, first := true }
        (List.replicate (r + 1) a) =
      (a, 9) :: encodeLoop fuel (constState a 0 9) (List.replicate r a) := by
  have hcons : List.replicate (r + 1) a = a :: List.replicate r a := rfl
  rw [hcons, encodeLoop_cons]
  simp [Encoder.tableNow, longestMatch, bestMatch, Encoder.advance, constState, constTable]

/-- A stretch of turns at one width followed by the turn after which the
width changes. -/
theorem widths_phase (a w j m r fuel : Nat) (next : Encoder)
    (hno : ∀ i, i < j → 256 + (m + i + 1) ≠ 2 ^ w - 1)
    (hnext : (constState a (m + j) w).advance (constTable a (m + j + 1))
      (List.replicate (m + j + 2) a) = next)
    (hr : (j + 1) * (m + j + 2) ≤ r) (hf : j + 1 ≤ fuel) :
    ∃ r2, r ≤ r2 + (j + 1) * (m + j + 2) ∧
      (encodeLoop fuel (constState a m w) (List.replicate r a)).map Prod.snd =
        List.replicate (j + 1) w ++
          (encodeLoop (fuel - (j + 1)) next (List.replicate r2 a)).map Prod.snd := by
  have hexp : (j + 1) * (m + j + 2) = j * (m + j + 1) + (m + 2 * j + 2) := by ring
  obtain ⟨r1, hr1, heq⟩ := widths_stretch a w j m r fuel hno (by omega) (by omega)
  obtain ⟨f, hf2⟩ : ∃ f, fuel - j = f + 1 := ⟨fuel - j - 1, by omega⟩
  rw [hf2, encodeLoop_const a (m + j) w r1 f (by omega), hnext] at heq
  refine ⟨r1 - (m + j + 2), by omega, ?_⟩
  rw [heq, List.replicate_succ', List.map_cons, List.append_assoc,
    show fuel - (j + 1) = f by omega]
  rfl

/-- On a long run of one byte the reference encoder goes through a whole
epoch: 256 codes of 9 bits, 512 of 10, 1024 of 11, 2048 of 12, then the
dictionary reset, after which the next code has 9 bits again. -/
theorem encoder_goes_through_an_epoch (a n : Nat) (hn : 15000000 ≤ n) :
    epochWidths <+:
      (encodeLoop n { table := [], codeSize := 9, prev := [], first := true }
        (List.replicate n a)).map Prod.snd := by
  obtain ⟨r0, rfl⟩ : ∃ r0, n = r0 + 1 := ⟨n - 1, by omega⟩
  rw [encodeLoop_fresh a r0 r0 []]
  obtain ⟨r1, h1, e1⟩ := widths_phase a 9 254 0 r0 r0 (constState a 255 10)
    (fun i hi => by norm_num; omega) (advance_grow a 254 9 (by norm_num) (by norm_num))
    (by norm_num; omega) (by omega)
  obtain ⟨r2, h2, e2⟩ := widths_phase a 10 511 255 r1 (r0 - 255) (constState a 767 11)
    (fun i hi => by norm_num; omega) (advance_grow a 766 10 (by norm_num) (by norm_num))
    (by norm_num at h1 ⊢; omega) (by omega)
  obtain ⟨r3, h3, e3⟩ := widths_phase a 11 1023 767 r2 (r0 - 255 - 512) (constState a 1791 12)
    (fun i hi => by norm_num; omega) (advance_grow a 1790 11 (by norm_num) (by norm_num))
    (by norm_num at h1 h2 ⊢; omega) (by omega)
  obtain ⟨r4, h4, e4⟩ := widths_phase a 12 2047 1791 r3 (r0 - 255 - 512 - 1024)
    { table := [], codeSize := 9, prev := List.replicate 3840 a, first := true }
    (fun i hi => by norm_num; omega) (advance_reset a 3838 (by norm_num))
    (by norm_num at h1 h2 h3 ⊢; omega) (by omega)
  obtain ⟨r5, rfl⟩ : ∃ r5, r4 = r5 + 1 := ⟨r4 - 1, by norm_num at h1 h2 h3 h4; omega⟩
  obtain ⟨f5, hf5⟩ : ∃ f5, r0 - 255 - 512 - 1024 - 2048 = f5 + 1 :=
    ⟨r0 - 255 - 512 - 1024 - 2048 - 1, by omega⟩
  rw [show (2047 : Nat) + 1 = 2048 by rfl, hf5, encodeLoop_fresh a r5 f5] at e4
  rw [show (1023 : Nat) + 1 = 1024 by rfl, e4] at e3
  rw [show (511 : Nat) + 1 = 512 by rfl, e3] at e2
  rw [show (254 : Nat) + 1 = 255 by rfl, e2] at e1
  rw [List.map_cons, e1]
  refine ⟨(encodeLoop f5 (constState a 0 9) (List.replicate r5 a)).map Prod.snd, ?_⟩
  simp only [epochWidths, List.map_cons, List.append_assoc, List.singleton_append,
    List.cons_append, List.nil_append]
  rw [show (256 : Nat) = 255 + 1 by rfl, List.replicate_succ, List.cons_append]

end LZW

namespace LZW

/-- The encoder and the decoder start in step. -/
theorem sim_new (input : List Nat) (hbytes : ∀ b ∈ input, b < 256) :
    Sim { table := [], codeSize := 9, prev := [], first := true } (LZWDecoder.new input 9) := by
  obtain ⟨-, -, -, hfirst, hcs, hds, -, -, -⟩ := new_pending input
  exact ⟨new_inv input hbytes, hcs, hfirst, by rw [hds]; rfl, fun _ => rfl,
    fun i s h => by simp at h, fun h => by simp at h⟩

/-- C1. The round trip: for every byte sequence `s` (of length 1 or more, and
the empty one as well), decoding what the reference encoder makes of `s`
returns exactly `s`, for every fuel from `4096 + s.length` on. The encoder is
the one with the decoder's rules: 256 singletons, 9-bit initial codes packed
most significant bit first and zero-padded to a whole byte, width growth when
the dictionary reaches `2 ^ width - 1` entries, reset at 4095 entries with
12-bit codes. The statement holds for every length, so also for the inputs on
which the encoder grows the width and resets the dictionary
(`encoder_goes_through_an_epoch` shows such inputs). -/
theorem decode_encode (s : List Nat) (hbytes : ∀ b ∈ s, b < 256)
    (fuel : Nat) (hfuel : 4096 + s.length ≤ fuel) :
    decode fuel (encode s) = some s := by
  have hvalid := encodeLoop_valid s.length s { table := [], codeSize := 9, prev := [], first := true }
    (LZWDecoder.new [] 9) (sim_new [] (by simp)) hbytes
  obtain ⟨hval, hl, hby⟩ := pack_spec _ hvalid
  have hsim := sim_new (encode s) hby
  obtain ⟨hV, hL, hout, -, -, -, -, -, -⟩ := new_pending (encode s)
  have := roundtrip_loop s.length s _ (LZWDecoder.new (encode s) 9) _ (le_refl _) hbytes hsim
    (padLen_lt _) (by rw [hV]; exact hval) (by rw [hL]; exact hl) fuel fuel (by omega) (by omega)
  rw [decode, this, hout]
  rfl

/-- The five bytes `ABABA` meet the hypotheses of `decode_encode`. -/
theorem decode_encode_witness :
    (∀ b ∈ [65, 66, 65, 66, 65], b < 256) ∧ 4096 + [65, 66, 65, 66, 65].length ≤ 5000 ∧
      decode 5000 (encode [65, 66, 65, 66, 65]) = some [65, 66, 65, 66, 65] :=
  ⟨by decide, by decide, decode_encode [65, 66, 65, 66, 65] (by decide) 5000 (by decide)⟩

end LZW

namespace Xaf

/-- C2, amended. For every record whose `parentId` is the root sentinel the
`fullPath` built in `processEntries` is the empty string: the record's own
name is appended only inside the branch taken when `parentId` is not the
sentinel. -/
theorem fullPath_of_root (fuel : Nat) (entries : List XafFileEntry) (fileEntry : XafFileEntry)
    (hroot : fileEntry.parentId = 0xFFFFFFFF) :
    fullPath fuel entries fileEntry = Outcome.ok [] := by
  simp [fullPath, hroot]

/-- The root directory `d` meets the hypothesis of `fullPath_of_root`. -/
theorem fullPath_of_root_witness :
    dirD.parentId = 0xFFFFFFFF ∧ fullPath 1 [dirD] dirD = Outcome.ok [] :=
  ⟨rfl, fullPath_of_root 1 [dirD] dirD rfl⟩

/-- C2, the claim as stated fails: the root directory named `d` has the
trimmed name `d`, and no run of the resolver yields that as its path. -/
theorem root_path_is_not_its_name :
    dirD.parentId = 0xFFFFFFFF ∧ c_str dirD.name = [100] ∧
      ¬ ∃ fuel, fullPath fuel [dirD] dirD = Outcome.ok (c_str dirD.name) := by
  refine ⟨rfl, by decide, ?_⟩
  rintro ⟨fuel, h⟩
  have h2 : fullPath fuel [dirD] dirD = Outcome.ok [] := by simp [fullPath, dirD, mkEntry]
  rw [h2] at h
  have h3 : c_str dirD.name = [100] := by decide
  rw [h3] at h
  exact absurd h (by decide)

end Xaf

namespace Xaf

theorem parentWalk_clearEncryption (entries : List XafFileEntry) :
    ∀ (fuel parentId : Nat) (folderList : List (List Nat)),
      parentWalk fuel (entries.map clearEncryption) parentId folderList =
        parentWalk fuel entries parentId folderList := by
  intro fuel
  induction fuel with
  | zero => intro _ _; rfl
  | succ f ih =>
    intro parentId folderList
    simp only [parentWalk, List.getElem?_map]
    split_ifs with h
    · rfl
    · cases entries[parentId]? with
      | none => rfl
      | some parent =>
        simp only [Option.map_some', clearEncryption]
        cases cString parent.name with
        | none => rfl
        | some parentPath =>
          simp only
          cases parentPath.getLast? with
          | none => rfl
          | some back => simp only [ih]

theorem fullPath_clearEncryption (fuel : Nat) (entries : List XafFileEntry)
    (fileEntry : XafFileEntry) :
    fullPath fuel (entries.map clearEncryption) (clearEncryption fileEntry) =
      fullPath fuel entries fileEntry := by
  simp only [fullPath, parentWalk_clearEncryption]
  rfl

theorem extract_clearEncryption (fuel : Nat) (outputFolder : List Nat) (header : XafHeader)
    (src : Source) (fileEntry : XafFileEntry) (path : List Nat) :
    extract fuel outputFolder header src (clearEncryption fileEntry) path =
      extract fuel outputFolder header src fileEntry path := rfl

theorem processEntries_clearEncryption (fuel : Nat) (outputFolder : List Nat)
    (header : XafHeader) (entries : List XafFileEntry) :
    ∀ (rest : List XafFileEntry) (src : Source),
      processEntries fuel outputFolder header (entries.map clearEncryption)
          (rest.map clearEncryption) src =
        processEntries fuel outputFolder header entries rest src := by
  intro rest
  induction rest with
  | nil => intro src; rfl
  | cons e rest ih =>
    intro src
    simp only [List.map_cons, processEntries, fullPath_clearEncryption,
      extract_clearEncryption, ih]

/-- C3, amended. The extractor never looks at `encryptionType`: for every
record table and archive, extraction does exactly what it does on the table
with every `encryptionType` set to zero. A file record with a non-zero
`encryptionType` is therefore copied or decoded by its `compressionType` like
any other, and the records after it are extracted as well. -/
theorem extraction_ignores_encryptionType (fuel : Nat) (outputFolder : List Nat)
    (header : XafHeader) (entries : List XafFileEntry) (src : Source) :
    processEntries fuel outputFolder header entries entries src =
      processEntries fuel outputFolder header (entries.map clearEncryption)
        (entries.map clearEncryption) src :=
  (processEntries_clearEncryption fuel outputFolder header entries entries src).symm

set_option maxRecDepth 100000 in
/-- C3, the claim as stated fails: of the three files `a`, `b`, `c` in
directory `d` only `b` has an encryption type set, and the extractor writes
all three, `b` with its payload bytes 14, 15. -/
theorem encrypted_record_is_written :
    fileB.flags.encryptionType = 1 ∧
      processEntries 2 [111] (mkHeader 1 2 4) threeFiles threeFiles eightBytes =
        Outcome.ok
          ([Event.createDirectories [111, 92],
            Event.writeFile [111, 92, 100, 92, 97] [12, 13],
            Event.writeFile [111, 92, 100, 92, 98] [14, 15],
            Event.writeFile [111, 92, 100, 92, 99] [16, 17]],
           { bytes := [10, 11, 12, 13, 14, 15, 16, 17], cursor := 8 }) := by
  decide

end Xaf

namespace Xaf

/-- The signature compare of `readHeader` looks at the first four bytes only. -/
theorem readHeader_none_iff (archive : List Nat) :
    (readHeader { bytes := archive, cursor := 0 }).1 = none ↔ archive.take 4 ≠ magic := by
  have key : (readFromFile { bytes := archive, cursor := 0 } 4).1 = magic ↔
      archive.take 4 = magic := by
    match archive with
    | [] => simp [readFromFile, magic]
    | [a] => simp [readFromFile, magic]
    | [a, b] => simp [readFromFile, magic]
    | [a, b, c] => simp [readFromFile, magic]
    | a :: b :: c :: d :: rest => simp [readFromFile, magic]
  unfold readHeader
  by_cases h : (readFromFile { bytes := archive, cursor := 0 } 4).1 = magic
  · rw [if_neg (not_not.mpr h)]
    simp [key.mp h]
  · rw [if_pos h]
    simp only [true_iff]
    exact fun h2 => h (key.mpr h2)

theorem readHeader_none_source (archive : List Nat)
    (h : (readHeader { bytes := archive, cursor := 0 }).1 = none) :
    (readHeader { bytes := archive, cursor := 0 }).2 =
      { bytes := archive, cursor := (archive.take 4).length } := by
  unfold readHeader at h ⊢
  by_cases h2 : (readFromFile { bytes := archive, cursor := 0 } 4).1 = magic
  · rw [if_neg (not_not.mpr h2)] at h
    simp at h
  · rw [if_pos h2]
    simp [readFromFile]

/-- C8. Header decoding fails exactly when the first four bytes of the archive
are not the tag `xaf0`. When it fails the cursor has moved over the signature
only (at most four bytes were read, no other field), and `main` returns 1 with
no record parsed and no request made to the file system. -/
theorem header_fails_iff_bad_magic (archive : List Nat) :
    ((readHeader { bytes := archive, cursor := 0 }).1 = none ↔ archive.take 4 ≠ magic) ∧
      ((readHeader { bytes := archive, cursor := 0 }).1 = none →
        (readHeader { bytes := archive, cursor := 0 }).2.cursor ≤ 4 ∧
        ∀ fuel outputFolder, main fuel outputFolder archive =
          Outcome.ok { exitCode := 1, entries := [], events := []
                       source := { bytes := archive, cursor := (archive.take 4).length } }) := by
  refine ⟨readHeader_none_iff archive, fun h => ⟨?_, fun fuel outputFolder => ?_⟩⟩
  · rw [readHeader_none_source archive h]
    simp
  · have hs := readHeader_none_source archive h
    unfold main
    cases hr : readHeader { bytes := archive, cursor := 0 } with
    | mk hd src =>
      rw [hr] at h hs
      simp only at h hs
      subst h hs
      rfl

end Xaf

namespace Xaf

theorem readFromFile_length (src : Source) (size : Nat) :
    (readFromFile src size).1.length = size := by
  simp only [readFromFile, List.length_append, List.length_replicate, List.length_take]
  omega

theorem readEntry1_name_length (src : Source) : (readEntry1 src).1.name.length = 64 :=
  readFromFile_length src 64

theorem readEntry2_name_length (src : Source) : (readEntry2 src).1.name.length = 128 :=
  readFromFile_length src 128

theorem readEntries_name_length (version2 : Bool) :
    ∀ (n : Nat) (src : Source), ∀ e ∈ (readEntries version2 n src).1,
      e.name.length = if version2 then 128 else 64 := by
  intro n
  induction n with
  | zero => intro src e he; simp [readEntries] at he
  | succ n ih =>
    intro src e he
    simp only [readEntries] at he
    rcases List.mem_cons.mp he with rfl | h
    · cases version2
      · exact readEntry1_name_length src
      · exact readEntry2_name_length src
    · exact ih _ e h

/-- C9, amended. The record layout is selected by the test `majorVersion == 2`
alone: a header with major version 2 has its records decoded with the
128-byte-name layout (`readEntry2`, with its padding members and 64-bit sector
start index), and every other major version, 1 as well as 0, 3 and above, with
the 64-byte-name layout (`readEntry1`). -/
theorem layout_selected_by_version_two (header : XafHeader) (n : Nat) (src : Source) :
    (header.majorVersion = 2 →
      readEntries (isVersion2 header) n src = readEntries true n src ∧
      (readEntries (isVersion2 header) (n + 1) src).1.head? = some (readEntry2 src).1 ∧
      ∀ e ∈ (readEntries (isVersion2 header) n src).1, e.name.length = 128) ∧
    (header.majorVersion ≠ 2 →
      readEntries (isVersion2 header) n src = readEntries false n src ∧
      (readEntries (isVersion2 header) (n + 1) src).1.head? = some (readEntry1 src).1 ∧
      ∀ e ∈ (readEntries (isVersion2 header) n src).1, e.name.length = 64) := by
  constructor
  · intro h
    have hv : isVersion2 header = true := by simp [isVersion2, h]
    rw [hv]
    exact ⟨rfl, rfl, fun e he => by simpa using readEntries_name_length true n src e he⟩
  · intro h
    have hv : isVersion2 header = false := by simp [isVersion2, h]
    rw [hv]
    exact ⟨rfl, rfl, fun e he => by simpa using readEntries_name_length false n src e he⟩

set_option maxRecDepth 100000 in
/-- C9, the claim as stated fails: an archive whose header says major version 3
has its one record decoded with the 64-byte-name layout, 96 bytes long: the
cursor ends at `0x100 + 96` and the record is the root directory `r` that the
first layout reads from the record bytes. -/
theorem version_three_uses_first_layout :
    (readHeader { bytes := oneRecordArchive 3, cursor := 0 }).1.map
        (fun h => h.majorVersion) = some 3 ∧
      main 1 [111] (oneRecordArchive 3) =
        Outcome.ok
          { exitCode := 0
            entries := [mkEntry (nameField 64 [114]) 0 0 0 0xFFFFFFFF 0 0]
            events := [Event.createDirectories [111, 92]]
            source := { bytes := oneRecordArchive 3, cursor := 0x100 + 96 } } := by
  decide

end Xaf

namespace Xaf

set_option maxRecDepth 100000 in
/-- C10, the code at the failing input: in the second layout the directory
whose name is 65 letters `a` gets a path that ends after 64 of them, while the
path of the file inside it, built from the same name by the parent walk, has
all 65. -/
theorem long_name_is_cut_at_64 :
    (longNameTable[1]?).map (fun e => c_str e.name) = some (List.replicate 65 97) ∧
      (longNameTable[1]?).map (fun e => (fullPath 3 longNameTable e)) =
        some (Outcome.ok ([100, 92] ++ List.replicate 64 97)) ∧
      (longNameTable[2]?).map (fun e => (fullPath 3 longNameTable e)) =
        some (Outcome.ok ([100, 92] ++ List.replicate 65 97 ++ [92] ++ [99] ++
          List.replicate 63 0)) := by
  decide

end Xaf

namespace Xaf

theorem parentIter_add (entries : List XafFileEntry) (a b : Nat) :
    ∀ j, parentIter entries (a + b) j = (parentIter entries a j).bind (parentIter entries b) := by
  induction a with
  | zero => intro j; simp [parentIter]
  | succ a ih =>
    intro j
    rw [Nat.add_right_comm, parentIter, parentIter, Option.bind_assoc]
    congr 1
    funext x
    exact ih x

theorem parentStep_eq_some {entries : List XafFileEntry} {j x : Nat}
    (h : parentStep entries j = some x) :
    j ≠ 0xFFFFFFFF ∧ ∃ p, entries[j]? = some p ∧ p.parentId = x := by
  unfold parentStep at h
  split_ifs at h with hj
  refine ⟨hj, ?_⟩
  cases hp : entries[j]? with
  | none => rw [hp] at h; simp at h
  | some p =>
    rw [hp] at h
    simp only [Option.map_some', Option.some.injEq] at h
    exact ⟨p, rfl, h⟩

theorem parentIter_sentinel (entries : List XafFileEntry) (k : Nat) :
    parentIter entries (k + 1) 0xFFFFFFFF = none := by
  simp [parentIter, parentStep]

/-- What the parent of a well-named record adds to `folderList`. -/
theorem cString_of_nameOk (p : XafFileEntry) (h : NameOk p) :
    cString p.name = some (c_str p.name) ∧ ∃ back, (c_str p.name).getLast? = some back := by
  obtain ⟨h0, hhead⟩ := h
  refine ⟨by simp [cString, c_str, h0], ?_⟩
  have hne : c_str p.name ≠ [] := by
    cases hn : p.name with
    | nil => rw [hn] at h0; simp at h0
    | cons a rest =>
      rw [hn] at hhead
      have ha : a ≠ 0 := by simpa using hhead
      simp [c_str, List.takeWhile_cons, ha]
  cases hl : (c_str p.name).getLast? with
  | none => exact absurd (List.getLast?_eq_none_iff.mp hl) hne
  | some back => exact ⟨back, rfl⟩

/-- One turn of the walk over a well-named parent. -/
theorem parentWalk_succ (fuel : Nat) (entries : List XafFileEntry) (parentId : Nat)
    (folderList : List (List Nat)) (p : XafFileEntry) (hid : parentId ≠ 0xFFFFFFFF)
    (hp : entries[parentId]? = some p) (hname : NameOk p) :
    parentWalk (fuel + 1) entries parentId folderList =
      parentWalk fuel entries p.parentId (folderList ++ [segment p]) := by
  obtain ⟨hc, back, hb⟩ := cString_of_nameOk p hname
  rw [parentWalk, if_neg hid, hp]
  simp only [hc, hb, segment]
  by_cases hs : back = sep
  · subst hs; simp
  · have : ¬ (some back = some sep) := by simpa using hs
    simp [hs, this]

/-- A walk that meets the sentinel after `m` parents returns the `m` segments. -/
theorem parentWalk_reaches (entries : List XafFileEntry) (hnames : ParentNamesOk entries) :
    ∀ (m parentId : Nat) (folderList : List (List Nat)) (fuel : Nat),
      parentIter entries m parentId = some 0xFFFFFFFF →
      (∃ r ∈ entries, r.parentId = parentId) → m < fuel →
      parentWalk fuel entries parentId folderList =
          Outcome.ok (folderList ++ (ancestors m entries parentId).map segment) ∧
        (ancestors m entries parentId).length = m ∧
        ∀ big, m ≤ big → ancestors big entries parentId = ancestors m entries parentId := by
  intro m
  induction m with
  | zero =>
    intro parentId folderList fuel hit _ hf
    have hid : parentId = 0xFFFFFFFF := by simpa [parentIter] using hit
    obtain ⟨f, rfl⟩ : ∃ f, fuel = f + 1 := ⟨fuel - 1, by omega⟩
    refine ⟨by simp [parentWalk, hid, ancestors], by simp [ancestors], fun big _ => ?_⟩
    cases big <;> simp [ancestors, hid]
  | succ m ih =>
    intro parentId folderList fuel hit hfrom hf
    obtain ⟨f, rfl⟩ : ∃ f, fuel = f + 1 := ⟨fuel - 1, by omega⟩
    rw [parentIter] at hit
    cases hstep : parentStep entries parentId with
    | none => rw [hstep] at hit; simp at hit
    | some x =>
      rw [hstep] at hit
      simp only [Option.some_bind] at hit
      obtain ⟨hid, p, hp, hpx⟩ := parentStep_eq_some hstep
      obtain ⟨r, hr, hrp⟩ := hfrom
      have hname : NameOk p := hnames r hr p (by rw [hrp]; exact hp)
      have hmem : p ∈ entries := List.getElem?_mem hp
      subst hpx
      obtain ⟨h1, h2, h3⟩ := ih p.parentId (folderList ++ [segment p]) f hit ⟨p, hmem, rfl⟩
        (by omega)
      refine ⟨?_, ?_, fun big hbig => ?_⟩
      · rw [parentWalk_succ f entries parentId folderList p hid hp hname, h1]
        simp [ancestors, hid, hp]
      · simp [ancestors, hid, hp, h2]
      · obtain ⟨b, rfl⟩ : ∃ b, big = b + 1 := ⟨big - 1, by omega⟩
        simp [ancestors, hid, hp, h3 b (by omega)]

/-- A walk that never meets the sentinel and never leaves the table does not end. -/
theorem parentWalk_forever (entries : List XafFileEntry) (hnames : ParentNamesOk entries) :
    ∀ (fuel parentId : Nat) (folderList : List (List Nat)),
      (∀ t, ∃ x, parentIter entries (t + 1) parentId = some x) →
      (∃ r ∈ entries, r.parentId = parentId) →
      parentWalk fuel entries parentId folderList = Outcome.outOfFuel := by
  intro fuel
  induction fuel with
  | zero => intro _ _ _ _; rfl
  | succ f ih =>
    intro parentId folderList hall hfrom
    obtain ⟨x, hx⟩ := hall 0
    simp only [parentIter] at hx
    cases hstep : parentStep entries parentId with
    | none => rw [hstep] at hx; simp at hx
    | some y =>
      obtain ⟨hid, p, hp, hpy⟩ := parentStep_eq_some hstep
      obtain ⟨r, hr, hrp⟩ := hfrom
      have hname : NameOk p := hnames r hr p (by rw [hrp]; exact hp)
      subst hpy
      rw [parentWalk_succ f entries parentId folderList p hid hp hname]
      apply ih
      · intro t
        obtain ⟨z, hz⟩ := hall (t + 1)
        rw [parentIter, hstep] at hz
        exact ⟨z, hz⟩
      · exact ⟨p, List.getElem?_mem hp, rfl⟩

end Xaf

namespace Xaf

/-- Two visits of one id on a walk make a cycle. -/
theorem cycle_of_repeat (entries : List XafFileEntry) (parentId a b x : Nat) (hab : a < b)
    (ha : parentIter entries a parentId = some x) (hb : parentIter entries b parentId = some x) :
    ∃ k, parentIter entries (k + 1) x = some x := by
  obtain ⟨k, rfl⟩ : ∃ k, b = a + (k + 1) := ⟨b - a - 1, by omega⟩
  rw [parentIter_add, ha] at hb
  exact ⟨k, hb⟩

/-- In a table with valid links and no cycle every walk meets the sentinel
after at most as many parents as there are records. -/
theorem walk_reaches_sentinel (entries : List XafFileEntry) (hvalid : ValidLinks entries)
    (hacyc : Acyclic entries) (parentId : Nat)
    (hpid : parentId = 0xFFFFFFFF ∨ parentId < entries.length) :
    ∃ m, m ≤ entries.length ∧ parentIter entries m parentId = some 0xFFFFFFFF := by
  by_contra hcon
  push_neg at hcon
  have hx : ∀ m, m ≤ entries.length →
      ∃ x, x < entries.length ∧ parentIter entries m parentId = some x := by
    intro m
    induction m with
    | zero =>
      intro _
      have h0 := hcon 0 (Nat.zero_le _)
      simp only [parentIter, ne_eq, Option.some.injEq] at h0
      exact ⟨parentId, by omega, rfl⟩
    | succ m ih =>
      intro hm
      obtain ⟨x, hxlt, hxm⟩ := ih (by omega)
      have hne : x ≠ 0xFFFFFFFF := by
        intro h
        exact hcon m (by omega) (by rw [hxm, h])
      have hget : entries[x]? = some entries[x] := List.getElem?_eq_getElem hxlt
      have hstep : parentIter entries (m + 1) parentId = some entries[x].parentId := by
        rw [parentIter_add, hxm]
        simp [parentIter, parentStep, hne, hget]
      rcases hvalid entries[x] (List.getElem_mem _) with h | h
      · exact absurd (by rw [hstep, h]) (hcon (m + 1) hm)
      · exact ⟨_, h, hstep⟩
  have hlt : ∀ i : Fin (entries.length + 1),
      ((parentIter entries i.val parentId).getD 0) < entries.length := by
    intro i
    obtain ⟨x, hxlt, hxi⟩ := hx i.val (by omega)
    rw [hxi]
    exact hxlt
  obtain ⟨a, b, hne, hab⟩ := Fintype.exists_ne_map_eq_of_card_lt
    (fun i : Fin (entries.length + 1) =>
      (⟨(parentIter entries i.val parentId).getD 0, hlt i⟩ : Fin entries.length))
    (by simp)
  simp only [Fin.mk.injEq] at hab
  obtain ⟨xa, -, hxa⟩ := hx a.val (by omega)
  obtain ⟨xb, -, hxb⟩ := hx b.val (by omega)
  rw [hxa, hxb] at hab
  simp only [Option.getD_some] at hab
  subst hab
  have hval : a.val ≠ b.val := fun h => hne (Fin.ext h)
  rcases Nat.lt_or_gt_of_ne hval with h | h
  · obtain ⟨k, hk⟩ := cycle_of_repeat entries parentId a.val b.val xa h hxa hxb
    exact hacyc xa k hk
  · obtain ⟨k, hk⟩ := cycle_of_repeat entries parentId b.val a.val xa h hxb hxa
    exact hacyc xa k hk

/-- A table in which every parent comes before its children has no cycle. -/
theorem acyclic_of_parent_first (entries : List XafFileEntry)
    (h : ∀ j, j < entries.length → ∀ r, entries[j]? = some r →
      r.parentId = 0xFFFFFFFF ∨ r.parentId < j) :
    Acyclic entries := by
  have key : ∀ k j x, parentIter entries (k + 1) j = some x → x = 0xFFFFFFFF ∨ x < j := by
    intro k
    induction k with
    | zero =>
      intro j x hx
      simp only [parentIter] at hx
      cases hs : parentStep entries j with
      | none => rw [hs] at hx; simp at hx
      | some y =>
        rw [hs] at hx
        simp only [Option.some_bind, Option.some.injEq] at hx
        subst hx
        obtain ⟨-, p, hp, rfl⟩ := parentStep_eq_some hs
        have hj : j < entries.length := (List.getElem?_eq_some.mp hp).1
        exact h j hj p hp
    | succ k ih =>
      intro j x hx
      rw [parentIter] at hx
      cases hs : parentStep entries j with
      | none => rw [hs] at hx; simp at hx
      | some y =>
        rw [hs] at hx
        simp only [Option.some_bind] at hx
        obtain ⟨-, p, hp, rfl⟩ := parentStep_eq_some hs
        have hj : j < entries.length := (List.getElem?_eq_some.mp hp).1
        rcases h j hj p hp with h1 | h1
        · rw [h1, parentIter_sentinel] at hx
          simp at hx
        · rcases ih _ x hx with h2 | h2
          · exact Or.inl h2
          · exact Or.inr (by omega)
  intro j k hjk
  rcases key k j j hjk with h1 | h1
  · rw [h1, parentIter_sentinel] at hjk
    simp at hjk
  · omega

theorem c_str_no_zero (s : List Nat) : ∀ a ∈ c_str s, a ≠ 0 := by
  intro a ha
  have := List.mem_takeWhile_imp (p := fun c => decide (c ≠ 0)) (l := s) ha
  simpa using this

theorem segments_no_zero (l : List XafFileEntry) :
    ∀ a ∈ (l.map segment).flatten, a ≠ 0 := by
  intro a ha
  simp only [List.mem_flatten, List.mem_map] at ha
  obtain ⟨s, ⟨p, -, rfl⟩, has⟩ := ha
  unfold segment at has
  split_ifs at has
  · exact c_str_no_zero _ a has
  · rcases List.mem_append.mp has with h | h
    · exact c_str_no_zero _ a h
    · simp only [List.mem_singleton] at h
      subst h
      decide

theorem c_str_append (pre s : List Nat) (h : ∀ a ∈ pre, a ≠ 0) :
    c_str (pre ++ s) = pre ++ c_str s := by
  unfold c_str
  exact List.takeWhile_append_of_pos (fun a ha => by simpa using h a ha)

theorem c_str_take (name : List Nat) (k : Nat) (h : 0 ∈ name.take k) :
    c_str (name.take k) = c_str name := by
  unfold c_str
  induction name generalizing k with
  | nil => simp
  | cons a rest ih =>
    cases k with
    | zero => simp at h
    | succ k =>
      simp only [List.take_succ_cons, List.mem_cons] at h
      by_cases ha : a = 0
      · subst ha; simp [List.takeWhile_cons]
      · have hr : 0 ∈ rest.take k := by
          rcases h with h | h
          · exact absurd h.symm ha
          · exact h
        simp only [List.take_succ_cons, List.takeWhile_cons, ha, ne_eq, not_false_eq_true,
          decide_True, if_true, ih k hr]

end Xaf

namespace Xaf

/-- The path of a record with a parent in a table with valid links and no cycle. -/
theorem fullPath_resolved (entries : List XafFileEntry) (fileEntry : XafFileEntry)
    (hmem : fileEntry ∈ entries) (hvalid : ValidLinks entries) (hacyc : Acyclic entries)
    (hnames : ParentNamesOk entries) (hpar : fileEntry.parentId ≠ 0xFFFFFFFF) :
    (ancestors entries.length entries fileEntry.parentId).length ≤ entries.length ∧
      ∀ fuel, (ancestors entries.length entries fileEntry.parentId).length < fuel →
        fullPath fuel entries fileEntry =
          Outcome.ok
            (((ancestors entries.length entries fileEntry.parentId).reverse.map segment).flatten
              ++ fileEntry.name.take 64) := by
  obtain ⟨m, hm, hit⟩ := walk_reaches_sentinel entries hvalid hacyc fileEntry.parentId
    (hvalid fileEntry hmem)
  have hbig := (parentWalk_reaches entries hnames m fileEntry.parentId [] (m + 1) hit
    ⟨fileEntry, hmem, rfl⟩ (by omega)).2
  rw [hbig.2 entries.length hm, hbig.1]
  refine ⟨hm, fun fuel hf => ?_⟩
  have hw := (parentWalk_reaches entries hnames m fileEntry.parentId [] fuel hit
    ⟨fileEntry, hmem, rfl⟩ hf).1
  simp only [fullPath, hpar, ne_eq, not_false_eq_true, if_true, hw, List.nil_append,
    List.map_reverse]

/-- C4, amended. In a record table in which every `parentId` is the root
sentinel or a valid index, the parent links have no cycle and every record
used as a parent has a terminated, non-empty name, take a record that has a
parent and whose own name ends within the first 64 bytes of its name array.
Its path resolution stops after at most `totalRecords` parent steps (any fuel
above the number of ancestors is enough) and yields the ancestors' trimmed
names from the root down, each completed by one separator unless it already
ends with one, followed by the first 64 bytes of the record's name array;
read as a C string this is the ancestors' part followed by the record's own
trimmed name. -/
theorem fullPath_of_acyclic (entries : List XafFileEntry) (fileEntry : XafFileEntry)
    (hmem : fileEntry ∈ entries) (hvalid : ValidLinks entries) (hacyc : Acyclic entries)
    (hnames : ParentNamesOk entries) (hpar : fileEntry.parentId ≠ 0xFFFFFFFF)
    (hown : 0 ∈ fileEntry.name.take 64) :
    (ancestors entries.length entries fileEntry.parentId).length ≤ entries.length ∧
      ∀ fuel, (ancestors entries.length entries fileEntry.parentId).length < fuel →
        fullPath fuel entries fileEntry =
          Outcome.ok
            (((ancestors entries.length entries fileEntry.parentId).reverse.map segment).flatten
              ++ fileEntry.name.take 64) ∧
        c_str
            (((ancestors entries.length entries fileEntry.parentId).reverse.map segment).flatten
              ++ fileEntry.name.take 64) =
          ((ancestors entries.length entries fileEntry.parentId).reverse.map segment).flatten
            ++ c_str fileEntry.name := by
  obtain ⟨h1, h2⟩ := fullPath_resolved entries fileEntry hmem hvalid hacyc hnames hpar
  refine ⟨h1, fun fuel hf => ⟨h2 fuel hf, ?_⟩⟩
  rw [c_str_append _ _ (segments_no_zero _), c_str_take _ _ hown]

theorem threeFiles_validLinks : ValidLinks threeFiles := by
  unfold ValidLinks
  decide

theorem threeFiles_acyclic : Acyclic threeFiles :=
  acyclic_of_parent_first threeFiles (by decide)

set_option maxRecDepth 100000 in
theorem threeFiles_parentNamesOk : ParentNamesOk threeFiles := by
  intro r hr p hp
  have hp0 : p = dirD := by
    simp only [threeFiles, List.mem_cons, List.mem_singleton, List.not_mem_nil, or_false] at hr
    rcases hr with rfl | rfl | rfl | rfl
    · have h0 : threeFiles[dirD.parentId]? = none := by decide
      rw [h0] at hp
      exact Option.noConfusion hp
    · have h0 : threeFiles[fileA.parentId]? = some dirD := by decide
      rw [h0] at hp
      exact (Option.some.inj hp).symm
    · have h0 : threeFiles[fileB.parentId]? = some dirD := by decide
      rw [h0] at hp
      exact (Option.some.inj hp).symm
    · have h0 : threeFiles[fileC.parentId]? = some dirD := by decide
      rw [h0] at hp
      exact (Option.some.inj hp).symm
  subst hp0
  unfold NameOk
  decide

set_option maxRecDepth 100000 in
/-- The file `a` in directory `d` meets the hypotheses of `fullPath_of_acyclic`. -/
theorem fullPath_of_acyclic_witness :
    fileA ∈ threeFiles ∧ ValidLinks threeFiles ∧ Acyclic threeFiles ∧
      ParentNamesOk threeFiles ∧ fileA.parentId ≠ 0xFFFFFFFF ∧ 0 ∈ fileA.name.take 64 ∧
      ((ancestors threeFiles.length threeFiles fileA.parentId).length ≤ threeFiles.length ∧
        ∀ fuel, (ancestors threeFiles.length threeFiles fileA.parentId).length < fuel →
          fullPath fuel threeFiles fileA =
            Outcome.ok
              (((ancestors threeFiles.length threeFiles fileA.parentId).reverse.map
                  segment).flatten ++ fileA.name.take 64) ∧
          c_str
              (((ancestors threeFiles.length threeFiles fileA.parentId).reverse.map
                  segment).flatten ++ fileA.name.take 64) =
            ((ancestors threeFiles.length threeFiles fileA.parentId).reverse.map
                segment).flatten ++ c_str fileA.name) :=
  ⟨by decide, threeFiles_validLinks, threeFiles_acyclic, threeFiles_parentNamesOk, by decide,
    by decide,
    fullPath_of_acyclic threeFiles fileA (by decide) threeFiles_validLinks threeFiles_acyclic
      threeFiles_parentNamesOk (by decide) (by decide)⟩

set_option maxRecDepth 100000 in
/-- C4, the claim as stated fails. In the table of the three files the links
are valid and acyclic; the root directory `d` has no ancestor, so the claim
gives it the path `d`, and no run of the resolver yields that, neither as the
trimmed name nor as the whole name array. And in `sepTable` the parent name
`d\` is followed by no separator of its own: the file's path starts `d\a`. -/
theorem root_in_acyclic_table_has_no_name :
    ValidLinks threeFiles ∧ Acyclic threeFiles ∧ threeFiles[0]? = some dirD ∧
      ancestors threeFiles.length threeFiles dirD.parentId = [] ∧
      (¬ ∃ fuel, fullPath fuel threeFiles dirD = Outcome.ok (c_str dirD.name) ∨
        fullPath fuel threeFiles dirD = Outcome.ok dirD.name) ∧
      (sepTable[1]?).map (fun e => fullPath 2 sepTable e) =
        some (Outcome.ok ([100, 92] ++ nameField 64 [97])) := by
  refine ⟨threeFiles_validLinks, threeFiles_acyclic, rfl, by decide, ?_, by decide⟩
  rintro ⟨fuel, h⟩
  have h2 : fullPath fuel threeFiles dirD = Outcome.ok [] := by simp [fullPath, dirD, mkEntry]
  rw [h2] at h
  revert h
  decide

end Xaf

namespace Xaf

theorem parentIter_prefix (entries : List XafFileEntry) (a b parentId x : Nat)
    (h : parentIter entries (a + b) parentId = some x) :
    ∃ y, parentIter entries a parentId = some y := by
  rw [parentIter_add] at h
  cases hy : parentIter entries a parentId with
  | none => rw [hy] at h; simp at h
  | some y => exact ⟨y, rfl⟩

theorem parentIter_cycle (entries : List XafFileEntry) (j k : Nat)
    (hcycle : parentIter entries (k + 1) j = some j) :
    ∀ n, parentIter entries (n * (k + 1)) j = some j := by
  intro n
  induction n with
  | zero => simp [parentIter]
  | succ n ih =>
    rw [Nat.succ_mul, parentIter_add, ih]
    exact hcycle

/-- The walk from a record whose parent chain runs into a cycle never ends. -/
theorem fullPath_forever (entries : List XafFileEntry) (fileEntry : XafFileEntry)
    (hmem : fileEntry ∈ entries) (hnames : ParentNamesOk entries) (m j k : Nat)
    (hreach : parentIter entries m fileEntry.parentId = some j)
    (hcycle : parentIter entries (k + 1) j = some j) (fuel : Nat) :
    fullPath fuel entries fileEntry = Outcome.outOfFuel := by
  have hall : ∀ t, ∃ x, parentIter entries (t + 1) fileEntry.parentId = some x := by
    intro t
    have hfar : parentIter entries (m + (t + 1) * (k + 1)) fileEntry.parentId = some j := by
      rw [parentIter_add, hreach]
      exact parentIter_cycle entries j k hcycle (t + 1)
    obtain ⟨c, hc⟩ : ∃ c, m + (t + 1) * (k + 1) = (t + 1) + c :=
      ⟨m + (t + 1) * k, by ring⟩
    rw [hc] at hfar
    exact parentIter_prefix entries (t + 1) c _ j hfar
  have hpar : fileEntry.parentId ≠ 0xFFFFFFFF := by
    intro h
    obtain ⟨x, hx⟩ := hall 0
    rw [h, parentIter_sentinel] at hx
    exact Option.noConfusion hx
  have hw := parentWalk_forever entries hnames fuel fileEntry.parentId [] hall
    ⟨fileEntry, hmem, rfl⟩
  simp only [fullPath, hpar, ne_eq, not_false_eq_true, if_true, hw]

/-- C5, amended. In a record table whose parent links contain a cycle that is
reached from a record (the names of the records used as parents terminated
and non-empty), path resolution of that record never stops: the walk has no
bound on its steps and raises no error, so no fuel, `totalRecords` or more,
gives a result. -/
theorem fullPath_of_cycle_diverges (entries : List XafFileEntry) (fileEntry : XafFileEntry)
    (hmem : fileEntry ∈ entries) (hnames : ParentNamesOk entries) (m j k : Nat)
    (hreach : parentIter entries m fileEntry.parentId = some j)
    (hcycle : parentIter entries (k + 1) j = some j) :
    ∀ fuel, fullPath fuel entries fileEntry = Outcome.outOfFuel :=
  fun fuel => fullPath_forever entries fileEntry hmem hnames m j k hreach hcycle fuel

set_option maxRecDepth 100000 in
theorem twoCycle_parentNamesOk : ParentNamesOk twoCycle := by
  intro r hr p hp
  simp only [twoCycle, List.mem_cons, List.mem_singleton, List.not_mem_nil, or_false] at hr
  rcases hr with rfl | rfl
  · have h0 : twoCycle[(mkEntry (nameField 64 [97]) 0 0 0 1 0 0).parentId]? =
        some (mkEntry (nameField 64 [98]) 0 0 0 0 0 0) := by decide
    rw [h0] at hp
    rw [← Option.some.inj hp]
    unfold NameOk
    decide
  · have h0 : twoCycle[(mkEntry (nameField 64 [98]) 0 0 0 0 0 0).parentId]? =
        some (mkEntry (nameField 64 [97]) 0 0 0 1 0 0) := by decide
    rw [h0] at hp
    rw [← Option.some.inj hp]
    unfold NameOk
    decide

set_option maxRecDepth 100000 in
/-- The table `twoCycle` meets the hypotheses of `fullPath_of_cycle_diverges`. -/
theorem fullPath_of_cycle_diverges_witness :
    mkEntry (nameField 64 [97]) 0 0 0 1 0 0 ∈ twoCycle ∧ ParentNamesOk twoCycle ∧
      parentIter twoCycle 0 (mkEntry (nameField 64 [97]) 0 0 0 1 0 0).parentId = some 1 ∧
      parentIter twoCycle (1 + 1) 1 = some 1 ∧
      ∀ fuel, fullPath fuel twoCycle (mkEntry (nameField 64 [97]) 0 0 0 1 0 0) =
        Outcome.outOfFuel :=
  ⟨by decide, twoCycle_parentNamesOk, by decide, by decide,
    fullPath_of_cycle_diverges twoCycle (mkEntry (nameField 64 [97]) 0 0 0 1 0 0) (by decide)
      twoCycle_parentNamesOk 0 1 1 (by decide) (by decide)⟩

set_option maxRecDepth 100000 in
/-- C5, the claim as stated fails: in the table of two directories that are
each other's parent (two records, a cycle of length two through record 1) the
path resolution of the first never fails and never returns: whatever the
number of steps allowed, the walk is still running. -/
theorem cyclic_walk_never_fails :
    twoCycle.length = 2 ∧ parentIter twoCycle 2 1 = some 1 ∧
      ¬ ∃ fuel, fullPath fuel twoCycle (mkEntry (nameField 64 [97]) 0 0 0 1 0 0) ≠
        Outcome.outOfFuel := by
  refine ⟨rfl, by decide, ?_⟩
  rintro ⟨fuel, h⟩
  exact h (fullPath_forever twoCycle _ (by decide) twoCycle_parentNamesOk 0 1 1 (by decide)
    (by decide) fuel)

end Xaf

namespace Xaf

theorem readFromFile_inside (bytes : List Nat) (cursor size : Nat)
    (h : cursor + size ≤ bytes.length) :
    readFromFile { bytes := bytes, cursor := cursor } size =
      ((bytes.drop cursor).take size, { bytes := bytes, cursor := cursor + size }) := by
  have hl : ((bytes.drop cursor).take size).length = size := by
    rw [List.length_take, List.length_drop]; omega
  simp only [readFromFile, hl, Nat.sub_self, List.replicate_zero, List.append_nil]

end Xaf

namespace Xaf

end Xaf

namespace Xaf

theorem window_length (bytes : List Nat) : ∀ (n off : Nat), (window bytes off n).length = n := by
  intro n
  induction n with
  | zero => intro off; rfl
  | succ n ih => intro off; simp [window, ih]

theorem window_getD (bytes : List Nat) :
    ∀ (n off k : Nat), k < n → (window bytes off n).getD k 0 = bytes.getD (off + k) 0 := by
  intro n
  induction n with
  | zero => intro off k h; omega
  | succ n ih =>
    intro off k h
    cases k with
    | zero => simp [window]
    | succ k =>
      simp only [window, List.getD_cons_succ]
      rw [ih (off + 1) k (by omega)]
      congr 1
      omega

theorem window_take (bytes : List Nat) :
    ∀ (n off k : Nat), k ≤ n → (window bytes off n).take k = window bytes off k := by
  intro n
  induction n with
  | zero => intro off k h; have : k = 0 := by omega
            subst this; rfl
  | succ n ih =>
    intro off k h
    cases k with
    | zero => rfl
    | succ k => simp only [window, List.take_succ_cons, ih (off + 1) k (by omega)]

theorem window_drop (bytes : List Nat) :
    ∀ (n off k : Nat), k ≤ n → (window bytes off n).drop k = window bytes (off + k) (n - k) := by
  intro n
  induction n with
  | zero => intro off k h; have : k = 0 := by omega
            subst this; rfl
  | succ n ih =>
    intro off k h
    cases k with
    | zero => rfl
    | succ k =>
      simp only [window, List.drop_succ_cons, ih (off + 1) k (by omega)]
      rw [show off + 1 + k = off + (k + 1) by omega, show n + 1 - (k + 1) = n - k by omega]

theorem window_slice (bytes : List Nat) (n off k m : Nat) (h : k + m ≤ n) :
    ((window bytes off n).drop k).take m = window bytes (off + k) m := by
  rw [window_drop bytes n off k (by omega), window_take bytes (n - k) (off + k) m (by omega)]

theorem window_past_end (bytes : List Nat) :
    ∀ (n off : Nat), bytes.length ≤ off → window bytes off n = List.replicate n 0 := by
  intro n
  induction n with
  | zero => intro off _; rfl
  | succ n ih =>
    intro off h
    simp only [window, List.replicate_succ, ih (off + 1) (by omega)]
    rw [List.getD_eq_default _ _ h]

/-- Inside the archive the window is the slice. -/
theorem window_inside (bytes : List Nat) :
    ∀ (n off : Nat), off + n ≤ bytes.length → window bytes off n = (bytes.drop off).take n := by
  intro n
  induction n with
  | zero => intro off _; simp [window]
  | succ n ih =>
    intro off h
    have hlt : off < bytes.length := by omega
    rw [window, ih (off + 1) (by omega)]
    rw [List.drop_eq_getElem_cons hlt, List.take_succ_cons]
    simp [List.getD_eq_getElem?_getD, List.getElem?_eq_getElem hlt]

theorem window_append (bytes : List Nat) :
    ∀ (a off b : Nat), window bytes off (a + b) = window bytes off a ++ window bytes (off + a) b := by
  intro a
  induction a with
  | zero => intro off b; simp [window]
  | succ a ih =>
    intro off b
    rw [show a + 1 + b = (a + b) + 1 by omega]
    simp only [window, ih (off + 1) b, List.cons_append]
    rw [show off + 1 + a = off + (a + 1) by omega]

/-- One `readFromFile` against the window: `p` is where the cursor would be had
every read so far been complete; the cursor is there, or both are at or past
the end of the archive. -/
theorem readFromFile_window (bytes : List Nat) (c p size : Nat)
    (h : (c = p ∧ c ≤ bytes.length) ∨ (bytes.length ≤ c ∧ bytes.length ≤ p)) :
    ∃ c2, readFromFile { bytes := bytes, cursor := c } size =
        (window bytes p size, { bytes := bytes, cursor := c2 }) ∧
      ((c2 = p + size ∧ c2 ≤ bytes.length) ∨
        (bytes.length ≤ c2 ∧ bytes.length ≤ p + size)) := by
  rcases h with ⟨rfl, hc⟩ | ⟨hc, hp⟩
  · by_cases hin : c + size ≤ bytes.length
    · exact ⟨c + size, by rw [readFromFile_inside _ _ _ hin, window_inside _ _ _ hin],
        Or.inl ⟨rfl, hin⟩⟩
    · refine ⟨bytes.length, ?_, Or.inr ⟨le_refl _, by omega⟩⟩
      have hgot : (bytes.drop c).take size = bytes.drop c :=
        List.take_of_length_le (by rw [List.length_drop]; omega)
      have hw : window bytes c size =
          bytes.drop c ++ List.replicate (size - (bytes.length - c)) 0 := by
        have e := window_append bytes (bytes.length - c) c (size - (bytes.length - c))
        rw [show bytes.length - c + (size - (bytes.length - c)) = size by omega] at e
        rw [e, window_inside bytes (bytes.length - c) c (by omega),
          window_past_end bytes _ _ (by omega)]
        congr 1
        exact List.take_of_length_le (by rw [List.length_drop])
      simp only [readFromFile, hgot, List.length_drop, hw]
      congr 2
      omega
  · refine ⟨c, ?_, Or.inr ⟨hc, by omega⟩⟩
    simp [readFromFile, List.drop_eq_nil_of_le hc, window_past_end bytes size p hp]

theorem readEntry1_window (bytes : List Nat) (c p : Nat)
    (h : (c = p ∧ c ≤ bytes.length) ∨ (bytes.length ≤ c ∧ bytes.length ≤ p)) :
    ∃ c2, readEntry1 { bytes := bytes, cursor := c } =
        (recordLayout1 (window bytes p 96), { bytes := bytes, cursor := c2 }) ∧
      ((c2 = p + 96 ∧ c2 ≤ bytes.length) ∨ (bytes.length ≤ c2 ∧ bytes.length ≤ p + 96)) := by
  obtain ⟨c1, e1, h1⟩ := readFromFile_window bytes c p 64 h
  obtain ⟨c2, e2, h2⟩ := readFromFile_window bytes c1 (p + 64) 4 h1
  obtain ⟨c3, e3, h3⟩ := readFromFile_window bytes c2 (p + 64 + 4) 4 h2
  obtain ⟨c4, e4, h4⟩ := readFromFile_window bytes c3 (p + 64 + 4 + 4) 4 h3
  obtain ⟨c5, e5, h5⟩ := readFromFile_window bytes c4 (p + 64 + 4 + 4 + 4) 4 h4
  obtain ⟨c6, e6, h6⟩ := readFromFile_window bytes c5 (p + 64 + 4 + 4 + 4 + 4) 4 h5
  obtain ⟨c7, e7, h7⟩ := readFromFile_window bytes c6 (p + 64 + 4 + 4 + 4 + 4 + 4) 4 h6
  obtain ⟨c8, e8, h8⟩ := readFromFile_window bytes c7 (p + 64 + 4 + 4 + 4 + 4 + 4 + 4) 8 h7
  refine ⟨c8, ?_, h8⟩
  simp only [readEntry1, readFlags, readScalar, e1, e2, e3, e4, e5, e6, e7, e8]
  simp (disch := omega) only [recordLayout1, window_take, window_slice, window_getD,
    Nat.add_assoc, Nat.add_zero, Nat.reduceAdd]

theorem readEntry2_window (bytes : List Nat) (c p : Nat)
    (h : (c = p ∧ c ≤ bytes.length) ∨ (bytes.length ≤ c ∧ bytes.length ≤ p)) :
    ∃ c2, readEntry2 { bytes := bytes, cursor := c } =
        (recordLayout2 (window bytes p 176), { bytes := bytes, cursor := c2 }) ∧
      ((c2 = p + 176 ∧ c2 ≤ bytes.length) ∨ (bytes.length ≤ c2 ∧ bytes.length ≤ p + 176)) := by
  obtain ⟨c1, e1, h1⟩ := readFromFile_window bytes c p 128 h
  obtain ⟨c2, e2, h2⟩ := readFromFile_window bytes c1 (p + 128) 4 h1
  obtain ⟨c3, e3, h3⟩ := readFromFile_window bytes c2 (p + 128 + 4) 4 h2
  obtain ⟨c4, e4, h4⟩ := readFromFile_window bytes c3 (p + 128 + 4 + 4) 4 h3
  obtain ⟨c5, e5, h5⟩ := readFromFile_window bytes c4 (p + 128 + 4 + 4 + 4) 4 h4
  obtain ⟨c6, e6, h6⟩ := readFromFile_window bytes c5 (p + 128 + 4 + 4 + 4 + 4) 4 h5
  obtain ⟨c7, e7, h7⟩ := readFromFile_window bytes c6 (p + 128 + 4 + 4 + 4 + 4 + 4) 4 h6
  obtain ⟨c8, e8, h8⟩ := readFromFile_window bytes c7 (p + 128 + 4 + 4 + 4 + 4 + 4 + 4) 4 h7
  obtain ⟨c9, e9, h9⟩ :=
    readFromFile_window bytes c8 (p + 128 + 4 + 4 + 4 + 4 + 4 + 4 + 4) 4 h8
  obtain ⟨c10, e10, h10⟩ :=
    readFromFile_window bytes c9 (p + 128 + 4 + 4 + 4 + 4 + 4 + 4 + 4 + 4) 8 h9
  obtain ⟨c11, e11, h11⟩ :=
    readFromFile_window bytes c10 (p + 128 + 4 + 4 + 4 + 4 + 4 + 4 + 4 + 4 + 8) 8 h10
  refine ⟨c11, ?_, h11⟩
  simp only [readEntry2, readFlags, readScalar, e1, e2, e3, e4, e5, e6, e7, e8, e9, e10, e11]
  simp (disch := omega) only [recordLayout2, window_take, window_slice, window_getD,
    Nat.add_assoc, Nat.add_zero, Nat.reduceAdd]

/-- One record read against the record format: whatever the archive holds
there, the record is the one the format gives for the window at `p`. -/
theorem readEntry_window (version2 : Bool) (bytes : List Nat) (c p : Nat)
    (h : (c = p ∧ c ≤ bytes.length) ∨ (bytes.length ≤ c ∧ bytes.length ≤ p)) :
    ∃ c2, readEntry version2 { bytes := bytes, cursor := c } =
        (recordLayout version2 (window bytes p (recordSize version2)),
          { bytes := bytes, cursor := c2 }) ∧
      ((c2 = p + recordSize version2 ∧ c2 ≤ bytes.length) ∨
        (bytes.length ≤ c2 ∧ bytes.length ≤ p + recordSize version2)) := by
  cases version2
  · exact readEntry1_window bytes c p h
  · exact readEntry2_window bytes c p h

/-- The record loop against the record format: record `i` is the one the
format gives for the window at `p + i * R`, and the cursor ends `n` records
further when the archive reaches that far. -/
theorem readEntries_window (version2 : Bool) (bytes : List Nat) :
    ∀ (n c p : Nat),
      ((c = p ∧ c ≤ bytes.length) ∨ (bytes.length ≤ c ∧ bytes.length ≤ p)) →
      ∃ c2, readEntries version2 n { bytes := bytes, cursor := c } =
          ((List.range n).map (fun i =>
              recordLayout version2
                (window bytes (p + i * recordSize version2) (recordSize version2))),
            { bytes := bytes, cursor := c2 }) ∧
        ((c2 = p + n * recordSize version2 ∧ c2 ≤ bytes.length) ∨
          (bytes.length ≤ c2 ∧ bytes.length ≤ p + n * recordSize version2)) := by
  intro n
  induction n with
  | zero =>
    intro c p h
    exact ⟨c, by simp [readEntries], by simpa using h⟩
  | succ n ih =>
    intro c p h
    obtain ⟨c1, e1, h1⟩ := readEntry_window version2 bytes c p h
    obtain ⟨c2, e2, h2⟩ := ih c1 (p + recordSize version2) h1
    have hr : (if version2 = true then readEntry2 { bytes := bytes, cursor := c }
        else readEntry1 { bytes := bytes, cursor := c }) =
        readEntry version2 { bytes := bytes, cursor := c } := rfl
    have hmul : (n + 1) * recordSize version2 = recordSize version2 + n * recordSize version2 := by
      ring
    refine ⟨c2, ?_, by rw [hmul, ← Nat.add_assoc]; exact h2⟩
    simp only [readEntries, hr, e1, e2]
    rw [List.range_succ_eq_map, List.map_cons, List.map_map]
    refine Prod.ext ?_ rfl
    simp only [Nat.zero_mul, Nat.add_zero]
    congr 1
    apply List.map_congr_left
    intro i _
    simp only [Function.comp, Nat.succ_eq_add_one]
    congr 2
    ring

theorem moveFileCursor_header (src : Source) :
    moveFileCursor src kHEADER_SIZE = { bytes := src.bytes, cursor := 0x100 } := by
  simp [moveFileCursor, kHEADER_SIZE]

theorem readFromFile_bytes (src : Source) (size : Nat) :
    (readFromFile src size).2.bytes = src.bytes := rfl

theorem readHeader_bytes (src : Source) : (readHeader src).2.bytes = src.bytes := by
  unfold readHeader
  split_ifs
  · rfl
  · simp only [readFields, readScalar, readFromFile_bytes]

theorem readEntries_length (version2 : Bool) :
    ∀ (n : Nat) (src : Source), (readEntries version2 n src).1.length = n := by
  intro n
  induction n with
  | zero => intro src; rfl
  | succ n ih => intro src; simp only [readEntries, List.length_cons, ih]

/-- Once the header is read, `main` is the record loop from `kHEADER_SIZE`
followed by the extraction over what it returns: no outcome of the record loop
stops the run. -/
theorem main_after_header (fuel : Nat) (outputFolder archive : List Nat) (header : XafHeader)
    (hh : (readHeader { bytes := archive, cursor := 0 }).1 = some header) :
    main fuel outputFolder archive =
      extractAll fuel outputFolder header
        (readEntries (isVersion2 header) header.totalRecords
          { bytes := archive, cursor := 0x100 }).1
        (readEntries (isVersion2 header) header.totalRecords
          { bytes := archive, cursor := 0x100 }).2 := by
  have hp : readHeader { bytes := archive, cursor := 0 } =
      (some header, (readHeader { bytes := archive, cursor := 0 }).2) :=
    Prod.ext hh rfl
  have hb : (readHeader { bytes := archive, cursor := 0 }).2.bytes = archive :=
    readHeader_bytes _
  unfold main extractAll
  rw [hp]
  simp only [moveFileCursor_header, hb]

end Xaf

namespace Xaf

/-- C12, amended. A record table that the archive does not hold in full is
decoded all the same, without any failure: once the header is read, the record
loop returns exactly `totalRecords` records, the record of index `i` being the
one the record format gives for the `R` bytes at offset `0x100 + i * R`, where
every byte beyond the end of the archive counts as zero (the bytes that are
there are kept); `main` then is the extraction over this table, so that it
never takes the failure exit and ends with exit code 0 whenever that
extraction returns. -/
theorem record_table_never_fails (archive : List Nat) (header : XafHeader)
    (hh : (readHeader { bytes := archive, cursor := 0 }).1 = some header) :
    (readEntries (isVersion2 header) header.totalRecords
        (moveFileCursor (readHeader { bytes := archive, cursor := 0 }).2 kHEADER_SIZE)).1 =
      (List.range header.totalRecords).map (fun i =>
        recordLayout (isVersion2 header)
          (window archive (0x100 + i * recordSize (isVersion2 header))
            (recordSize (isVersion2 header)))) ∧
    ((List.range header.totalRecords).map (fun i =>
        recordLayout (isVersion2 header)
          (window archive (0x100 + i * recordSize (isVersion2 header))
            (recordSize (isVersion2 header))))).length = header.totalRecords ∧
    ∀ fuel outputFolder,
      main fuel outputFolder archive =
        extractAll fuel outputFolder header
          ((List.range header.totalRecords).map (fun i =>
            recordLayout (isVersion2 header)
              (window archive (0x100 + i * recordSize (isVersion2 header))
                (recordSize (isVersion2 header)))))
          (readEntries (isVersion2 header) header.totalRecords
            { bytes := archive, cursor := 0x100 }).2 ∧
      ∀ run, main fuel outputFolder archive = Outcome.ok run →
        run.exitCode = 0 ∧
        run.entries =
          (List.range header.totalRecords).map (fun i =>
            recordLayout (isVersion2 header)
              (window archive (0x100 + i * recordSize (isVersion2 header))
                (recordSize (isVersion2 header)))) := by
  have hb : (readHeader { bytes := archive, cursor := 0 }).2.bytes = archive :=
    readHeader_bytes _
  obtain ⟨c2, htable, -⟩ := readEntries_window (isVersion2 header) archive header.totalRecords
    0x100 0x100 (by
      rcases Nat.le_total 0x100 archive.length with h | h
      · exact Or.inl ⟨rfl, h⟩
      · exact Or.inr ⟨h, h⟩)
  refine ⟨by rw [moveFileCursor_header, hb, htable], by simp, fun fuel outputFolder => ?_⟩
  have hm := main_after_header fuel outputFolder archive header hh
  rw [htable] at hm
  refine ⟨by rw [hm, htable], fun run hrun => ?_⟩
  rw [hm] at hrun
  unfold extractAll at hrun
  split at hrun
  · exact absurd hrun (by simp)
  · exact absurd hrun (by simp)
  · rw [← Outcome.ok.inj hrun]
    exact ⟨rfl, rfl⟩

set_option maxRecDepth 100000 in
/-- The archive that ends one byte into its second record meets the hypothesis
of `record_table_never_fails`; its table is the root directory `r` and the
record made of the byte read and zeros. An archive that ends with its header
gives a record of zeros, which is its own parent and has an empty name: there
the extraction, and with it `main`, runs into undefined behaviour instead of
returning; with two bytes of the record present the walk over the parents
goes round and the fuel runs out. -/
theorem record_table_never_fails_witness :
    (readHeader { bytes := truncatedArchive, cursor := 0 }).1 = some (mkHeader 1 2048 2) ∧
    (List.range 2).map (fun i => recordLayout false (window truncatedArchive (0x100 + i * 96) 96)) =
      [mkEntry (nameField 64 [114]) 0 0 0 0xFFFFFFFF 0 0,
       mkEntry (nameField 64 [120]) 0 0 0 0 0 0] ∧
    main 5 [111] headerOnlyArchive = Outcome.undefined ∧
    main 50 [111] (headerOnlyArchive ++ [120, 121]) = Outcome.outOfFuel ∧
    (readEntries (isVersion2 (mkHeader 1 2048 2)) (mkHeader 1 2048 2).totalRecords
        (moveFileCursor (readHeader { bytes := truncatedArchive, cursor := 0 }).2
          kHEADER_SIZE)).1 =
      (List.range (mkHeader 1 2048 2).totalRecords).map (fun i =>
        recordLayout (isVersion2 (mkHeader 1 2048 2))
          (window truncatedArchive (0x100 + i * recordSize (isVersion2 (mkHeader 1 2048 2)))
            (recordSize (isVersion2 (mkHeader 1 2048 2))))) :=
  ⟨by decide, by decide, by decide, by decide,
    (record_table_never_fails truncatedArchive (mkHeader 1 2048 2) (by decide)).1⟩

set_option maxRecDepth 100000 in
/-- C12, the claim as stated fails: the archive announces two records of 96
bytes and ends one byte into the second (353 bytes, the table would end at
448). The run does not fail: it returns exit code 0 with two records, the
second made of the one byte read and zeros, and creates a directory for each
of them. -/
theorem truncated_table_is_extracted :
    truncatedArchive.length = 353 ∧
    (readHeader { bytes := truncatedArchive, cursor := 0 }).1.map
        (fun h => (h.majorVersion, h.totalRecords)) = some (1, 2) ∧
    main 2 [111] truncatedArchive =
      Outcome.ok
        { exitCode := 0
          entries := [mkEntry (nameField 64 [114]) 0 0 0 0xFFFFFFFF 0 0,
                      mkEntry (nameField 64 [120]) 0 0 0 0 0 0]
          events := [Event.createDirectories [111, 92],
                     Event.createDirectories ([111, 92, 114, 92] ++ nameField 64 [120])]
          source := { bytes := truncatedArchive, cursor := 353 } } := by
  decide

end Xaf

namespace Xaf

theorem slice_slice (bytes : List Nat) (c width k size : Nat) (hk : k + size ≤ width) :
    (((bytes.drop c).take width).drop k).take size = (bytes.drop (c + k)).take size := by
  rw [List.drop_take, List.take_take, List.drop_drop, Nat.min_eq_left (by omega)]

theorem readEntry1_inside (bytes : List Nat) (c : Nat) (h : c + 96 ≤ bytes.length) :
    (readEntry1 { bytes := bytes, cursor := c }).2 = { bytes := bytes, cursor := c + 96 } ∧
      (readEntry1 { bytes := bytes, cursor := c }).1 =
        (readEntry1 { bytes := (bytes.drop c).take 96, cursor := 0 }).1 := by
  have hl : ((bytes.drop c).take 96).length = 96 := by
    rw [List.length_take, List.length_drop]; omega
  constructor
  · simp (disch := omega) only [readEntry1, readFlags, readScalar, readFromFile_inside]
  · simp (disch := omega) only [readEntry1, readFlags, readScalar, readFromFile_inside,
      Nat.zero_add, slice_slice, List.drop_zero]
    simp (disch := omega) only [List.take_take, Nat.min_eq_left, Nat.add_assoc]

theorem readEntry2_inside (bytes : List Nat) (c : Nat) (h : c + 176 ≤ bytes.length) :
    (readEntry2 { bytes := bytes, cursor := c }).2 = { bytes := bytes, cursor := c + 176 } ∧
      (readEntry2 { bytes := bytes, cursor := c }).1 =
        (readEntry2 { bytes := (bytes.drop c).take 176, cursor := 0 }).1 := by
  have hl : ((bytes.drop c).take 176).length = 176 := by
    rw [List.length_take, List.length_drop]; omega
  constructor
  · simp (disch := omega) only [readEntry2, readFlags, readScalar, readFromFile_inside]
  · simp (disch := omega) only [readEntry2, readFlags, readScalar, readFromFile_inside,
      Nat.zero_add, slice_slice, List.drop_zero]
    simp (disch := omega) only [List.take_take, Nat.min_eq_left, Nat.add_assoc]

theorem readEntry_inside (version2 : Bool) (bytes : List Nat) (c : Nat)
    (h : c + recordSize version2 ≤ bytes.length) :
    (readEntry version2 { bytes := bytes, cursor := c }).2 =
        { bytes := bytes, cursor := c + recordSize version2 } ∧
      (readEntry version2 { bytes := bytes, cursor := c }).1 =
        (readEntry version2
          { bytes := (bytes.drop c).take (recordSize version2), cursor := 0 }).1 := by
  cases version2
  · exact readEntry1_inside bytes c h
  · exact readEntry2_inside bytes c h

theorem readEntries_inside (version2 : Bool) (bytes : List Nat) :
    ∀ (n c : Nat), c + n * recordSize version2 ≤ bytes.length →
      readEntries version2 n { bytes := bytes, cursor := c } =
        ((List.range n).map (fun i =>
            (readEntry version2 { bytes := bytes, cursor := c + i * recordSize version2 }).1),
          { bytes := bytes, cursor := c + n * recordSize version2 }) := by
  intro n
  induction n with
  | zero => intro c _; simp [readEntries]
  | succ n ih =>
    intro c h
    have h1 : c + recordSize version2 ≤ bytes.length := by
      have : (n + 1) * recordSize version2 = n * recordSize version2 + recordSize version2 := by
        ring
      omega
    have h2 : c + recordSize version2 + n * recordSize version2 ≤ bytes.length := by
      have : (n + 1) * recordSize version2 = n * recordSize version2 + recordSize version2 := by
        ring
      omega
    have hr : (if version2 = true then readEntry2 { bytes := bytes, cursor := c }
        else readEntry1 { bytes := bytes, cursor := c }) =
        readEntry version2 { bytes := bytes, cursor := c } := rfl
    have hs := (readEntry_inside version2 bytes c h1).1
    simp only [readEntries, hr]
    rw [hs, ih _ h2, List.range_succ_eq_map, List.map_cons, List.map_map]
    refine Prod.ext ?_ ?_
    · simp only [Nat.zero_mul, Nat.add_zero]
      congr 1
      apply List.map_congr_left
      intro i _
      simp only [Function.comp, Nat.succ_eq_add_one]
      congr 3
      ring
    · simp only
      congr 1
      ring

/-- C13. For an archive whose header was read and that is long enough for
`totalRecords` records of the layout chosen by the major version, the record
loop returns exactly `totalRecords` records in array order, the record of
index `i` being the one the record format gives for the `R` bytes of the
archive that start at offset `0x100 + i * R` (`R` is 96 in the first layout
and 176 in the second), and leaves the cursor behind the table, at
`0x100 + totalRecords * R`; no other header field enters. `main` is the
extraction over this table, where a `parentId` `i` is looked up as index `i`
of the table. -/
theorem record_table_layout (archive : List Nat) (header : XafHeader)
    (hh : (readHeader { bytes := archive, cursor := 0 }).1 = some header)
    (hlong : kHEADER_SIZE + header.totalRecords * recordSize (isVersion2 header) ≤
      archive.length) :
    readEntries (isVersion2 header) header.totalRecords
        (moveFileCursor (readHeader { bytes := archive, cursor := 0 }).2 kHEADER_SIZE) =
      ((List.range header.totalRecords).map (fun i =>
          recordLayout (isVersion2 header)
            ((archive.drop (0x100 + i * recordSize (isVersion2 header))).take
              (recordSize (isVersion2 header)))),
        { bytes := archive
          cursor := 0x100 + header.totalRecords * recordSize (isVersion2 header) }) ∧
    (∀ i, i < header.totalRecords →
      (readEntries (isVersion2 header) header.totalRecords
          (moveFileCursor (readHeader { bytes := archive, cursor := 0 }).2 kHEADER_SIZE)).1[i]? =
        some (recordLayout (isVersion2 header)
          ((archive.drop (0x100 + i * recordSize (isVersion2 header))).take
            (recordSize (isVersion2 header))))) ∧
    (∀ fuel outputFolder,
      main fuel outputFolder archive =
        extractAll fuel outputFolder header
          ((List.range header.totalRecords).map (fun i =>
            recordLayout (isVersion2 header)
              ((archive.drop (0x100 + i * recordSize (isVersion2 header))).take
                (recordSize (isVersion2 header)))))
          { bytes := archive
            cursor := 0x100 + header.totalRecords * recordSize (isVersion2 header) }) ∧
    (∀ (entries : List XafFileEntry) (i : Nat) (r : XafFileEntry), i ≠ 0xFFFFFFFF →
      entries[i]? = some r → parentStep entries i = some r.parentId) := by
  have hb : (readHeader { bytes := archive, cursor := 0 }).2.bytes = archive :=
    readHeader_bytes _
  have hk : kHEADER_SIZE = 0x100 := rfl
  rw [hk] at hlong
  have hcur := readEntries_inside (isVersion2 header) archive header.totalRecords 0x100 hlong
  obtain ⟨c2, hwin, -⟩ := readEntries_window (isVersion2 header) archive header.totalRecords
    0x100 0x100 (Or.inl ⟨rfl, by omega⟩)
  have hmap : (List.range header.totalRecords).map (fun i =>
      recordLayout (isVersion2 header)
        (window archive (0x100 + i * recordSize (isVersion2 header))
          (recordSize (isVersion2 header)))) =
      (List.range header.totalRecords).map (fun i =>
        recordLayout (isVersion2 header)
          ((archive.drop (0x100 + i * recordSize (isVersion2 header))).take
            (recordSize (isVersion2 header)))) := by
    apply List.map_congr_left
    intro i hi
    have hi2 : i < header.totalRecords := List.mem_range.mp hi
    have : (i + 1) * recordSize (isVersion2 header) ≤
        header.totalRecords * recordSize (isVersion2 header) :=
      Nat.mul_le_mul_right _ hi2
    have e : (i + 1) * recordSize (isVersion2 header) =
        i * recordSize (isVersion2 header) + recordSize (isVersion2 header) := by ring
    rw [window_inside archive _ _ (by omega)]
  have htable : readEntries (isVersion2 header) header.totalRecords
      { bytes := archive, cursor := 0x100 } =
      ((List.range header.totalRecords).map (fun i =>
          recordLayout (isVersion2 header)
            ((archive.drop (0x100 + i * recordSize (isVersion2 header))).take
              (recordSize (isVersion2 header)))),
        { bytes := archive
          cursor := 0x100 + header.totalRecords * recordSize (isVersion2 header) }) := by
    refine Prod.ext ?_ ?_
    · rw [hwin, hmap]
    · rw [hcur]
  refine ⟨by rw [moveFileCursor_header, hb, htable], ?_, ?_, ?_⟩
  · intro i hi
    rw [moveFileCursor_header, hb, htable]
    simp only [List.getElem?_map]
    rw [List.getElem?_range hi]
    rfl
  · intro fuel outputFolder
    rw [main_after_header fuel outputFolder archive header hh, htable]
  · intro entries i r hi hr
    simp [parentStep, hi, hr]

set_option maxRecDepth 100000 in
/-- The archive with three records of the first layout meets the hypotheses of
`record_table_layout`. Its record loop returns the directory `d` and the files
`a` and `b` with the field values the archive bytes spell, in this order, and
stops at offset `0x100 + 3 * 96`; the loop over the archive with two records
of the second layout returns its two records, the padding bytes left out, and
stops at `0x100 + 2 * 176`. -/
theorem record_table_layout_witness :
    ((readHeader { bytes := threeRecordArchive, cursor := 0 }).1 = some (mkHeader 1 2048 3) ∧
      kHEADER_SIZE + (mkHeader 1 2048 3).totalRecords *
        recordSize (isVersion2 (mkHeader 1 2048 3)) ≤ threeRecordArchive.length) ∧
    readEntries false 3 { bytes := threeRecordArchive, cursor := 0x100 } =
      ([{ name := nameField 64 [100]
          flags := { isFile := 0, compressionType := 0, encryptionType := 0, flag4 := 0 }
          parentId := 0xFFFFFFFF, nextSibling := 0xFFFFFFFF, firstChild := 1, size := 0
          compressedSize := 0, sectorStartIndex := 0 },
        { name := nameField 64 [97]
          flags := { isFile := 1, compressionType := 0, encryptionType := 0, flag4 := 0 }
          parentId := 0, nextSibling := 2, firstChild := 0xFFFFFFFF, size := 258
          compressedSize := 772, sectorStartIndex := 4294967301 },
        { name := nameField 64 [98]
          flags := { isFile := 1, compressionType := 1, encryptionType := 2, flag4 := 3 }
          parentId := 0, nextSibling := 0xFFFFFFFF, firstChild := 0xFFFFFFFF, size := 65536
          compressedSize := 9, sectorStartIndex := 7 }],
       { bytes := threeRecordArchive, cursor := 0x100 + 3 * 96 }) ∧
    readEntries true 2 { bytes := twoRecordArchive, cursor := 0x100 } =
      ([{ name := nameField 128 [100]
          flags := { isFile := 0, compressionType := 0, encryptionType := 0, flag4 := 0 }
          parentId := 0xFFFFFFFF, nextSibling := 0, firstChild := 1, size := 0
          compressedSize := 0, sectorStartIndex := 0 },
        { name := nameField 128 [99]
          flags := { isFile := 1, compressionType := 0, encryptionType := 0, flag4 := 0 }
          parentId := 0, nextSibling := 0xFFFFFFFF, firstChild := 0xFFFFFFFF, size := 3
          compressedSize := 3, sectorStartIndex := 2 }],
       { bytes := twoRecordArchive, cursor := 0x100 + 2 * 176 }) ∧
    readEntries (isVersion2 (mkHeader 1 2048 3)) (mkHeader 1 2048 3).totalRecords
        (moveFileCursor (readHeader { bytes := threeRecordArchive, cursor := 0 }).2
          kHEADER_SIZE) =
      ((List.range (mkHeader 1 2048 3).totalRecords).map (fun i =>
          recordLayout (isVersion2 (mkHeader 1 2048 3))
            ((threeRecordArchive.drop
              (0x100 + i * recordSize (isVersion2 (mkHeader 1 2048 3)))).take
              (recordSize (isVersion2 (mkHeader 1 2048 3))))),
        { bytes := threeRecordArchive
          cursor := 0x100 + (mkHeader 1 2048 3).totalRecords *
            recordSize (isVersion2 (mkHeader 1 2048 3)) }) :=
  ⟨⟨by decide, by decide⟩, by decide, by decide,
    (record_table_layout threeRecordArchive (mkHeader 1 2048 3) (by decide) (by decide)).1⟩

end Xaf

namespace Xaf

/-- C14. A file record with `compressionType` 0 whose byte range, from the
offset `sectorStartIndex * sectorSize` taken modulo 2^64 over `size` bytes,
lies inside the archive (an archive is shorter than 2^63 bytes, file positions
being signed 64-bit numbers): the one request made is the write, to the
record's output path, of exactly the `size` archive bytes that start at that
offset, in their order, and the cursor ends right after them. -/
theorem uncompressed_file_is_copied (fuel : Nat) (outputFolder : List Nat)
    (header : XafHeader) (src : Source) (fileEntry : XafFileEntry) (path : List Nat)
    (hfile : fileEntry.flags.isFile ≠ 0) (hcomp : fileEntry.flags.compressionType = 0)
    (hlen : src.bytes.length < 2 ^ 63)
    (hin : (fileEntry.sectorStartIndex * header.sectorSize) % 2 ^ 64 + fileEntry.size ≤
      src.bytes.length) :
    extract fuel outputFolder header src fileEntry path =
      Outcome.ok
        ([Event.writeFile (c_str (finalPath outputFolder path))
            ((src.bytes.drop ((fileEntry.sectorStartIndex * header.sectorSize) % 2 ^ 64)).take
              fileEntry.size)],
         { bytes := src.bytes
           cursor := (fileEntry.sectorStartIndex * header.sectorSize) % 2 ^ 64 +
             fileEntry.size }) := by
  have hoff : (fileEntry.sectorStartIndex * header.sectorSize) % 2 ^ 64 < 2 ^ 63 := by omega
  have hmove : moveFileCursor src ((fileEntry.sectorStartIndex * header.sectorSize) % 2 ^ 64) =
      { bytes := src.bytes
        cursor := (fileEntry.sectorStartIndex * header.sectorSize) % 2 ^ 64 } := by
    simp only [moveFileCursor, if_pos hoff]
  simp only [extract, if_neg hfile, if_pos hcomp, hmove, readFromFile_inside _ _ _ hin]

/-- The file `a`, two bytes in sector 1 of an archive with sectors of two
bytes, meets the hypotheses of `uncompressed_file_is_copied`: bytes 2 and 3 of
the archive are written. -/
theorem uncompressed_file_is_copied_witness :
    (fileA.flags.isFile ≠ 0 ∧ fileA.flags.compressionType = 0 ∧
      eightBytes.bytes.length < 2 ^ 63 ∧
      (fileA.sectorStartIndex * (mkHeader 1 2 4).sectorSize) % 2 ^ 64 + fileA.size ≤
        eightBytes.bytes.length) ∧
    extract 1 [111] (mkHeader 1 2 4) eightBytes fileA [100, 92, 97] =
      Outcome.ok
        ([Event.writeFile (c_str (finalPath [111] [100, 92, 97]))
            ((eightBytes.bytes.drop
              ((fileA.sectorStartIndex * (mkHeader 1 2 4).sectorSize) % 2 ^ 64)).take
              fileA.size)],
         { bytes := eightBytes.bytes
           cursor := (fileA.sectorStartIndex * (mkHeader 1 2 4).sectorSize) % 2 ^ 64 +
             fileA.size }) :=
  ⟨by decide,
    uncompressed_file_is_copied 1 [111] (mkHeader 1 2 4) eightBytes fileA [100, 92, 97]
      (by decide) (by decide) (by decide) (by decide)⟩

end Xaf

namespace LZW

theorem natBits_length (n v : Nat) : (natBits n v).length = n := by
  induction n with
  | zero => rfl
  | succ n ih => simp [natBits, ih]

theorem natBits_mod (m v : Nat) : ∀ n, n ≤ m → natBits n (v % 2 ^ m) = natBits n v := by
  intro n
  induction n with
  | zero => intro _; rfl
  | succ n ih =>
    intro h
    simp only [natBits, ih (by omega), Nat.testBit_mod_two_pow]
    simp [show n < m by omega]

theorem natBits_add (b v : Nat) :
    ∀ a, natBits (a + b) v = natBits a (v / 2 ^ b) ++ natBits b v := by
  intro a
  induction a with
  | zero => simp [natBits]
  | succ a ih =>
    rw [show a + 1 + b = (a + b) + 1 by omega]
    simp only [natBits, ih, List.cons_append]
    congr 1
    rw [← Nat.shiftRight_eq_div_pow, Nat.testBit_shiftRight, Nat.add_comm]

theorem natBits_take (L v n : Nat) (h : n ≤ L) :
    (natBits L v).take n = natBits n (v / 2 ^ (L - n)) := by
  have e := natBits_add (L - n) v n
  rw [show n + (L - n) = L by omega] at e
  rw [e, List.take_left' (natBits_length _ _)]

theorem natBits_drop (L v n : Nat) (h : n ≤ L) :
    (natBits L v).drop n = natBits (L - n) v := by
  have e := natBits_add (L - n) v n
  rw [show n + (L - n) = L by omega] at e
  rw [e, List.drop_left' (natBits_length _ _)]

theorem foldl_natBits (v : Nat) :
    ∀ n acc, (natBits n v).foldl (fun acc b => 2 * acc + b.toNat) acc =
      acc * 2 ^ n + v % 2 ^ n := by
  intro n
  induction n with
  | zero => intro acc; simp [natBits, Nat.mod_one]
  | succ n ih =>
    intro acc
    simp only [natBits, List.foldl_cons, ih, Nat.toNat_testBit]
    rw [Nat.mod_pow_succ, pow_succ]
    ring

theorem bitsVal_natBits (n v : Nat) : bitsVal (natBits n v) = v % 2 ^ n := by
  rw [bitsVal, foldl_natBits]
  simp

theorem bitString_eq (input : List Nat) (hbytes : ∀ b ∈ input, b < 256) :
    bitString input = natBits (8 * input.length) (beVal input) := by
  induction input with
  | nil => rfl
  | cons x rest ih =>
    have hrest : ∀ b ∈ rest, b < 256 := fun b hb => hbytes b (List.mem_cons_of_mem _ hb)
    have hbe := beVal_lt rest hrest
    have h256 : (256 : Nat) ^ rest.length = 2 ^ (8 * rest.length) := by
      rw [pow_mul]; norm_num
    have hdiv : (x * 256 ^ rest.length + beVal rest) / 2 ^ (8 * rest.length) = x := by
      rw [← h256, Nat.mul_comm, Nat.mul_add_div (by positivity), Nat.div_eq_of_lt hbe]
      rfl
    have hmod : (x * 256 ^ rest.length + beVal rest) % 2 ^ (8 * rest.length) = beVal rest := by
      rw [← h256, Nat.mul_comm, Nat.mul_add_mod, Nat.mod_eq_of_lt hbe]
    have hb : bitString (x :: rest) = natBits 8 x ++ bitString rest := by
      simp [bitString]
    rw [hb, ih hrest, List.length_cons, beVal,
      show 8 * (rest.length + 1) = 8 + 8 * rest.length by ring, natBits_add, hdiv,
      ← natBits_mod (8 * rest.length) (x * 256 ^ rest.length + beVal rest) _ (le_refl _), hmod]

theorem pending_lt (st : LZWDecoder) (hr : st.readerOk) : st.pendingVal < 2 ^ st.pendingLen := by
  obtain ⟨-, hbuf, hby⟩ := hr
  have hbe := beVal_lt st.input hby
  have h256 : (256 : Nat) ^ st.input.length = 2 ^ (8 * st.input.length) := by
    rw [pow_mul]; norm_num
  simp only [LZWDecoder.pendingVal, LZWDecoder.pendingLen, pow_add, ← h256]
  calc st.bitBuffer * 256 ^ st.input.length + beVal st.input
      < st.bitBuffer * 256 ^ st.input.length + 256 ^ st.input.length := by omega
    _ = (st.bitBuffer + 1) * 256 ^ st.input.length := by ring
    _ ≤ 2 ^ st.bitCount * 256 ^ st.input.length := Nat.mul_le_mul_right _ hbuf

/-- The calls of `readSeq` up to the first that fails, seen on the pending
bits: call `i` fails exactly when fewer bits than its width are left behind
the widths before it, and else returns the bits at that place. -/
theorem readSeq_spec :
    ∀ (ws : List Nat) (st : LZWDecoder), st.readerOk → (∀ w ∈ ws, 9 ≤ w ∧ w ≤ 12) →
      ∀ i, i < ws.length → (ws.take i).sum ≤ st.pendingLen →
      ∃ r st1, (readSeq ws st)[i]? = some (r, st1) ∧
        (r = none ↔ st.pendingLen - (ws.take i).sum < ws.getD i 0) ∧
        ∀ code, r = some code →
          code = bitsVal (((natBits st.pendingLen st.pendingVal).drop (ws.take i).sum).take
            (ws.getD i 0)) ∧ st1.bitCount < 8 := by
  intro ws
  induction ws with
  | nil => intro st _ _ i hi; simp at hi
  | cons w ws ih =>
    intro st hr hws i hi hsum
    have hw := hws w (List.mem_cons_self _ _)
    have hws2 : ∀ x ∈ ws, 9 ≤ x ∧ x ≤ 12 := fun x hx => hws x (List.mem_cons_of_mem _ hx)
    cases i with
    | zero =>
      by_cases hL : w ≤ st.pendingLen
      · obtain ⟨st1, hread, -, hr1, -, -, -⟩ :=
          readBits_step st w (by omega) (by omega) hr hL
        refine ⟨some (st.pendingVal / 2 ^ (st.pendingLen - w)), st1, ?_, ?_, ?_⟩
        · simp [readSeq, hread]
        · simp only [List.take_zero, List.sum_nil, Nat.sub_zero, List.getD_cons_zero]
          constructor
          · intro h; exact absurd h (by simp)
          · intro h; omega
        · intro code hc
          have hc2 : code = st.pendingVal / 2 ^ (st.pendingLen - w) := (Option.some.inj hc).symm
          refine ⟨?_, hr1.1⟩
          simp only [List.take_zero, List.sum_nil, List.drop_zero, List.getD_cons_zero]
          rw [natBits_take _ _ _ hL, bitsVal_natBits, hc2]
          symm
          apply Nat.mod_eq_of_lt
          apply Nat.div_lt_of_lt_mul
          rw [← pow_add, show st.pendingLen - w + w = st.pendingLen by omega]
          exact pending_lt st hr
      · have hnone := readBits_none st w (by omega) (by omega) hr.1 hr.2.1 hr.2.2 (by omega)
        refine ⟨none, (readBits w st).2, ?_, ?_, ?_⟩
        · simp only [readSeq, List.getElem?_cons_zero]
          rw [← hnone]
        · simp only [List.take_zero, List.sum_nil, Nat.sub_zero, List.getD_cons_zero]
          constructor
          · intro _; omega
          · intro _; trivial
        · intro code hc; exact absurd hc (by simp)
    | succ i =>
      have hsum2 : w + (ws.take i).sum ≤ st.pendingLen := by
        simpa [List.take_succ_cons, List.sum_cons] using hsum
      have hL : w ≤ st.pendingLen := by omega
      obtain ⟨st1, hread, -, hr1, -, hv1, hl1⟩ :=
        readBits_step st w (by omega) (by omega) hr hL
      have hi2 : i < ws.length := by simpa using hi
      obtain ⟨r, st2, hget, hiff, hcode⟩ := ih st1 hr1 hws2 i hi2 (by rw [hl1]; omega)
      refine ⟨r, st2, ?_, ?_, ?_⟩
      · simp only [readSeq, List.getElem?_cons_succ, hread]
        exact hget
      · rw [hiff, hl1]
        simp only [List.take_succ_cons, List.sum_cons, List.getD_cons_succ]
        omega
      · intro code hc
        obtain ⟨h1, h2⟩ := hcode code hc
        refine ⟨?_, h2⟩
        rw [h1, hl1, hv1, natBits_mod _ _ _ (le_refl _)]
        simp only [List.take_succ_cons, List.sum_cons, List.getD_cons_succ]
        rw [← natBits_drop _ _ _ hL, List.drop_drop]

/-- C15. The bit reader hands out the input bit by bit, most significant bit
of each byte first: on a fresh decoder and for widths between 9 and 12, the
call number `i` (counting from 0, the calls before it having found their
bits) returns the end-of-stream value exactly when fewer unread bits remain
than its width, and otherwise the number written by the bits of the input bit
string that start where the earlier widths end; after it fewer than eight bits
are buffered. -/
theorem readBits_msb_first (input : List Nat) (hbytes : ∀ b ∈ input, b < 256)
    (ws : List Nat) (hws : ∀ w ∈ ws, 9 ≤ w ∧ w ≤ 12) (i : Nat) (hi : i < ws.length)
    (hprev : (ws.take i).sum ≤ 8 * input.length) :
    ∃ r st1, (readSeq ws (LZWDecoder.new input 9))[i]? = some (r, st1) ∧
      (r = none ↔ 8 * input.length - (ws.take i).sum < ws.getD i 0) ∧
      ∀ code, r = some code →
        code = bitsVal (((bitString input).drop (ws.take i).sum).take (ws.getD i 0)) ∧
          st1.bitCount < 8 := by
  have hinv := new_inv input hbytes
  obtain ⟨hV, hL, -⟩ := new_pending input
  have h := readSeq_spec ws (LZWDecoder.new input 9) hinv.readerOk hws i hi (by rw [hL]; exact hprev)
  rw [hL, hV, ← bitString_eq input hbytes] at h
  exact h

/-- The second of the calls `readBits(9)`, `readBits(10)`, `readBits(12)` on
the three bytes `20 C0 00` meets the hypotheses of `readBits_msb_first`; it
returns bits 9 to 18 of the input. -/
theorem readBits_msb_first_witness :
    ((∀ b ∈ [0x20, 0xC0, 0x00], b < 256) ∧ (∀ w ∈ [9, 10, 12], 9 ≤ w ∧ w ≤ 12) ∧
      1 < [9, 10, 12].length ∧ ([9, 10, 12].take 1).sum ≤ 8 * [0x20, 0xC0, 0x00].length) ∧
    bitsVal (((bitString [0x20, 0xC0, 0x00]).drop ([9, 10, 12].take 1).sum).take
      ([9, 10, 12].getD 1 0)) = 512 ∧
    ∃ r st1, (readSeq [9, 10, 12] (LZWDecoder.new [0x20, 0xC0, 0x00] 9))[1]? = some (r, st1) ∧
      (r = none ↔ 8 * [0x20, 0xC0, 0x00].length - ([9, 10, 12].take 1).sum <
        [9, 10, 12].getD 1 0) ∧
      ∀ code, r = some code →
        code = bitsVal (((bitString [0x20, 0xC0, 0x00]).drop ([9, 10, 12].take 1).sum).take
          ([9, 10, 12].getD 1 0)) ∧ st1.bitCount < 8 :=
  ⟨by decide, by decide,
    readBits_msb_first [0x20, 0xC0, 0x00] (by decide) [9, 10, 12] (by decide) 1 (by decide)
      (by decide)⟩

end LZW

namespace LZW

theorem readBits_sameCore (n : Nat) (st : LZWDecoder) : (readBits n st).2.sameCore st := by
  unfold readBits
  split <;> exact ⟨rfl, rfl, rfl, rfl, rfl, rfl, rfl, rfl⟩

theorem readBits_lt (n : Nat) (st : LZWDecoder) (c : Nat) (h : (readBits n st).1 = some c) :
    c < 2 ^ n := by
  unfold readBits at h
  split at h
  · exact absurd h (by simp)
  · simp only [Option.some.injEq] at h
    rw [← h]
    apply Nat.and_lt_two_pow
    rw [Nat.one_shiftLeft]
    have : 0 < 2 ^ n := by positivity
    omega

theorem width_range (n : Nat) : 9 ≤ widthAt n ∧ widthAt n ≤ 12 := by
  unfold widthAt
  split_ifs <;> omega

theorem size_range (n : Nat) : 256 ≤ sizeAt n ∧ sizeAt n + 2 ≤ 2 ^ widthAt n := by
  unfold widthAt sizeAt
  split_ifs <;> norm_num <;> omega

/-- What one `update` leaves, field by field. -/
theorem update_fields (st : LZWDecoder) (c : Nat) (temp : List Nat)
    (hlo : 256 ≤ st.dictSize) (h4096 : st.dictSize < 4096)
    (hp : st.first = false → st.prevCode < 4096)
    (roots : ∀ j, j < 256 → st.dictionary j = { symbol := j, next := 0xFFFFFFFF }) :
    (update st c temp).prevCode = c ∧
    (update st c temp).initialCodeSize = st.initialCodeSize ∧
    (update st c temp).dictionary =
      (if st.first then st.dictionary
       else fun j =>
         if j = st.dictSize then { symbol := temp.headD 0, next := 8 * st.prevCode }
         else st.dictionary j) ∧
    (((if st.first then st.dictSize else st.dictSize + 1) ≠
        (st.dictLimit + 4294967295) % 4294967296 →
      (update st c temp).codeSize = st.codeSize ∧
      (update st c temp).dictSize = (if st.first then st.dictSize else st.dictSize + 1) ∧
      (update st c temp).first = false ∧ (update st c temp).dictLimit = st.dictLimit) ∧
     ((if st.first then st.dictSize else st.dictSize + 1) =
        (st.dictLimit + 4294967295) % 4294967296 → st.codeSize < 12 →
      (update st c temp).codeSize = st.codeSize + 1 ∧
      (update st c temp).dictSize = (if st.first then st.dictSize else st.dictSize + 1) ∧
      (update st c temp).first = false ∧
      (update st c temp).dictLimit = 2 ^ (st.codeSize + 1)) ∧
     ((if st.first then st.dictSize else st.dictSize + 1) =
        (st.dictLimit + 4294967295) % 4294967296 → ¬ st.codeSize < 12 →
      (update st c temp).codeSize = st.initialCodeSize ∧
      (update st c temp).dictSize = 256 ∧
      (update st c temp).first = true ∧
      (update st c temp).dictLimit = 2 ^ st.initialCodeSize)) := by
  have key : (if st.first then st.dictionary
      else fun j =>
        if j = st.dictSize then
          ({ symbol := temp.headD 0, next := (st.prevCode * 8) % 4294967296 } : Entry)
        else st.dictionary j) =
      (if st.first then st.dictionary
       else fun j =>
         if j = st.dictSize then { symbol := temp.headD 0, next := 8 * st.prevCode }
         else st.dictionary j) := by
    cases hf : st.first with
    | true => rfl
    | false =>
      have := hp hf
      have hmod : st.prevCode * 8 % 4294967296 = 8 * st.prevCode := by omega
      simp only [Bool.false_eq_true, if_false, hmod]
  rw [update_eq_growOrReset st c temp h4096, key]
  unfold growOrReset
  simp only [resetDictionary_eq]
  refine ⟨?_, ?_, ?_, ?_, ?_, ?_⟩
  · split_ifs <;> rfl
  · split_ifs <;> rfl
  · split_ifs with h1 h2 h3
    all_goals first
      | rfl
      | (funext j
         by_cases hj : j < 256
         · have hne : ¬ j = st.dictSize := by omega
           simp [hj, hne, roots j hj, Nat.mod_eq_of_lt hj]
         · simp [hj])
  · intro hg
    simp only [if_neg hg]
    exact ⟨trivial, trivial, trivial, trivial⟩
  · intro hg hcs
    simp only [if_pos hg, if_pos hcs, Nat.one_shiftLeft]
    exact ⟨trivial, trivial, trivial, trivial⟩
  · intro hg hcs
    simp only [if_pos hg, if_neg hcs, Nat.one_shiftLeft]
    exact ⟨trivial, trivial, trivial, trivial⟩

/-- The schedule from one position to the next, against the growth test. -/
theorem schedule_step (n : Nat) :
    (256 + n % 3840 ≠ 2 ^ widthAt n - 1 →
      widthAt (n + 1) = widthAt n ∧ sizeAt (n + 1) = 256 + n % 3840 ∧ (n + 1) % 3840 ≠ 0) ∧
    (256 + n % 3840 = 2 ^ widthAt n - 1 → widthAt n < 12 →
      widthAt (n + 1) = widthAt n + 1 ∧ sizeAt (n + 1) = 256 + n % 3840 ∧
        (n + 1) % 3840 ≠ 0) ∧
    (256 + n % 3840 = 2 ^ widthAt n - 1 → ¬ widthAt n < 12 →
      widthAt (n + 1) = 9 ∧ sizeAt (n + 1) = 256 ∧ (n + 1) % 3840 = 0) := by
  have hj : n % 3840 < 3840 := Nat.mod_lt _ (by norm_num)
  have hs : (n % 3840 = 3839 ∧ (n + 1) % 3840 = 0) ∨
      (n % 3840 < 3839 ∧ (n + 1) % 3840 = n % 3840 + 1) := by omega
  unfold widthAt sizeAt
  generalize n % 3840 = j at hj hs ⊢
  generalize (n + 1) % 3840 = j2 at hs ⊢
  refine ⟨?_, ?_, ?_⟩
  · split_ifs <;> norm_num <;> omega
  · split_ifs <;> norm_num <;> omega
  · split_ifs <;> norm_num <;> omega

theorem atPosition_new (input : List Nat) : AtPosition 0 (LZWDecoder.new input 9) := by
  rw [new_eq]
  refine ⟨rfl, rfl, rfl, rfl, by simp [Nat.one_shiftLeft], ?_, by norm_num, ?_⟩
  · intro j hj
    simp [hj, Nat.mod_eq_of_lt hj]
  · intro j
    by_cases hj : j < 256
    · left; simp [hj]
    · right; simp [hj]

theorem AtPosition.after_read {n : Nat} {st st1 : LZWDecoder} (h : AtPosition n st)
    (hs : st1.sameCore st) : AtPosition n st1 := by
  obtain ⟨h1, h2, h3, h4, h5, h6, h7, h8⟩ := hs
  exact ⟨h1 ▸ h.codeSize, h4 ▸ h.dictSize, h8 ▸ h.first, h2 ▸ h.init,
    by rw [h3, h1]; exact h.limit, by rw [h5]; exact h.roots, h7 ▸ h.prev,
    by rw [h5]; exact h.refs⟩

/-- The bookkeeping goes from one position to the next, whatever the code and
whatever it resolved to. -/
theorem atPosition_update (n : Nat) (st : LZWDecoder) (c : Nat) (temp : List Nat)
    (h : AtPosition n st) (hc : c < 4096) : AtPosition (n + 1) (update st c temp) := by
  obtain ⟨w9, w12⟩ := width_range n
  obtain ⟨s256, shi⟩ := size_range n
  have hpow : 2 ^ widthAt n ≤ 2 ^ 12 := Nat.pow_le_pow_right (by norm_num) w12
  have h4096 : st.dictSize < 4096 := by rw [h.dictSize]; omega
  obtain ⟨e1, e2, e3, f1, f2, f3⟩ :=
    update_fields st c temp (by rw [h.dictSize]; exact s256) h4096 (fun _ => h.prev) h.roots
  have hD : (if st.first then st.dictSize else st.dictSize + 1) = 256 + n % 3840 := by
    rw [h.first, h.dictSize]
    unfold sizeAt
    by_cases hz : n % 3840 = 0
    · simp [hz]
    · simp [hz]; omega
  have hlim : (st.dictLimit + 4294967295) % 4294967296 = 2 ^ widthAt n - 1 := by
    rw [h.limit, h.codeSize]
    exact limit_minus_one _ w9 w12
  rw [hD, hlim] at f1 f2 f3
  obtain ⟨g1, g2, g3⟩ := schedule_step n
  have hroots : ∀ j, j < 256 →
      (update st c temp).dictionary j = { symbol := j, next := 0xFFFFFFFF } := by
    intro j hj
    rw [e3]
    split_ifs with hf
    · exact h.roots j hj
    · have hne : ¬ j = st.dictSize := by rw [h.dictSize]; omega
      simp only [hne, if_false]
      exact h.roots j hj
  have hrefs : ∀ j, ((update st c temp).dictionary j).next = 0xFFFFFFFF ∨
      ((update st c temp).dictionary j).next / 8 < 4096 := by
    intro j
    rw [e3]
    split_ifs with hf
    · exact h.refs j
    · by_cases hj : j = st.dictSize
      · right
        simp only [hj, if_true]
        have := h.prev
        omega
      · simp only [hj, if_false]
        exact h.refs j
  by_cases hg : 256 + n % 3840 = 2 ^ widthAt n - 1
  · by_cases hcs : st.codeSize < 12
    · obtain ⟨a1, a2, a3, a4⟩ := f2 hg hcs
      obtain ⟨b1, b2, b3⟩ := g2 hg (by rw [← h.codeSize]; exact hcs)
      exact ⟨by rw [a1, b1, h.codeSize], by rw [a2, b2], by rw [a3]; simp [b3],
        by rw [e2]; exact h.init, by rw [a4, a1], hroots, by rw [e1]; exact hc, hrefs⟩
    · obtain ⟨a1, a2, a3, a4⟩ := f3 hg hcs
      obtain ⟨b1, b2, b3⟩ := g3 hg (by rw [← h.codeSize]; exact hcs)
      exact ⟨by rw [a1, b1, h.init], by rw [a2, b2], by rw [a3]; simp [b3],
        by rw [e2]; exact h.init, by rw [a4, a1], hroots, by rw [e1]; exact hc, hrefs⟩
  · obtain ⟨a1, a2, a3, a4⟩ := f1 hg
    obtain ⟨b1, b2, b3⟩ := g1 hg
    exact ⟨by rw [a1, b1, h.codeSize], by rw [a2, b2], by rw [a3]; simp [b3],
      by rw [e2]; exact h.init, by rw [a4, a1]; exact h.limit, hroots,
      by rw [e1]; exact hc, hrefs⟩

end LZW

namespace LZW

theorem reads_cons (fuel k : Nat) (st st1 : LZWDecoder) (code : Nat)
    (h : readBits st.codeSize st = (some code, st1)) :
    reads fuel (k + 1) st =
      (st1, code) ::
        (match decodeBody fuel st1 code with
         | none => []
         | some st2 => reads fuel k st2) := by
  rw [reads, h]

theorem reads_nil (fuel k : Nat) (st : LZWDecoder) (h : (readBits st.codeSize st).1 = none) :
    reads fuel k st = [] := by
  cases k with
  | zero => rfl
  | succ k =>
    rw [reads]
    cases hrd : readBits st.codeSize st with
    | mk r st1 =>
      rw [hrd] at h
      simp only at h
      subst h
      rfl

theorem codesRead_eq_reads (fuel : Nat) :
    ∀ (k : Nat) (st : LZWDecoder),
      codesRead fuel k st = (reads fuel k st).map (fun p => (p.1.first, p.1.dictSize, p.2)) := by
  intro k
  induction k with
  | zero => intro st; rfl
  | succ k ih =>
    intro st
    rw [codesRead, reads]
    cases readBits st.codeSize st with
    | mk r st1 =>
      cases r with
      | none => rfl
      | some code =>
        simp only [List.map_cons]
        cases decodeBody fuel st1 code with
        | none => rfl
        | some st2 => simp only [ih st2]

/-- The bookkeeping at every code that is read, whatever the input: the code at
place `i` of `reads` is read in the state of position `n + i` and fits its
width. -/
theorem reads_atPosition (fuel : Nat) :
    ∀ (k : Nat) (st : LZWDecoder) (n : Nat), AtPosition n st →
      ∀ i s c, (reads fuel k st)[i]? = some (s, c) →
        AtPosition (n + i) s ∧ c < 2 ^ s.codeSize := by
  intro k
  induction k with
  | zero => intro st n _ i s c h; simp [reads] at h
  | succ k ih =>
    intro st n hpos i s c h
    cases hrd : readBits st.codeSize st with
    | mk r st1 =>
      cases r with
      | none =>
        rw [reads_nil fuel (k + 1) st (by rw [hrd])] at h
        simp at h
      | some code =>
        have hsame : st1.sameCore st := by
          have := readBits_sameCore st.codeSize st
          rw [hrd] at this
          exact this
        have hlt : code < 2 ^ st1.codeSize := by
          rw [hsame.1]
          exact readBits_lt st.codeSize st code (by rw [hrd])
        have hpos1 : AtPosition n st1 := hpos.after_read hsame
        rw [reads_cons fuel k st st1 code hrd] at h
        cases i with
        | zero =>
          simp only [List.getElem?_cons_zero, Option.some.injEq, Prod.mk.injEq] at h
          obtain ⟨rfl, rfl⟩ := h
          exact ⟨hpos1, hlt⟩
        | succ i =>
          simp only [List.getElem?_cons_succ] at h
          cases hbody : decodeBody fuel st1 code with
          | none => rw [hbody] at h; simp at h
          | some st2 =>
            rw [hbody] at h
            simp only at h
            simp only [decodeBody] at hbody
            cases hres : resolve fuel st1 code with
            | none => rw [hres] at hbody; simp at hbody
            | some temp =>
              rw [hres] at hbody
              simp only [Option.map_some', Option.some.injEq] at hbody
              have h12 : 2 ^ st1.codeSize ≤ 2 ^ 12 :=
                Nat.pow_le_pow_right (by norm_num)
                  (by rw [hpos1.codeSize]; exact (width_range n).2)
              have hpos2 : AtPosition (n + 1) st2 := by
                rw [← hbody]
                exact atPosition_update n st1 code temp hpos1 (by omega)
              have := ih st2 (n + 1) hpos2 i s c h
              rw [show n + (i + 1) = n + 1 + i by omega]
              exact this

end LZW

namespace LZW

theorem getSequence_det (d : Nat → Entry) :
    ∀ (f f2 c : Nat) (out r r2 : List Nat), getSequence f d c out = some r →
      getSequence f2 d c out = some r2 → r = r2 := by
  intro f
  induction f with
  | zero => intro f2 c out r r2 h; simp [getSequence] at h
  | succ f ih =>
    intro f2 c out r r2 h h2
    cases f2 with
    | zero => simp [getSequence] at h2
    | succ f2 =>
      simp only [getSequence] at h h2
      split_ifs at h h2 with hn
      · rw [← Option.some.inj h, ← Option.some.inj h2]
      · exact ih _ _ _ _ _ h h2

theorem resolve_det (f f2 : Nat) (st : LZWDecoder) (c : Nat) (t t2 : List Nat)
    (h : resolve f st c = some t) (h2 : resolve f2 st c = some t2) : t = t2 := by
  unfold resolve at h h2
  split_ifs at h h2
  · cases hg : getSequence f st.dictionary st.prevCode [] with
    | none => rw [hg] at h; simp at h
    | some r =>
      cases hg2 : getSequence f2 st.dictionary st.prevCode [] with
      | none => rw [hg2] at h2; simp at h2
      | some r2 =>
        rw [hg] at h
        rw [hg2] at h2
        simp only [Option.map_some', Option.some.injEq] at h h2
        rw [← h, ← h2, getSequence_det _ _ _ _ _ _ _ hg hg2]
  · cases hg : getSequence f st.dictionary c [] with
    | none => rw [hg] at h; simp at h
    | some r =>
      cases hg2 : getSequence f2 st.dictionary c [] with
      | none => rw [hg2] at h2; simp at h2
      | some r2 =>
        rw [hg] at h
        rw [hg2] at h2
        simp only [Option.map_some', Option.some.injEq] at h h2
        rw [← h, ← h2, getSequence_det _ _ _ _ _ _ _ hg hg2]

theorem decodeBody_det (f f2 : Nat) (st : LZWDecoder) (c : Nat) (a b : LZWDecoder)
    (h : decodeBody f st c = some a) (h2 : decodeBody f2 st c = some b) : a = b := by
  simp only [decodeBody] at h h2
  cases hr : resolve f st c with
  | none => rw [hr] at h; simp at h
  | some t =>
    cases hr2 : resolve f2 st c with
    | none => rw [hr2] at h2; simp at h2
    | some t2 =>
      rw [hr] at h
      rw [hr2] at h2
      simp only [Option.map_some', Option.some.injEq] at h h2
      rw [← h, ← h2, resolve_det f f2 st c t t2 hr hr2]

/-- A run that leaves the loop has read every code that any run reads. -/
theorem codesRead_subset (F : Nat) :
    ∀ (K : Nat) (st : LZWDecoder), (exitState F K st).isSome = true →
      ∀ fuel k, ∀ p ∈ codesRead fuel k st, p ∈ codesRead F K st := by
  intro K
  induction K with
  | zero => intro st h; simp [exitState] at h
  | succ K ih =>
    intro st hexit fuel k p hp
    cases k with
    | zero => simp [codesRead] at hp
    | succ k =>
      rw [codesRead] at hp ⊢
      rw [exitState] at hexit
      cases hrd : readBits st.codeSize st with
      | mk r st1 =>
        rw [hrd] at hp hexit
        cases r with
        | none => simp at hp
        | some code =>
          simp only at hp hexit ⊢
          cases hF : decodeBody F st1 code with
          | none => rw [hF] at hexit; simp at hexit
          | some st2 =>
            rw [hF] at hexit
            simp only at hexit ⊢
            rcases List.mem_cons.mp hp with rfl | htail
            · exact List.mem_cons_self _ _
            · cases hf : decodeBody fuel st1 code with
              | none => rw [hf] at htail; simp at htail
              | some st2b =>
                rw [hf] at htail
                simp only at htail
                have : st2b = st2 := decodeBody_det fuel F st1 code st2b st2 hf hF
                rw [this] at htail
                exact List.mem_cons_of_mem _ (ih st2 hexit fuel k p htail)

/-- A stream is well formed as soon as one run of `decode` that returns has
met only codes that refer to something. -/
theorem wellFormed_of_run (input : List Nat) (F K : Nat)
    (hexit : (exitState F K (LZWDecoder.new input 9)).isSome = true)
    (hok : (codesRead F K (LZWDecoder.new input 9)).all codeOk = true) :
    WellFormedStream input := by
  intro fuel k p hp
  have hmem := codesRead_subset F K _ hexit fuel k p hp
  exact List.all_eq_true.mp hok p hmem

set_option maxRecDepth 100000 in
/-- The four bytes `20 C0 20 20` carry the codes 65, 256, 257, each of them
referring to something when it is read. -/
theorem wellFormed_runs : WellFormedStream [0x20, 0xC0, 0x20, 0x20] :=
  wellFormed_of_run [0x20, 0xC0, 0x20, 0x20] 4 4 (by decide) (by decide)

end LZW

namespace LZW

theorem getSequence_chain (d : Nat → Entry) (j : Nat) (s : List Nat) (h : Chain d j s)
    (fuel : Nat) (out r : List Nat) (hr : getSequence fuel d j out = some r) :
    r = out ++ s.reverse :=
  getSequence_det d fuel s.length j out r _ hr
    (chain_getSequence_len d j s h s.length out (le_refl _))

/-- What a code that refers to something resolves to, in terms of the chains of
the dictionary. -/
theorem resolve_spec (fuel : Nat) (st : LZWDecoder) (c : Nat) (temp : List Nat)
    (hinv : Inv st) (hok : codeOk (st.first, st.dictSize, c) = true)
    (hres : resolve fuel st c = some temp) :
    (c < st.dictSize ∧ Chain st.dictionary c temp) ∨
      (c = st.dictSize ∧ st.first = false ∧
        ∃ s, Chain st.dictionary st.prevCode s ∧ temp = s ++ [s.headD 0]) := by
  by_cases hc : c < st.dictSize
  · left
    obtain ⟨s, hs⟩ := chain_exists st.dictionary st.dictSize hinv.roots hinv.links c (Or.inl hc)
    have h2 := resolve_lt s.length st c s hc hs (le_refl _)
    rw [resolve_det fuel s.length st c temp s hres h2]
    exact ⟨hc, hs⟩
  · right
    have hfirst : st.first = false := by
      cases hf : st.first with
      | false => rfl
      | true =>
        simp only [codeOk, hf, if_true, decide_eq_true_eq] at hok
        have := hinv.ds_lo
        omega
    have hle : c ≤ st.dictSize := by
      simpa [codeOk, hfirst] using hok
    have hp := hinv.prev hfirst
    obtain ⟨s, hs⟩ := chain_exists st.dictionary st.dictSize hinv.roots hinv.links st.prevCode
      (Or.inl hp)
    have h2 := resolve_ge s.length st c s (by omega) hs (le_refl _)
    exact ⟨by omega, hfirst, s, hs, resolve_det fuel s.length st c temp _ hres h2⟩

theorem Inv.lt_4096 {st : LZWDecoder} (h : Inv st) : st.dictSize + 2 ≤ 4096 := by
  have : 2 ^ st.codeSize ≤ 2 ^ 12 := Nat.pow_le_pow_right (by norm_num) h.cs_hi
  have := h.ds_hi
  omega

/-- The dictionary after an update, under the invariant. -/
theorem update_dictionary (st : LZWDecoder) (c : Nat) (temp : List Nat) (hinv : Inv st) :
    (update st c temp).prevCode = c ∧
      (update st c temp).dictionary =
        (if st.first then st.dictionary
         else fun j =>
           if j = st.dictSize then { symbol := temp.headD 0, next := 8 * st.prevCode }
           else st.dictionary j) := by
  have h4 := hinv.lt_4096
  obtain ⟨e1, -, e3, -⟩ := update_fields st c temp hinv.ds_lo (by omega)
    (fun hf => by have := hinv.prev hf; omega) hinv.roots
  exact ⟨e1, e3⟩

/-- The entry an update adds spells the previous sequence followed by the first
byte of the current one. -/
theorem update_new_entry (st : LZWDecoder) (c : Nat) (temp tp : List Nat) (hinv : Inv st)
    (hf : st.first = false) (hprev : Chain st.dictionary st.prevCode tp) :
    Chain (update st c temp).dictionary st.dictSize (tp ++ [temp.headD 0]) := by
  have h4 := hinv.lt_4096
  have hp := hinv.prev hf
  rw [(update_dictionary st c temp hinv).2]
  simp only [hf, Bool.false_eq_true, if_false]
  have h := chain_added st.dictionary st.dictSize st.prevCode (temp.headD 0) tp (by omega) hp
    hprev
  have hmod : st.prevCode * 8 % 4294967296 = 8 * st.prevCode := by omega
  rw [hmod] at h
  exact h

/-- After an update that opens no epoch, the code just handled spells, in the
new dictionary, the sequence it resolved to. -/
theorem update_links (st : LZWDecoder) (c : Nat) (temp : List Nat) (hinv : Inv st)
    (hspec : (c < st.dictSize ∧ Chain st.dictionary c temp) ∨
      (c = st.dictSize ∧ st.first = false ∧
        ∃ s, Chain st.dictionary st.prevCode s ∧ temp = s ++ [s.headD 0])) :
    Chain (update st c temp).dictionary (update st c temp).prevCode temp := by
  obtain ⟨e1, e3⟩ := update_dictionary st c temp hinv
  rw [e1]
  rcases hspec with ⟨hc, hch⟩ | ⟨hc, hf, s, hs, ht⟩
  · rw [e3]
    split_ifs
    · exact hch
    · exact chain_kept st.dictionary st.dictSize c _ temp hc hch
  · have h := update_new_entry st c temp s hinv hf hs
    have hne := chain_ne_nil _ _ _ hs
    have hhead : temp.headD 0 = s.headD 0 := by
      rw [ht]
      cases s with
      | nil => exact absurd rfl hne
      | cons a t => rfl
    rw [hhead, ← ht, ← hc] at h
    exact h

theorem chain_bound (d : Nat → Entry)
    (roots : ∀ j, j < 256 → d j = { symbol := j, next := 0xFFFFFFFF }) (i : Nat)
    (s : List Nat) (h : Chain d i s) :
    s.length ≤ (if i < 256 then 1 else i - 254) := by
  induction h with
  | root j hj =>
    simp only [List.length_singleton]
    split_ifs <;> omega
  | link j p s hj hp _ ih =>
    simp only [List.length_append, List.length_singleton]
    by_cases h256 : j < 256
    · have := roots j h256
      rw [this] at hj
      simp only at hj
      omega
    · simp only [h256, if_false]
      split_ifs at ih <;> omega

theorem chain_head (d : Nat → Entry) (size : Nat)
    (roots : ∀ j, j < 256 → d j = { symbol := j, next := 0xFFFFFFFF })
    (links : ∀ j, 256 ≤ j → j < size → ∃ p, p < j ∧ (d j).next = 8 * p) (i : Nat)
    (s : List Nat) (h : Chain d i s) (hi : i < size ∨ i < 256) :
    ∃ r, r < 256 ∧ s.head? = some r := by
  induction h with
  | root j hj =>
    by_cases h256 : j < 256
    · exact ⟨j, h256, by simp [roots j h256]⟩
    · obtain ⟨p, -, hp⟩ := links j (by omega) (by omega)
      rw [hp] at hj
      omega
  | link j p s hj hp hch ih =>
    obtain ⟨r, hr, hs⟩ := ih (by omega)
    refine ⟨r, hr, ?_⟩
    cases s with
    | nil => simp at hs
    | cons a t => simpa using hs

end LZW

namespace LZW

/-- The loop on a well-formed stream, code by code: every code is read under
the invariant, and the previous code spells, in the dictionary of that moment,
the sequence the previous iteration resolved. -/
theorem reads_linked (fuel : Nat) :
    ∀ (k : Nat) (st : LZWDecoder) (tprev : List Nat), Inv st →
      (st.first = false → Chain st.dictionary st.prevCode tprev) →
      (∀ p ∈ reads fuel k st, codeOk (p.1.first, p.1.dictSize, p.2) = true) →
      ∀ i s c, (reads fuel k st)[i]? = some (s, c) →
        Inv s ∧ codeOk (s.first, s.dictSize, c) = true ∧
        ∃ tp, (s.first = false → Chain s.dictionary s.prevCode tp) ∧
          ((i = 0 ∧ tp = tprev ∧ s.sameCore st) ∨
            ∃ j s0 c0, i = j + 1 ∧ (reads fuel k st)[j]? = some (s0, c0) ∧
              resolve fuel s0 c0 = some tp ∧ s.prevCode = c0) := by
  intro k
  induction k with
  | zero => intro st tprev _ _ _ i s c h; simp [reads] at h
  | succ k ih =>
    intro st tprev hinv hprev hcodes i s c h
    have h8 : 8 ≤ st.codeSize := by have := hinv.cs_lo; omega
    have h24 : st.codeSize ≤ 24 := by have := hinv.cs_hi; omega
    by_cases hL : st.codeSize ≤ st.pendingLen
    · obtain ⟨st1, hread, hsame, hr1, -, -, -⟩ :=
        readBits_step st st.codeSize h24 h8 hinv.readerOk hL
      generalize st.pendingVal / 2 ^ (st.pendingLen - st.codeSize) = code at hread
      have hinv1 : Inv st1 := hinv.of_sameCore hsame hr1
      have hcons := reads_cons fuel k st st1 code hread
      have hok1 : codeOk (st1.first, st1.dictSize, code) = true :=
        hcodes (st1, code) (by rw [hcons]; exact List.mem_cons_self _ _)
      have hprev1 : st1.first = false → Chain st1.dictionary st1.prevCode tprev := by
        obtain ⟨-, -, -, -, e5, -, e7, e8⟩ := hsame
        rw [e5, e7, e8]
        exact hprev
      cases i with
      | zero =>
        rw [hcons] at h
        simp only [List.getElem?_cons_zero, Option.some.injEq, Prod.mk.injEq] at h
        obtain ⟨rfl, rfl⟩ := h
        exact ⟨hinv1, hok1, tprev, hprev1, Or.inl ⟨rfl, rfl, hsame⟩⟩
      | succ i =>
        have h2 := h
        rw [hcons] at h2
        simp only [List.getElem?_cons_succ] at h2
        cases hbody : decodeBody fuel st1 code with
        | none => rw [hbody] at h2; simp at h2
        | some st2 =>
          rw [hbody] at h2 hcons
          simp only at h2 hcons
          simp only [decodeBody] at hbody
          cases hres : resolve fuel st1 code with
          | none => rw [hres] at hbody; simp at hbody
          | some temp =>
            rw [hres] at hbody
            simp only [Option.map_some', Option.some.injEq] at hbody
            have hspec := resolve_spec fuel st1 code temp hinv1 hok1 hres
            have hinv2 : Inv st2 := by
              rw [← hbody]; exact update_inv st1 code temp hinv1 hok1
            have hprev2 : st2.first = false → Chain st2.dictionary st2.prevCode temp := by
              intro _
              rw [← hbody]
              exact update_links st1 code temp hinv1 hspec
            have hcodes2 : ∀ p ∈ reads fuel k st2,
                codeOk (p.1.first, p.1.dictSize, p.2) = true := by
              intro p hp
              exact hcodes p (by rw [hcons]; exact List.mem_cons_of_mem _ hp)
            obtain ⟨a1, a2, tp, a3, a4⟩ := ih st2 temp hinv2 hprev2 hcodes2 i s c h2
            refine ⟨a1, a2, tp, a3, Or.inr ?_⟩
            rcases a4 with ⟨rfl, rfl, hs⟩ | ⟨j, s0, c0, rfl, hj, hr, hpc⟩
            · refine ⟨0, st1, code, rfl, by rw [hcons]; exact List.getElem?_cons_zero, hres, ?_⟩
              rw [hs.2.2.2.2.2.2.1, ← hbody]
              exact (update_dictionary st1 code tp hinv1).1
            · exact ⟨j + 1, s0, c0, rfl,
                by rw [hcons, List.getElem?_cons_succ]; exact hj, hr, hpc⟩
    · have hnone := readBits_none st st.codeSize h24 h8 hinv.cnt hinv.buf hinv.bytes
        (by omega)
      rw [reads_nil fuel (k + 1) st hnone] at h
      simp at h

/-- The codes of a well-formed stream, as `reads` lists them. -/
theorem wellFormed_reads (input : List Nat) (hwf : WellFormedStream input) (fuel k : Nat) :
    ∀ p ∈ reads fuel k (LZWDecoder.new input 9),
      codeOk (p.1.first, p.1.dictSize, p.2) = true := by
  intro p hp
  apply hwf fuel k
  rw [codesRead_eq_reads]
  exact List.mem_map.mpr ⟨p, hp, rfl⟩

end LZW

namespace LZW

/-- C16, amended. On an input of bytes in which the first code of each epoch
is below 256 and every other code is at most `dictSize` when it is read: a code
equal to `dictSize` is never the first code read, and whenever one is read,
the previous iteration resolved a sequence `t0` and this one resolves, and
appends to the output, exactly `t0` followed by the first byte of `t0`. -/
theorem code_equal_dictSize_repeats_previous (input : List Nat)
    (hbytes : ∀ b ∈ input, b < 256) (hwf : WellFormedStream input) (fuel : Nat)
    (hfuel : 4096 ≤ fuel) (k : Nat) :
    (∀ s c, (reads fuel k (LZWDecoder.new input 9))[0]? = some (s, c) → c ≠ s.dictSize) ∧
    ∀ i s1 c1, (reads fuel k (LZWDecoder.new input 9))[i + 1]? = some (s1, c1) →
      c1 = s1.dictSize →
      ∃ s0 c0 t0, (reads fuel k (LZWDecoder.new input 9))[i]? = some (s0, c0) ∧
        resolve fuel s0 c0 = some t0 ∧
        resolve fuel s1 c1 = some (t0 ++ [t0.headD 0]) ∧
        (decodeBody fuel s1 c1).map (fun st2 => st2.output) =
          some (s1.output ++ (t0 ++ [t0.headD 0])) := by
  have hinv := new_inv input hbytes
  have hfirst := (new_pending input).2.2.2.1
  have hlinked := reads_linked fuel k _ [] hinv
    (fun hf => by rw [hfirst] at hf; exact absurd hf (by simp))
    (wellFormed_reads input hwf fuel k)
  constructor
  · intro s c h
    obtain ⟨hinv1, hok, tp, -, hrel⟩ := hlinked 0 s c h
    rcases hrel with ⟨-, -, hs⟩ | ⟨j, _, _, hj, -⟩
    · have hf : s.first = true := by rw [hs.2.2.2.2.2.2.2]; exact hfirst
      simp only [codeOk, hf, if_true, decide_eq_true_eq] at hok
      have := hinv1.ds_lo
      omega
    · omega
  · intro i s1 c1 h hc
    obtain ⟨hinv1, hok, tp, hch, hrel⟩ := hlinked (i + 1) s1 c1 h
    rcases hrel with ⟨h0, -⟩ | ⟨j, s0, c0, hj, hget, hres, -⟩
    · omega
    · have hji : j = i := by omega
      subst hji
      have hf : s1.first = false := by
        cases hf : s1.first with
        | false => rfl
        | true =>
          simp only [codeOk, hf, if_true, decide_eq_true_eq] at hok
          have := hinv1.ds_lo
          omega
      have hchain := hch hf
      have hlen := chain_length_le _ _ _ hchain
      have hp := hinv1.prev hf
      have h4 := hinv1.lt_4096
      have hr1 := resolve_ge fuel s1 c1 tp (by omega) hchain (by omega)
      refine ⟨s0, c0, tp, hget, hres, hr1, ?_⟩
      simp only [decodeBody, hr1, Option.map_some', update_output]

set_option maxRecDepth 100000 in
/-- The stream `20 C0 20 20` meets the hypotheses of
`code_equal_dictSize_repeats_previous`: its codes are 65, 256, 257, the second
and the third equal to `dictSize` when read, and they resolve to the sequence
before them followed by its first byte. -/
theorem code_equal_dictSize_repeats_previous_witness :
    ((∀ b ∈ [0x20, 0xC0, 0x20, 0x20], b < 256) ∧ WellFormedStream [0x20, 0xC0, 0x20, 0x20] ∧
      4096 ≤ 4096) ∧
    (reads 4 4 (LZWDecoder.new [0x20, 0xC0, 0x20, 0x20] 9)).map
        (fun p => (p.1.dictSize, p.2, resolve 4 p.1 p.2)) =
      [(256, 65, some [65]), (256, 256, some [65, 65]), (257, 257, some [65, 65, 65])] ∧
    (∀ s c, (reads 4096 4 (LZWDecoder.new [0x20, 0xC0, 0x20, 0x20] 9))[0]? = some (s, c) →
      c ≠ s.dictSize) ∧
    ∀ i s1 c1, (reads 4096 4 (LZWDecoder.new [0x20, 0xC0, 0x20, 0x20] 9))[i + 1]? =
        some (s1, c1) → c1 = s1.dictSize →
      ∃ s0 c0 t0, (reads 4096 4 (LZWDecoder.new [0x20, 0xC0, 0x20, 0x20] 9))[i]? =
          some (s0, c0) ∧
        resolve 4096 s0 c0 = some t0 ∧
        resolve 4096 s1 c1 = some (t0 ++ [t0.headD 0]) ∧
        (decodeBody 4096 s1 c1).map (fun st2 => st2.output) =
          some (s1.output ++ (t0 ++ [t0.headD 0])) :=
  ⟨⟨by decide, wellFormed_runs, le_refl _⟩, by decide,
    code_equal_dictSize_repeats_previous [0x20, 0xC0, 0x20, 0x20] (by decide) wellFormed_runs
      4096 (le_refl _) 4⟩

theorem decodeBody_self_loop_ge (fuel : Nat) (st : LZWDecoder) (code : Nat)
    (hge : st.dictSize ≤ code) (h : (st.dictionary st.prevCode).next = 8 * st.prevCode) :
    decodeBody fuel st code = none := by
  have : code ≥ st.dictSize := hge
  simp [decodeBody, resolve, this, getSequence_self_loop st.dictionary st.prevCode h]

/-- One turn of the loop in a run that never returns. -/
theorem trace_step (fuel k : Nat) (st st1 : LZWDecoder) (code : Nat)
    (P : LZWDecoder × Nat → Prop) (hread : readBits st.codeSize st = (some code, st1))
    (hP : P (st1, code))
    (hnext : ∀ st2, decodeBody fuel st1 code = some st2 →
      (∀ p ∈ reads fuel k st2, P p) ∧ decodeLoop fuel k st2 = none) :
    (∀ p ∈ reads fuel (k + 1) st, P p) ∧ decodeLoop fuel (k + 1) st = none := by
  rw [reads_cons fuel k st st1 code hread, decodeLoop, hread]
  simp only
  cases hb : decodeBody fuel st1 code with
  | none =>
    refine ⟨fun p hp => ?_, rfl⟩
    simp only [List.mem_singleton] at hp
    rw [hp]
    exact hP
  | some st2 =>
    obtain ⟨h1, h2⟩ := hnext st2 hb
    refine ⟨fun p hp => ?_, h2⟩
    rcases List.mem_cons.mp hp with rfl | hp
    · exact hP
    · exact h1 p hp

/-- The stream `100000000 100000000 100000001` (codes 256, 256, 257) padded to
four bytes: every code equals `dictSize` when it is read; the second makes
slot 256 refer to itself, and the third walks it from `prevCode`. -/
theorem bad_first_code_trace (fuel k : Nat) :
    (∀ p ∈ reads fuel k (LZWDecoder.new [0x80, 0x40, 0x20, 0x20] 9),
        p.2 = p.1.dictSize ∧ (p.1.dictSize = 257 → decodeBody fuel p.1 p.2 = none)) ∧
      decodeLoop fuel k (LZWDecoder.new [0x80, 0x40, 0x20, 0x20] 9) = none := by
  have hbytes : ∀ x ∈ [0x80, 0x40, 0x20, 0x20], x < 256 := by
    intro x hx
    simp only [List.mem_cons, List.mem_singleton, List.not_mem_nil, or_false] at hx
    rcases hx with rfl | rfl | rfl | rfl <;> norm_num
  have hinv := new_inv _ hbytes
  obtain ⟨hV, hL, -, hfirst, hcs, hds, -, hlim, -⟩ := new_pending [0x80, 0x40, 0x20, 0x20]
  generalize LZWDecoder.new [0x80, 0x40, 0x20, 0x20] 9 = st0 at hinv hV hL hfirst hcs hds hlim ⊢
  have hV0 : st0.pendingVal = 2151686176 := by
    rw [hV]; simp only [beVal, List.length_cons, List.length_nil]; norm_num
  have hL0 : st0.pendingLen = 32 := by rw [hL]; rfl
  have hr0 := hinv.readerOk
  clear hinv hV hL
  -- first code: 256, read while `first` holds
  cases k with
  | zero => exact ⟨fun p hp => by simp [reads] at hp, rfl⟩
  | succ k =>
  obtain ⟨st1, hread1, hs1, hr1, -, hv1, hl1⟩ :=
    readBits_step st0 st0.codeSize (by omega) (by omega) hr0 (by omega)
  rw [hV0, hL0, hcs] at hv1 hread1
  rw [hL0, hcs] at hl1
  rw [show (2151686176 : Nat) / 2 ^ (32 - 9) = 256 by norm_num, ← hcs] at hread1
  obtain ⟨e1, -, e3, e4, e5, -, -, e8⟩ := hs1
  refine trace_step fuel k st0 st1 256 _ hread1
    ⟨by simp only; rw [e4, hds], fun h => by simp only at h; rw [e4, hds] at h; omega⟩ ?_
  intro st2 hb
  simp only [decodeBody] at hb
  cases hres : resolve fuel st1 256 with
  | none => rw [hres] at hb; simp at hb
  | some temp =>
  rw [hres] at hb
  simp only [Option.map_some', Option.some.injEq] at hb
  rw [update_first st1 256 temp (by rw [e8, hfirst]) (by rw [e4, e3, hds, hlim]; norm_num)] at hb
  have hr2 : st2.readerOk := by subst hb; exact hr1
  have hcs2 : st2.codeSize = 9 := by subst hb; exact e1.trans hcs
  have hds2 : st2.dictSize = 256 := by subst hb; exact e4.trans hds
  have hlim2 : st2.dictLimit = 512 := by subst hb; exact e3.trans hlim
  have hf2 : st2.first = false := by subst hb; rfl
  have hp2 : st2.prevCode = 256 := by subst hb; rfl
  have hV2 : st2.pendingVal = 4202528 := by
    subst hb; show st1.pendingVal = 4202528; rw [hv1]; norm_num
  have hL2 : st2.pendingLen = 23 := by subst hb; show st1.pendingLen = 23; rw [hl1]
  clear hb hres hr1 hv1 hl1 e1 e3 e4 e5 e8 hread1
  -- second code: 256, slot 256 is added with back-reference 8 * 256
  cases k with
  | zero => exact ⟨fun p hp => by simp [reads] at hp, rfl⟩
  | succ k =>
  obtain ⟨st3, hread3, hs3, hr3, -, hv3, hl3⟩ :=
    readBits_step st2 st2.codeSize (by omega) (by omega) hr2 (by omega)
  rw [hV2, hL2, hcs2] at hv3 hread3
  rw [hL2, hcs2] at hl3
  rw [show (4202528 : Nat) / 2 ^ (23 - 9) = 256 by norm_num, ← hcs2] at hread3
  obtain ⟨e1, -, e3, e4, e5, -, e7, e8⟩ := hs3
  refine trace_step fuel k st2 st3 256 _ hread3
    ⟨by simp only; rw [e4, hds2], fun h => by simp only at h; rw [e4, hds2] at h; omega⟩ ?_
  intro st4 hb
  simp only [decodeBody] at hb
  cases hres : resolve fuel st3 256 with
  | none => rw [hres] at hb; simp at hb
  | some temp2 =>
  rw [hres] at hb
  simp only [Option.map_some', Option.some.injEq] at hb
  rw [update_add st3 256 temp2 (by rw [e8, hf2]) (by rw [e4, hds2]; norm_num)
    (by rw [e4, e3, hds2, hlim2]; norm_num)] at hb
  have hr4 : st4.readerOk := by subst hb; exact hr3
  have hcs4 : st4.codeSize = 9 := by subst hb; exact e1.trans hcs2
  have hds4 : st4.dictSize = 257 := by subst hb; simp only [e4, hds2]
  have hp4 : st4.prevCode = 256 := by subst hb; rfl
  have hslot : (st4.dictionary 256).next = 8 * 256 := by
    subst hb; simp only [e4, hds2, e7, hp2, if_true]
  have hV4 : st4.pendingVal = 8224 := by
    subst hb; show st3.pendingVal = 8224; rw [hv3]; norm_num
  have hL4 : st4.pendingLen = 14 := by subst hb; show st3.pendingLen = 14; rw [hl3]
  clear hb hres hr3 hv3 hl3 e1 e3 e4 e5 e7 e8 hread3
  -- third code: 257, resolved through `prevCode`, the slot that refers to itself
  cases k with
  | zero => exact ⟨fun p hp => by simp [reads] at hp, rfl⟩
  | succ k =>
  obtain ⟨st5, hread5, hs5, -, -, -, -⟩ :=
    readBits_step st4 st4.codeSize (by omega) (by omega) hr4 (by omega)
  rw [hV4, hL4, hcs4] at hread5
  rw [show (8224 : Nat) / 2 ^ (14 - 9) = 257 by norm_num, ← hcs4] at hread5
  obtain ⟨-, -, -, e4, e5, -, e7, -⟩ := hs5
  have hnone : decodeBody fuel st5 257 = none :=
    decodeBody_self_loop_ge fuel st5 257 (by rw [e4, hds4]) (by rw [e5, e7, hp4]; exact hslot)
  refine trace_step fuel k st4 st5 257 _ hread5 ⟨by simp only; rw [e4, hds4], fun _ => hnone⟩ ?_
  intro st6 hb
  rw [hnone] at hb
  exact absurd hb (by simp)

set_option maxRecDepth 100000 in
/-- C16, the claim as stated fails: in the four bytes `80 40 20 20` (the 9-bit
codes 256, 256, 257) every code is at most `dictSize` when it is read, in
every run; the third, 257, equals `dictSize`, the previous iteration resolved
the three bytes 0, 0, 0, and nothing is appended for it: `getSequence` never
comes back and `decode` returns nothing, whatever the fuel. -/
theorem code_equal_dictSize_after_bad_first_code :
    (∀ fuel k, ∀ p ∈ codesRead fuel k (LZWDecoder.new [0x80, 0x40, 0x20, 0x20] 9),
      p.2.2 ≤ p.2.1) ∧
    (reads 3 3 (LZWDecoder.new [0x80, 0x40, 0x20, 0x20] 9)).map
        (fun p => (p.1.dictSize, p.2, resolve 3 p.1 p.2)) =
      [(256, 256, some [0, 0]), (256, 256, some [0, 0, 0]), (257, 257, none)] ∧
    (¬ ∃ fuel s c st2, (reads fuel 3 (LZWDecoder.new [0x80, 0x40, 0x20, 0x20] 9))[2]? =
        some (s, c) ∧ decodeBody fuel s c = some st2) ∧
    ¬ ∃ fuel out, decode fuel [0x80, 0x40, 0x20, 0x20] = some out := by
  refine ⟨?_, by decide, ?_, ?_⟩
  · intro fuel k p hp
    rw [codesRead_eq_reads] at hp
    obtain ⟨q, hq, rfl⟩ := List.mem_map.mp hp
    exact le_of_eq ((bad_first_code_trace fuel k).1 q hq).1
  · rintro ⟨fuel, s, c, st2, hget, hbody⟩
    have hmem := List.getElem?_mem hget
    obtain ⟨hpos, -⟩ := reads_atPosition fuel 3 _ 0 (atPosition_new _) 2 s c hget
    have hsize : s.dictSize = 257 := by rw [hpos.dictSize]; rfl
    rw [((bad_first_code_trace fuel 3).1 (s, c) hmem).2 hsize] at hbody
    exact Option.noConfusion hbody
  · rintro ⟨fuel, out, h⟩
    rw [decode, (bad_first_code_trace fuel fuel).2] at h
    exact Option.noConfusion h

end LZW

namespace LZW

theorem update_prevCode (st : LZWDecoder) (c : Nat) (temp : List Nat) :
    (update st c temp).prevCode = c := by
  unfold update growOrReset addToDictionary
  simp only [resetDictionary_eq]
  split_ifs <;> rfl

theorem reads_head_sameCore (fuel k : Nat) (st s : LZWDecoder) (c : Nat)
    (h : (reads fuel k st)[0]? = some (s, c)) : s.sameCore st := by
  cases k with
  | zero => simp [reads] at h
  | succ k =>
    cases hrd : readBits st.codeSize st with
    | mk r st1 =>
      cases r with
      | none =>
        rw [reads_nil fuel (k + 1) st (by rw [hrd])] at h
        simp at h
      | some code =>
        rw [reads_cons fuel k st st1 code hrd] at h
        simp only [List.getElem?_cons_zero, Option.some.injEq, Prod.mk.injEq] at h
        have := readBits_sameCore st.codeSize st
        rw [hrd] at this
        rw [← h.1]
        exact this

/-- Between two codes read one after the other, `prevCode` is the first of them. -/
theorem reads_prev (fuel : Nat) :
    ∀ (k : Nat) (st : LZWDecoder) (i : Nat) (s0 : LZWDecoder) (c0 : Nat) (s1 : LZWDecoder)
      (c1 : Nat), (reads fuel k st)[i]? = some (s0, c0) →
      (reads fuel k st)[i + 1]? = some (s1, c1) → s1.prevCode = c0 := by
  intro k
  induction k with
  | zero => intro st i s0 c0 s1 c1 h; simp [reads] at h
  | succ k ih =>
    intro st i s0 c0 s1 c1 h0 h1
    cases hrd : readBits st.codeSize st with
    | mk r st1 =>
      cases r with
      | none =>
        rw [reads_nil fuel (k + 1) st (by rw [hrd])] at h0
        simp at h0
      | some code =>
        rw [reads_cons fuel k st st1 code hrd] at h0 h1
        simp only [List.getElem?_cons_succ] at h1
        cases hbody : decodeBody fuel st1 code with
        | none => rw [hbody] at h1; simp at h1
        | some st2 =>
          rw [hbody] at h0 h1
          simp only at h0 h1
          cases i with
          | zero =>
            simp only [List.getElem?_cons_zero, Option.some.injEq, Prod.mk.injEq] at h0
            obtain ⟨-, hc0⟩ := h0
            have hs := reads_head_sameCore fuel k st2 s1 c1 h1
            rw [hs.2.2.2.2.2.2.1, ← hc0]
            simp only [decodeBody] at hbody
            cases hres : resolve fuel st1 code with
            | none => rw [hres] at hbody; simp at hbody
            | some temp =>
              rw [hres] at hbody
              simp only [Option.map_some', Option.some.injEq] at hbody
              rw [← hbody]
              exact update_prevCode st1 code temp
          | succ i =>
            simp only [List.getElem?_cons_succ] at h0
            exact ih st2 i s0 c0 s1 c1 h0 h1

/-- C17. For every input, the update after a code that does not open an epoch
writes exactly one slot, the one of index `dictSize`, with the first byte of
the sequence just resolved as symbol and the previous code as back-reference
(the byte offset `8 * prevCode`, `prevCode` being the code read before), and
makes it live (`dictSize` goes up by one, or to 256 when the table was full
and is reset); the update after the first code of an epoch writes nothing and
leaves `dictSize`. On an input of bytes whose codes all refer to something,
the new slot spells the sequence of the previous iteration followed by the
first byte of the current one. -/
theorem update_appends_one_entry (input : List Nat) (fuel k : Nat) :
    (∀ p ∈ reads fuel k (LZWDecoder.new input 9), ∀ temp,
      (p.1.first = true →
        (update p.1 p.2 temp).dictionary = p.1.dictionary ∧
        (update p.1 p.2 temp).dictSize = p.1.dictSize) ∧
      (p.1.first = false →
        (update p.1 p.2 temp).dictionary =
          (fun j =>
            if j = p.1.dictSize then { symbol := temp.headD 0, next := 8 * p.1.prevCode }
            else p.1.dictionary j) ∧
        ((update p.1 p.2 temp).dictSize = p.1.dictSize + 1 ∨
          (p.1.dictSize + 1 = 4095 ∧ (update p.1 p.2 temp).dictSize = 256 ∧
            (update p.1 p.2 temp).first = true)))) ∧
    (∀ i s0 c0 s1 c1, (reads fuel k (LZWDecoder.new input 9))[i]? = some (s0, c0) →
      (reads fuel k (LZWDecoder.new input 9))[i + 1]? = some (s1, c1) → s1.prevCode = c0) ∧
    ((∀ b ∈ input, b < 256) → WellFormedStream input →
      ∀ i s0 c0 s1 c1 t0 t1, (reads fuel k (LZWDecoder.new input 9))[i]? = some (s0, c0) →
        (reads fuel k (LZWDecoder.new input 9))[i + 1]? = some (s1, c1) →
        resolve fuel s0 c0 = some t0 → resolve fuel s1 c1 = some t1 → s1.first = false →
        ∀ fuel2, t0.length + 1 ≤ fuel2 →
          (getSequence fuel2 (update s1 c1 t1).dictionary s1.dictSize []).map List.reverse =
            some (t0 ++ [t1.headD 0])) := by
  have h0 := atPosition_new input
  refine ⟨?_, reads_prev fuel k _, ?_⟩
  · intro p hp temp
    obtain ⟨i, hi⟩ := List.getElem?_of_mem hp
    obtain ⟨hpos, hc⟩ := reads_atPosition fuel k _ 0 h0 i p.1 p.2 hi
    rw [Nat.zero_add] at hpos
    obtain ⟨w9, w12⟩ := width_range i
    obtain ⟨s256, shi⟩ := size_range i
    have hpow : 2 ^ widthAt i ≤ 2 ^ 12 := Nat.pow_le_pow_right (by norm_num) w12
    have h4096 : p.1.dictSize < 4096 := by rw [hpos.dictSize]; omega
    obtain ⟨-, -, e3, f1, f2, f3⟩ :=
      update_fields p.1 p.2 temp (by rw [hpos.dictSize]; exact s256) h4096
        (fun _ => hpos.prev) hpos.roots
    have hlim : (p.1.dictLimit + 4294967295) % 4294967296 = 2 ^ widthAt i - 1 := by
      rw [hpos.limit, hpos.codeSize]
      exact limit_minus_one _ w9 w12
    rw [hlim] at f1 f2 f3
    constructor
    · intro hf
      rw [e3]
      simp only [hf, if_true] at f1 ⊢
      have hz : i % 3840 = 0 := by
        have := hpos.first
        rw [hf] at this
        simpa using this.symm
      have hw : widthAt i = 9 := by simp [widthAt, hz]
      have hs : p.1.dictSize = 256 := by rw [hpos.dictSize]; simp [sizeAt, hz]
      exact ⟨trivial, (f1 (by rw [hs, hw]; norm_num)).2.1⟩
    · intro hf
      rw [e3]
      simp only [hf, Bool.false_eq_true, if_false] at f1 f2 f3 ⊢
      refine ⟨trivial, ?_⟩
      by_cases hg : p.1.dictSize + 1 = 2 ^ widthAt i - 1
      · by_cases hcs : p.1.codeSize < 12
        · exact Or.inl (f2 hg hcs).2.1
        · right
          obtain ⟨-, a2, a3, -⟩ := f3 hg hcs
          have hw : widthAt i = 12 := by have := hpos.codeSize; omega
          rw [hw] at hg
          exact ⟨by rw [hg]; norm_num, a2, a3⟩
      · exact Or.inl (f1 hg).2.1
  · intro hbytes hwf i s0 c0 s1 c1 t0 t1 hi0 hi1 hr0 _ hf fuel2 hfuel
    have hinv := new_inv input hbytes
    obtain ⟨hinv1, hok1, tp, hch, hrel⟩ := reads_linked fuel k _ [] hinv
      (fun hf => by rw [(new_pending input).2.2.2.1] at hf; exact absurd hf (by simp))
      (wellFormed_reads input hwf fuel k) (i + 1) s1 c1 hi1
    rcases hrel with ⟨h, -⟩ | ⟨j, s0b, c0b, hj, hget, hres, -⟩
    · omega
    · have hji : j = i := by omega
      subst hji
      rw [hi0] at hget
      simp only [Option.some.injEq, Prod.mk.injEq] at hget
      obtain ⟨rfl, rfl⟩ := hget
      rw [hr0] at hres
      have htp : t0 = tp := Option.some.inj hres
      subst htp
      have hnew := update_new_entry s1 c1 t1 t0 hinv1 hf (hch hf)
      rw [chain_getSequence_len _ _ _ hnew fuel2 [] (by simp; omega)]
      simp

set_option maxRecDepth 100000 in
/-- The statement of `update_appends_one_entry` on the stream `20 C0 20 20`, a
stream of bytes whose codes 65, 256, 257 all refer to something: the first code
opens the epoch, the two after it are read with `prevCode` 65 and 256. -/
theorem update_appends_one_entry_witness :
    ((∀ b ∈ [0x20, 0xC0, 0x20, 0x20], b < 256) ∧ WellFormedStream [0x20, 0xC0, 0x20, 0x20]) ∧
    (reads 4 4 (LZWDecoder.new [0x20, 0xC0, 0x20, 0x20] 9)).map
        (fun p => (p.1.first, p.1.dictSize, p.1.prevCode, p.2, resolve 4 p.1 p.2)) =
      [(true, 256, 0, 65, some [65]), (false, 256, 65, 256, some [65, 65]),
        (false, 257, 256, 257, some [65, 65, 65])] ∧
    ∀ i s0 c0 s1 c1 t0 t1,
      (reads 4 4 (LZWDecoder.new [0x20, 0xC0, 0x20, 0x20] 9))[i]? = some (s0, c0) →
      (reads 4 4 (LZWDecoder.new [0x20, 0xC0, 0x20, 0x20] 9))[i + 1]? = some (s1, c1) →
      resolve 4 s0 c0 = some t0 → resolve 4 s1 c1 = some t1 → s1.first = false →
      ∀ fuel2, t0.length + 1 ≤ fuel2 →
        (getSequence fuel2 (update s1 c1 t1).dictionary s1.dictSize []).map List.reverse =
          some (t0 ++ [t1.headD 0]) :=
  ⟨⟨by decide, wellFormed_runs⟩, by decide,
    (update_appends_one_entry [0x20, 0xC0, 0x20, 0x20] 4 4).2.2 (by decide) wellFormed_runs⟩

end LZW

namespace LZW

theorem sum_widths_succ (n i : Nat) :
    ((List.range (i + 2)).map (fun j => widthAt (n + j))).sum =
      widthAt n + ((List.range (i + 1)).map (fun j => widthAt (n + 1 + j))).sum := by
  rw [List.range_succ_eq_map, List.map_cons, List.sum_cons, List.map_map]
  have e : ((fun j => widthAt (n + j)) ∘ Nat.succ) = (fun j => widthAt (n + 1 + j)) := by
    funext j
    simp only [Function.comp, Nat.succ_eq_add_one]
    congr 1
    omega
  rw [e]
  rfl

/-- Where the codes lie in the input: once the code at place `i` of `reads` is
read, the widths of the positions up to it are what has left the pending bits. -/
theorem reads_offset (fuel : Nat) :
    ∀ (k : Nat) (st : LZWDecoder) (n : Nat), AtPosition n st → st.readerOk →
      ∀ i s c, (reads fuel k st)[i]? = some (s, c) →
        s.pendingLen + ((List.range (i + 1)).map (fun j => widthAt (n + j))).sum =
          st.pendingLen := by
  intro k
  induction k with
  | zero => intro st n _ _ i s c h; simp [reads] at h
  | succ k ih =>
    intro st n hpos hr i s c h
    obtain ⟨w9, w12⟩ := width_range n
    have hcs := hpos.codeSize
    by_cases hL : st.codeSize ≤ st.pendingLen
    · obtain ⟨st1, hread, hsame, hr1, -, -, hl1⟩ :=
        readBits_step st st.codeSize (by omega) (by omega) hr hL
      generalize st.pendingVal / 2 ^ (st.pendingLen - st.codeSize) = code at hread
      have hpos1 : AtPosition n st1 := hpos.after_read hsame
      have hlt : code < 2 ^ st.codeSize := readBits_lt st.codeSize st code (by rw [hread])
      rw [reads_cons fuel k st st1 code hread] at h
      cases i with
      | zero =>
        simp only [List.getElem?_cons_zero, Option.some.injEq, Prod.mk.injEq] at h
        obtain ⟨rfl, rfl⟩ := h
        have e1 : ((List.range (0 + 1)).map (fun j => widthAt (n + j))).sum = widthAt n := by
          simp [List.range_succ]
        rw [e1]
        omega
      | succ i =>
        simp only [List.getElem?_cons_succ] at h
        cases hbody : decodeBody fuel st1 code with
        | none => rw [hbody] at h; simp at h
        | some st2 =>
          rw [hbody] at h
          simp only at h
          simp only [decodeBody] at hbody
          cases hres : resolve fuel st1 code with
          | none => rw [hres] at hbody; simp at hbody
          | some temp =>
            rw [hres] at hbody
            simp only [Option.map_some', Option.some.injEq] at hbody
            have h12 : 2 ^ st.codeSize ≤ 2 ^ 12 :=
              Nat.pow_le_pow_right (by norm_num) (by omega)
            have hpos2 : AtPosition (n + 1) st2 := by
              rw [← hbody]
              exact atPosition_update n st1 code temp hpos1 (by omega)
            obtain ⟨u1, u2, u3⟩ := update_reader st1 code temp
            have hr2 : st2.readerOk := by
              rw [← hbody]
              exact ⟨by rw [u2]; exact hr1.1, by rw [u3, u2]; exact hr1.2.1,
                by rw [u1]; exact hr1.2.2⟩
            have hl2 : st2.pendingLen = st1.pendingLen := by
              rw [← hbody]
              exact (update_pending st1 code temp).2
            have := ih st2 (n + 1) hpos2 hr2 i s c h
            rw [sum_widths_succ]
            omega
    · have hnone := readBits_none st st.codeSize (by omega) (by omega) hr.1 hr.2.1 hr.2.2
        (by omega)
      rw [reads_nil fuel (k + 1) st hnone] at h
      simp at h

theorem sum_widths :
    ∀ m, m ≤ 3840 →
      ((List.range m).map widthAt).sum =
        (if m ≤ 256 then 9 * m else if m ≤ 768 then 2304 + 10 * (m - 256)
         else if m ≤ 1792 then 7424 + 11 * (m - 768) else 18688 + 12 * (m - 1792)) := by
  intro m
  induction m with
  | zero => intro _; rfl
  | succ m ih =>
    intro h
    have hm : m % 3840 = m := Nat.mod_eq_of_lt (by omega)
    rw [List.range_succ, List.map_append, List.sum_append, ih (by omega)]
    simp only [List.map_cons, List.map_nil, List.sum_cons, List.sum_nil, Nat.add_zero, widthAt,
      hm]
    split_ifs <;> omega

/-- C18. The width of a code depends on its position alone: for every input
the code at position `i` of the stream is read at the width of the schedule
(`widthAt`: in every run of 3840 codes 256 at 9 bits, 512 at 10, 1024 at 11,
2048 at 12), with the dictionary size of the schedule (`sizeAt`: 256 at the
head of a run, where the epoch flag is set and nothing will be added, and
`255 + i mod 3840` after it, so that the growths come at 511, 1023 and 2047
and the reset at 4095) and with the 256 singletons in place. The widths of one
run add up to 8 * 5408 bits, the schedule repeats after 3840 codes, and in an
input of bytes the bits consumed once code `i` is read are the widths of the
positions up to `i`. -/
theorem width_depends_on_position (input : List Nat) (fuel k : Nat) :
    (reads fuel k (LZWDecoder.new input 9)).map
        (fun p => (p.1.codeSize, p.1.dictSize, p.1.first)) =
      (List.range (reads fuel k (LZWDecoder.new input 9)).length).map
        (fun i => (widthAt i, sizeAt i, decide (i % 3840 = 0))) ∧
    (∀ p ∈ reads fuel k (LZWDecoder.new input 9), ∀ j, j < 256 →
      p.1.dictionary j = { symbol := j, next := 0xFFFFFFFF }) ∧
    ((List.range 3840).map widthAt).sum = 8 * 5408 ∧
    (∀ i, widthAt (i + 3840) = widthAt i ∧ sizeAt (i + 3840) = sizeAt i) ∧
    ((∀ b ∈ input, b < 256) → ∀ i s c,
      (reads fuel k (LZWDecoder.new input 9))[i]? = some (s, c) →
        s.pendingLen + ((List.range (i + 1)).map widthAt).sum = 8 * input.length) := by
  have h0 := atPosition_new input
  refine ⟨?_, ?_, ?_, ?_, ?_⟩
  · apply List.ext_getElem?
    intro i
    rw [List.getElem?_map, List.getElem?_map]
    cases hget : (reads fuel k (LZWDecoder.new input 9))[i]? with
    | none =>
      have hlen : (reads fuel k (LZWDecoder.new input 9)).length ≤ i :=
        List.getElem?_eq_none_iff.mp hget
      have : (List.range (reads fuel k (LZWDecoder.new input 9)).length)[i]? = none :=
        List.getElem?_eq_none_iff.mpr (by simpa using hlen)
      rw [this]
      rfl
    | some p =>
      obtain ⟨s, c⟩ := p
      have hlen : i < (reads fuel k (LZWDecoder.new input 9)).length := by
        by_contra hcon
        rw [List.getElem?_eq_none_iff.mpr (by omega)] at hget
        exact Option.noConfusion hget
      obtain ⟨hpos, -⟩ := reads_atPosition fuel k _ 0 h0 i s c hget
      rw [Nat.zero_add] at hpos
      rw [List.getElem?_range hlen]
      simp only [Option.map_some', hpos.codeSize, hpos.dictSize, hpos.first]
  · intro p hp j hj
    obtain ⟨i, hi⟩ := List.getElem?_of_mem hp
    obtain ⟨hpos, -⟩ := reads_atPosition fuel k _ 0 h0 i p.1 p.2 hi
    exact hpos.roots j hj
  · rw [sum_widths 3840 (le_refl _)]
    norm_num
  · intro i
    simp [widthAt, sizeAt]
  · intro hbytes i s c hget
    have hinv := new_inv input hbytes
    have h := reads_offset fuel k _ 0 h0 hinv.readerOk i s c hget
    rw [(new_pending input).2.1] at h
    simpa using h

set_option maxRecDepth 100000 in
/-- The statement of `width_depends_on_position` on the stream `20 C0 20 20`:
three codes are read, at positions 0, 1 and 2 of the schedule. -/
theorem width_depends_on_position_witness :
    (reads 4 4 (LZWDecoder.new [0x20, 0xC0, 0x20, 0x20] 9)).map
        (fun p => (p.1.codeSize, p.1.dictSize, p.1.first)) =
      [(9, 256, true), (9, 256, false), (9, 257, false)] ∧
    (reads 4 4 (LZWDecoder.new [0x20, 0xC0, 0x20, 0x20] 9)).map
        (fun p => (p.1.codeSize, p.1.dictSize, p.1.first)) =
      (List.range (reads 4 4 (LZWDecoder.new [0x20, 0xC0, 0x20, 0x20] 9)).length).map
        (fun i => (widthAt i, sizeAt i, decide (i % 3840 = 0))) :=
  ⟨by decide, (width_depends_on_position [0x20, 0xC0, 0x20, 0x20] 4 4).1⟩

end LZW

namespace LZW

theorem AtPosition.inRange {n : Nat} {st : LZWDecoder} (h : AtPosition n st) : InRange st := by
  obtain ⟨w9, w12⟩ := width_range n
  obtain ⟨s256, shi⟩ := size_range n
  exact ⟨by rw [h.codeSize]; exact w9, by rw [h.codeSize]; exact w12,
    by rw [h.dictSize]; exact s256, by rw [h.dictSize, h.codeSize]; exact shi⟩

theorem InRange.lt_4095 {st : LZWDecoder} (h : InRange st) : st.dictSize + 1 < 4096 := by
  obtain ⟨-, h12, -, hhi⟩ := h
  have : 2 ^ st.codeSize ≤ 2 ^ 12 := Nat.pow_le_pow_right (by norm_num) h12
  omega

theorem slotsVisited_lt (d : Nat → Entry)
    (refs : ∀ j, (d j).next = 0xFFFFFFFF ∨ (d j).next / 8 < 4096) :
    ∀ (fuel c : Nat), c < 4096 → ∀ j ∈ slotsVisited fuel d c, j < 4096 := by
  intro fuel
  induction fuel with
  | zero => intro c _ j hj; simp [slotsVisited] at hj
  | succ f ih =>
    intro c hc j hj
    simp only [slotsVisited, List.mem_cons] at hj
    rcases hj with rfl | hj
    · exact hc
    · split_ifs at hj with hn
      · simp at hj
      · rcases refs c with h | h
        · exact absurd h hn
        · exact ih _ h j hj

/-- The walk of `getSequence` pushes the symbols of the slots of `slotsVisited`. -/
theorem getSequence_slots (d : Nat → Entry) :
    ∀ (fuel c : Nat) (out r : List Nat), getSequence fuel d c out = some r →
      r = out ++ (slotsVisited fuel d c).map (fun j => (d j).symbol) := by
  intro fuel
  induction fuel with
  | zero => intro c out r h; simp [getSequence] at h
  | succ f ih =>
    intro c out r h
    simp only [getSequence] at h
    simp only [slotsVisited]
    split_ifs at h ⊢ with hn
    · simp only [Option.some.injEq] at h
      simp [← h]
    · rw [ih _ _ _ h]
      simp

/-- C19. For every input the width and the dictionary size stay in range:
when `decode` starts, at every code it reads and after every update,
`9 <= codeSize <= 12` and `256 <= dictSize <= 2^codeSize - 2`. So `dictSize`
is at most 4094 when an entry is added and never exceeds 4095, the guard
`dictSize >= 4096` of `addToDictionary` is not taken (the call adds), and the
code read, the previous code, the slot written and every slot `getSequence`
walks are indices below 4096. -/
theorem sizes_stay_in_range (input : List Nat) (fuel k : Nat) :
    InRange (LZWDecoder.new input 9) ∧
    ∀ p ∈ reads fuel k (LZWDecoder.new input 9),
      InRange p.1 ∧ p.1.dictSize + 1 ≤ 4095 ∧
      (∀ prefixCode newChar,
        (addToDictionary p.1 prefixCode newChar).dictSize = p.1.dictSize + 1) ∧
      p.2 < 4096 ∧ p.1.prevCode < 4096 ∧
      (∀ fuel2, ∀ j ∈ slotsVisited fuel2 p.1.dictionary (walked p.1 p.2), j < 4096) ∧
      (∀ temp, InRange (update p.1 p.2 temp) ∧ (update p.1 p.2 temp).dictSize + 1 ≤ 4095) := by
  have h0 := atPosition_new input
  refine ⟨h0.inRange, ?_⟩
  intro p hp
  obtain ⟨i, hi⟩ := List.getElem?_of_mem hp
  obtain ⟨hpos, hc⟩ := reads_atPosition fuel k _ 0 h0 i p.1 p.2 hi
  have hr := hpos.inRange
  have h4095 := hr.lt_4095
  have h12 : 2 ^ p.1.codeSize ≤ 2 ^ 12 := Nat.pow_le_pow_right (by norm_num) hr.2.1
  have hc4096 : p.2 < 4096 := by omega
  refine ⟨hr, by omega, ?_, hc4096, hpos.prev, ?_, ?_⟩
  · intro prefixCode newChar
    have hg : ¬ p.1.dictSize ≥ 4096 := by omega
    simp [addToDictionary, hg]
  · intro fuel2 j hj
    refine slotsVisited_lt p.1.dictionary hpos.refs fuel2 (walked p.1 p.2) ?_ j hj
    unfold walked
    split_ifs
    · exact hpos.prev
    · exact hc4096
  · intro temp
    have h2 := (atPosition_update (0 + i) p.1 p.2 temp hpos hc4096).inRange
    have := h2.lt_4095
    exact ⟨h2, by omega⟩

set_option maxRecDepth 100000 in
/-- The statement of `sizes_stay_in_range` on the stream `80 40 20 20`, whose
codes 256, 256, 257 refer to nothing: the bounds hold at each of the three
codes read. -/
theorem sizes_stay_in_range_witness :
    (reads 3 3 (LZWDecoder.new [0x80, 0x40, 0x20, 0x20] 9)).map
        (fun p => (p.1.codeSize, p.1.dictSize, p.2)) =
      [(9, 256, 256), (9, 256, 256), (9, 257, 257)] ∧
    ∀ p ∈ reads 3 3 (LZWDecoder.new [0x80, 0x40, 0x20, 0x20] 9),
      InRange p.1 ∧ p.1.dictSize + 1 ≤ 4095 ∧
      (∀ prefixCode newChar,
        (addToDictionary p.1 prefixCode newChar).dictSize = p.1.dictSize + 1) ∧
      p.2 < 4096 ∧ p.1.prevCode < 4096 ∧
      (∀ fuel2, ∀ j ∈ slotsVisited fuel2 p.1.dictionary (walked p.1 p.2), j < 4096) ∧
      (∀ temp, InRange (update p.1 p.2 temp) ∧ (update p.1 p.2 temp).dictSize + 1 ≤ 4095) :=
  ⟨by decide, (sizes_stay_in_range [0x80, 0x40, 0x20, 0x20] 3 3).2⟩

end LZW

namespace LZW

theorem Inv.wellFormedDictionary {st : LZWDecoder} (h : Inv st) : WellFormedDictionary st := by
  refine ⟨h.roots, fun i h256 hi => ⟨h.links i h256 hi, ?_⟩⟩
  obtain ⟨s, hs⟩ := chain_exists st.dictionary st.dictSize h.roots h.links i (Or.inl hi)
  obtain ⟨r, hr, hhead⟩ := chain_head st.dictionary st.dictSize h.roots h.links i s hs
    (Or.inl hi)
  have hb := chain_bound st.dictionary h.roots i s hs
  have hn : ¬ i < 256 := by omega
  simp only [hn, if_false] at hb
  refine ⟨s, r, hb, hr, hhead, fun fuel hf => ?_⟩
  exact chain_getSequence_len st.dictionary i s hs fuel [] hf

/-- C20. On an input of bytes in which the first code of each epoch is below
256 and every other code is at most `dictSize` when it is read, the dictionary
is in order at every point of `decode`: when it starts, at every code read and
after every update, slots 0..255 are the singletons and each live slot `i`
from 256 on refers back to a slot below `i`, so that `getSequence(i)` returns
after at most `i - 254` bytes, the last of them pushed being a singleton's. -/
theorem dictionary_stays_wellFormed (input : List Nat) (hbytes : ∀ b ∈ input, b < 256)
    (hwf : WellFormedStream input) (fuel k : Nat) :
    WellFormedDictionary (LZWDecoder.new input 9) ∧
    ∀ p ∈ reads fuel k (LZWDecoder.new input 9),
      WellFormedDictionary p.1 ∧ ∀ temp, WellFormedDictionary (update p.1 p.2 temp) := by
  have hinv := new_inv input hbytes
  refine ⟨hinv.wellFormedDictionary, fun p hp => ?_⟩
  obtain ⟨i, hi⟩ := List.getElem?_of_mem hp
  obtain ⟨hinv1, hok, -⟩ := reads_linked fuel k _ [] hinv
    (fun hf => by rw [(new_pending input).2.2.2.1] at hf; exact absurd hf (by simp))
    (wellFormed_reads input hwf fuel k) i p.1 p.2 hi
  exact ⟨hinv1.wellFormedDictionary,
    fun temp => (update_inv p.1 p.2 temp hinv1 hok).wellFormedDictionary⟩

/-- The stream `20 C0 20 20` (codes 65, 256, 257) meets the hypotheses of
`dictionary_stays_wellFormed`. -/
theorem dictionary_stays_wellFormed_witness :
    ((∀ b ∈ [0x20, 0xC0, 0x20, 0x20], b < 256) ∧ WellFormedStream [0x20, 0xC0, 0x20, 0x20]) ∧
    WellFormedDictionary (LZWDecoder.new [0x20, 0xC0, 0x20, 0x20] 9) ∧
    ∀ p ∈ reads 4 4 (LZWDecoder.new [0x20, 0xC0, 0x20, 0x20] 9),
      WellFormedDictionary p.1 ∧ ∀ temp, WellFormedDictionary (update p.1 p.2 temp) :=
  ⟨⟨by decide, wellFormed_runs⟩,
    dictionary_stays_wellFormed [0x20, 0xC0, 0x20, 0x20] (by decide) wellFormed_runs 4 4⟩

end LZW
